import Mathlib

/-!
# Tab-to-Markdown: rule matching and title templating

A shallow embedding of the rule engine of the extension (`content.js`) and of the
rule-authoring handler (`options.js`), with the properties of the specification
stated and settled against it.

JavaScript strings are sequences of UTF-16 code units; they are modelled as lists
of code units. The built-in string methods the program calls follow the
algorithms of ECMA-262.
-/

namespace TabMod

/-! ## JavaScript strings and values -/

/-- A JavaScript string: its sequence of UTF-16 code units. -/
abbrev JSString := List Nat

/-- UTF-16 encoding of one Unicode scalar value. -/
def utf16Char (c : Char) : List Nat :=
  if c.toNat < 0x10000 then [c.toNat]
  else [0xD800 + (c.toNat - 0x10000) / 0x400, 0xDC00 + (c.toNat - 0x10000) % 0x400]

/-- The JavaScript string denoted by a string literal of the source. -/
def utf16 (s : String) : JSString := s.toList.flatMap utf16Char

/-- The JavaScript values that reach the URL matcher: `undefined`, `null` and strings. -/
inductive JSValue where
  | undefined
  | null
  | string (s : JSString)
  deriving DecidableEq, Repr

/-- Exceptions thrown by the embedded code. -/
inductive JSError where
  | typeError
  deriving DecidableEq, Repr

/-- Completion of an evaluation: a normal value or a thrown exception. -/
inductive Completion (α : Type) where
  | normal (value : α)
  | throw (error : JSError)
  deriving DecidableEq, Repr

/-- ECMA-262 `ToString` on the modelled values. -/
def JSValue.toJSString : JSValue → JSString
  | .undefined => utf16 "undefined"
  | .null => utf16 "null"
  | .string s => s

/-- The substring of `s` from index `a` (inclusive) to index `b` (exclusive). -/
def substring (s : JSString) (a b : Nat) : JSString := (s.drop a).take (b - a)

/-- ECMA-262 `StringIndexOf(string, searchValue, fromIndex)`: the least index
`i ≥ fromIndex` at which `searchValue` occurs in `string`, or `none` for NOT-FOUND. -/
def stringIndexOf (string searchValue : JSString) (fromIndex : Nat) : Option Nat :=
  if searchValue = [] ∧ fromIndex ≤ string.length then some fromIndex
  else
    (List.range (string.length + 1 - searchValue.length)).find?
      (fun i => decide (fromIndex ≤ i ∧
        substring string i (i + searchValue.length) = searchValue))

/-- The method `String.prototype.includes(searchString)` on strings. -/
def includes (S searchStr : JSString) : Bool :=
  (stringIndexOf S searchStr 0).isSome

/-- The method `String.prototype.startsWith(searchString)` on strings. -/
def startsWith (S searchStr : JSString) : Bool :=
  if searchStr.length = 0 then true
  else if searchStr.length > S.length then false
  else decide (substring S 0 searchStr.length = searchStr)

/-- The method `String.prototype.endsWith(searchString)` on strings. -/
def endsWith (S searchStr : JSString) : Bool :=
  if searchStr.length = 0 then true
  else if S.length < searchStr.length then false
  else decide (substring S (S.length - searchStr.length) S.length = searchStr)

/-- A call `recv.m(arg)` of a string method: reading a property of `undefined` or
`null` throws a TypeError; the argument is converted with `ToString`. -/
def invokeStringMethod (m : JSString → JSString → Bool) (recv arg : JSValue) :
    Completion Bool :=
  match recv with
  | .string s => .normal (m s arg.toJSString)
  | _ => .throw .typeError

/-! ## content.js: URL matcher -/

/-- The function `doesUrlMatch(url, matchType, value)` of content.js: a `switch`
(strict equality) on `matchType`. -/
def doesUrlMatch (url matchType value : JSValue) : Completion Bool :=
  if matchType = .string (utf16 "contains") then invokeStringMethod includes url value
  else if matchType = .string (utf16 "is") then .normal (decide (url = value))
  else if matchType = .string (utf16 "startsWith") then invokeStringMethod startsWith url value
  else if matchType = .string (utf16 "endsWith") then invokeStringMethod endsWith url value
  else .normal false

/-! ## JavaScript string replacement -/

/-- ECMA-262 `GetSubstitution(matched, str, position, captures, namedCaptures,
replacementTemplate)` for a call without capture groups (`captures` empty,
`namedCaptures` undefined), as `replaceAll` with a string pattern makes it. The
replacement template is scanned left to right: `$$` gives `$`, `$&` the matched text,
`$` followed by a backtick the text before the match, `$` followed by an apostrophe
the text after it; `$` followed by digits or by `<` refers to no capture and stands
for itself, as does every other code unit. -/
def getSubstitution (matched str : JSString) (position : Nat) : JSString → JSString
  | [] => []
  | [c] => [c]
  | c :: d :: rest =>
    if c = 0x24 ∧ d = 0x24 then 0x24 :: getSubstitution matched str position rest
    else if c = 0x24 ∧ d = 0x60 then
      substring str 0 position ++ getSubstitution matched str position rest
    else if c = 0x24 ∧ d = 0x26 then matched ++ getSubstitution matched str position rest
    else if c = 0x24 ∧ d = 0x27 then
      str.drop (min (position + matched.length) str.length)
        ++ getSubstitution matched str position rest
    else c :: getSubstitution matched str position (d :: rest)

/-- The loop of `String.prototype.replaceAll` that collects the match positions:
`position = StringIndexOf(string, searchString, fromIndex)`, repeated from
`position + advanceBy` until NOT-FOUND. Positions strictly increase, so the loop
body runs at most `string.length + 1` times; `fuel` bounds the iterations. -/
def matchPositions (string searchString : JSString) (advanceBy : Nat) :
    Nat → Nat → List Nat
  | 0, _ => []
  | fuel + 1, fromIndex =>
    match stringIndexOf string searchString fromIndex with
    | none => []
    | some position =>
      position :: matchPositions string searchString advanceBy fuel (position + advanceBy)

/-- The loop of `String.prototype.replaceAll` that builds the result from the match
positions, with the final step that appends the text after the last match. -/
def replaceAllLoop (string searchString replaceValue : JSString) :
    List Nat → Nat → JSString → JSString
  | [], endOfLastMatch, result =>
    if endOfLastMatch < string.length then
      result ++ substring string endOfLastMatch string.length
    else result
  | p :: ps, endOfLastMatch, result =>
    replaceAllLoop string searchString replaceValue ps (p + searchString.length)
      (result ++ substring string endOfLastMatch p
        ++ getSubstitution searchString string p replaceValue)

/-- The method `String.prototype.replaceAll(searchValue, replaceValue)` with a string
pattern and a string replacement. -/
def replaceAll (string searchString replaceValue : JSString) : JSString :=
  replaceAllLoop string searchString replaceValue
    (matchPositions string searchString (max 1 searchString.length) (string.length + 2) 0)
    0 []

/-- Whether a code unit is trimmed by `String.prototype.trim`: WhiteSpace or
LineTerminator of ECMA-262. -/
def isTrimmed (c : Nat) : Bool :=
  c = 0x09 || c = 0x0A || c = 0x0B || c = 0x0C || c = 0x0D || c = 0x20 || c = 0xA0
    || c = 0x1680 || (0x2000 ≤ c && c ≤ 0x200A) || c = 0x2028 || c = 0x2029
    || c = 0x202F || c = 0x205F || c = 0x3000 || c = 0xFEFF

/-- The method `String.prototype.trim()`. -/
def trim (s : JSString) : JSString :=
  ((s.dropWhile isTrimmed).reverse.dropWhile isTrimmed).reverse

/-! ## JavaScript objects with string values -/

/-- A plain object (prototype `Object.prototype`) whose own properties are enumerable
data properties with string values: the list of its own properties in property
order, which is the order of `Object.keys`, `Object.values` and `Object.entries`. -/
abbrev JSObject := List (JSString × JSString)

/-- The names of the properties of `Object.prototype`, which every plain object
inherits. -/
def objectPrototypeKeys : List JSString :=
  [utf16 "constructor", utf16 "__defineGetter__", utf16 "__defineSetter__",
   utf16 "hasOwnProperty", utf16 "__lookupGetter__", utf16 "__lookupSetter__",
   utf16 "isPrototypeOf", utf16 "propertyIsEnumerable", utf16 "toString",
   utf16 "valueOf", utf16 "__proto__", utf16 "toLocaleString"]

/-- The value of a string of decimal digits. -/
def digitsValue (s : JSString) : Nat := s.foldl (fun acc c => 10 * acc + (c - 0x30)) 0

/-- The array index a property key denotes, if it is one: a canonical numeric
string with a value below `2^32 - 1`. -/
def arrayIndex? (key : JSString) : Option Nat :=
  if key ≠ [] ∧ key.all (fun c => decide (0x30 ≤ c ∧ c ≤ 0x39)) = true
      ∧ (key.head? ≠ some 0x30 ∨ key.length = 1) ∧ digitsValue key < 2 ^ 32 - 1 then
    some (digitsValue key)
  else none

namespace JSObject

/-- The own property names, `Object.keys(o)`. -/
def keys (o : JSObject) : List JSString := o.map Prod.fst

/-- The own property values, `Object.values(o)`. -/
def values (o : JSObject) : List JSString := o.map Prod.snd

/-- The own properties, `Object.entries(o)`. -/
def entries (o : JSObject) : List (JSString × JSString) := o

/-- The operator `key in o`: an own property or one inherited from
`Object.prototype`. -/
def hasProperty (o : JSObject) (key : JSString) : Bool :=
  decide (key ∈ o.keys) || decide (key ∈ objectPrototypeKeys)

/-- Overwrite the value of an existing own property, keeping its position. -/
def update (key value : JSString) : JSObject → JSObject
  | [] => []
  | (k, w) :: rest => if k = key then (k, value) :: rest else (k, w) :: update key value rest

/-- Create a new own property at its place in property order: array indices come
first in ascending numeric order, then the other keys in creation order. -/
def insertNew (key value : JSString) : JSObject → JSObject
  | [] => [(key, value)]
  | (k, w) :: rest =>
    match arrayIndex? key, arrayIndex? k with
    | some n, some m =>
      if n < m then (key, value) :: (k, w) :: rest else (k, w) :: insertNew key value rest
    | some _, none => (key, value) :: (k, w) :: rest
    | none, _ => (k, w) :: insertNew key value rest

/-- The value of the own property `key`, if there is one. -/
def get? : JSObject → JSString → Option JSString
  | [], _ => none
  | (k, v) :: rest, key => if k = key then some v else get? rest key

/-- The assignment `o[key] = value` of a string value. An own property is
overwritten; otherwise the key `__proto__` reaches the setter inherited from
`Object.prototype`, which ignores a value that is neither an object nor null, and
any other key becomes a new own property. -/
def set (o : JSObject) (key value : JSString) : JSObject :=
  if key ∈ o.keys then update key value o
  else if key = utf16 "__proto__" then o
  else insertNew key value o

/-- Property order on two keys of one object, the first created before the second: an
array index precedes a greater array index and every other key; a key that is not an
array index precedes only keys that are not array indices. -/
def keyPrecedes (k1 k2 : JSString) : Bool :=
  match arrayIndex? k1, arrayIndex? k2 with
  | some a, some b => decide (a < b)
  | some _, none => true
  | none, some _ => false
  | none, none => true

/-- A list of properties is the property list of an object: the keys are distinct and
stand in property order. -/
abbrev WellFormed (o : JSObject) : Prop :=
  o.keys.Nodup ∧ o.keys.Pairwise (fun k1 k2 => keyPrecedes k1 k2 = true)

end JSObject

/-! ## content.js: template rendering -/

/-- The template literal of line 24 of content.js: the text of the placeholder for
`name`, two opening braces, the name, two closing braces. -/
def placeholder (name : JSString) : JSString := [0x7B, 0x7B] ++ name ++ [0x7D, 0x7D]

/-- The loop of `updateTitle` (lines 22 to 25): `replaceAll` of the placeholder of
each entry of `extractedData`, in the order of `Object.entries`. -/
def renderTitle (titleChange : JSString) (extractedData : JSObject) : JSString :=
  extractedData.entries.foldl
    (fun newTitle entry => replaceAll newTitle (placeholder entry.1) entry.2) titleChange

/-- Spec wording of the template engine for one key: the text with every
non-overlapping occurrence of `pat`, scanned left to right, replaced by `v`. The
counter is the number of code units of the occurrence just replaced that are still
to be passed over. -/
def replaceOccurrences (pat v : JSString) : Nat → JSString → JSString
  | _, [] => []
  | skip + 1, _ :: cs => replaceOccurrences pat v skip cs
  | 0, c :: cs =>
    if pat <+: c :: cs then v ++ replaceOccurrences pat v (pat.length - 1) cs
    else c :: replaceOccurrences pat v 0 cs

/-- Spec wording of simultaneous substitution, for comparison: the template is scanned
left to right, at each position the placeholder of the first entry that occurs there is
replaced by the value of that entry, and inserted text is not scanned again. The counter
is the number of code units of the placeholder just replaced that are still to be
passed over. -/
def substituteSimultaneously (data : JSObject) : Nat → JSString → JSString
  | _, [] => []
  | skip + 1, _ :: cs => substituteSimultaneously data skip cs
  | 0, c :: cs =>
    match data.find? (fun e => decide (placeholder e.1 <+: c :: cs)) with
    | some e => e.2 ++ substituteSimultaneously data ((placeholder e.1).length - 1) cs
    | none => c :: substituteSimultaneously data 0 cs

/-! ## content.js: the page, the verification banner and `updateTitle` -/

/-- A stored rule (spec section 3, and the object literal of options.js lines 158 to 165). -/
structure Rule where
  id : JSString
  matchType : JSString
  urlValue : JSString
  selectors : JSObject
  titleChange : JSString
  verifiedTitle : Bool
  deriving DecidableEq, Repr

/-- A verification banner in the document (an element of class
`tabmod-verify-banner`): the title it displays and the rule id its buttons carry. -/
structure Banner where
  title : JSString
  ruleId : JSString
  deriving DecidableEq, Repr

/-- A call of an extension API: `chrome.storage.local.get("rules", ...)`,
`chrome.storage.local.set({ rules }, ...)`, `chrome.runtime.sendMessage` of a message
with the fields `action` and `ruleId`, `chrome.runtime.openOptionsPage`, and
`chrome.scripting.executeScript` of the file content.js into a tab. -/
inductive ApiCall where
  | storageGet
  | storageSet (rules : List Rule)
  | sendMessage (action ruleId : JSString)
  | openOptionsPage
  | executeScript (tabId : Nat)
  deriving DecidableEq, Repr

/-- What the content script has done to its tab: `document.title`, the verification
banners appended to the body, and the extension API calls it has issued, in order. -/
structure Page where
  title : JSString
  banners : List Banner
  apiCalls : List ApiCall := []
  deriving DecidableEq, Repr

/-- The function `removeExistingBanners()` of content.js. -/
def removeExistingBanners (page : Page) : Page := { page with banners := [] }

/-- The function `showVerifyBanner(title, ruleId, onConfirm)` of content.js: existing
banners are removed and one banner is appended to the body. -/
def showVerifyBanner (title ruleId : JSString) (page : Page) : Page :=
  { removeExistingBanners page with
    banners := (removeExistingBanners page).banners ++ [{ title := title, ruleId := ruleId }] }

/-- The function `updateTitle(rule, extractedData)` of content.js: render the title,
write `document.title`, and show the verify banner when the rule is not verified. -/
def updateTitle (rule : Rule) (extractedData : JSObject) (page : Page) : Page :=
  let newTitle := renderTitle rule.titleChange extractedData
  let page1 : Page := { page with title := newTitle }
  if !rule.verifiedTitle then showVerifyBanner newTitle rule.id page1 else page1

/-- What `chrome.storage.local.get("rules", ...)` delivers to its callback: whether
`chrome.runtime.lastError` is set, and the item `rules` (absent when nothing is stored,
in which case the callback takes the default `[]`). -/
structure StorageRead where
  lastError : Bool
  rules : Option (List Rule)
  deriving DecidableEq, Repr

/-- The callback of the read issued by `onConfirm` (content.js lines 36 to 52) for the
rule id captured by the banner. With `lastError` set it returns (or fails on its
parameter) before anything is written. Otherwise the rule is looked up by id with
`findIndex`, its `verifiedTitle` is set in place and the list is written back; an id
that is not found writes nothing. -/
def onConfirmCallback (ruleId : JSString) (read : StorageRead) (page : Page) : Page :=
  if read.lastError then page
  else
    match (read.rules.getD []).findIdx? (fun r => decide (r.id = ruleId)) with
    | none => page
    | some ruleIndex =>
      { page with
        apiCalls := page.apiCalls ++
          [.storageSet ((read.rules.getD []).modify
            (fun r => { r with verifiedTitle := true }) ruleIndex)] }

/-- The handler `looksGoodBtn.onclick` of a banner (content.js lines 103 to 107):
`onConfirm()` issues the storage read, and the banner is removed. -/
def looksGoodClick (banner : Banner) (page : Page) : Page :=
  { page with
    banners := page.banners.erase banner
    apiCalls := page.apiCalls ++ [.storageGet] }

/-- The handler `wrongBtn.onclick` of a banner (content.js lines 119 to 127): one
message with the rule id of the banner is sent, and the banner is removed. -/
def wrongClick (banner : Banner) (page : Page) : Page :=
  { page with
    banners := page.banners.erase banner
    apiCalls := page.apiCalls ++ [.sendMessage (utf16 "openOptionsWithError") banner.ruleId] }

/-- The `runtime.onMessage` listener of background.js (lines 21 to 34) on a message
with the fields `action` and `ruleId`: the API calls it makes. -/
def backgroundOnMessage (action ruleId : JSString) : List ApiCall :=
  if action = utf16 "openOptionsWithError" then
    [.openOptionsPage, .sendMessage (utf16 "setErrorFilter") ruleId]
  else []

/-- The Rule Store after a sequence of API calls on a store holding `stored`: each
write replaces the stored list, nothing else changes it. -/
def storeAfter (stored : List Rule) : List ApiCall → List Rule
  | [] => stored
  | .storageSet rules :: rest => storeAfter rules rest
  | .storageGet :: rest => storeAfter stored rest
  | .sendMessage _ _ :: rest => storeAfter stored rest
  | .openOptionsPage :: rest => storeAfter stored rest
  | .executeScript _ :: rest => storeAfter stored rest

/-! ## content.js: waiting for dynamic content and the main routine -/

/-- An element of the document, with the text content the script reads. -/
structure Element where
  textContent : JSString
  deriving DecidableEq, Repr

/-- The document handle (spec section 6): `querySelector(selector)` gives the first
matching element or null. A value of this type is the document at one instant. -/
structure Dom where
  querySelector : JSString → Option Element

/-- One delivery of mutation records to the observer of `waitForDynamicContent`:
the document as the observer callback sees it, and the document as the awaiting
routine sees it when it resumes after the promise has been resolved. -/
structure MutationBatch where
  observed : Dom
  resumed : Dom

/-- The check of the observer callback of `waitForDynamicContent`:
`selectors.every(selector => document.querySelector(selector))`. -/
def allElementsFound (selectors : List JSString) (dom : Dom) : Bool :=
  selectors.all (fun selector => (dom.querySelector selector).isSome)

/-- The function `waitForDynamicContent(selectors)` over the mutation batches
delivered after the observer is registered: the number of the batch at which the
promise resolves (and the observer disconnects), `none` while it stays pending. No
check is made when the observer is registered. -/
def waitForDynamicContent (selectors : List JSString) (batches : List MutationBatch) :
    Option Nat :=
  batches.findIdx? (fun batch => allElementsFound selectors batch.observed)

/-- The promise and the observer made by one call of `waitForDynamicContent`: whether
the observer is connected, the number of the batch at whose delivery `resolve()` was
called, the number of calls of `resolve()`, and the number of times the callback ran
its query over the selectors. -/
structure Waiter where
  connected : Bool
  resolvedAt : Option Nat
  resolveCalls : Nat
  checks : Nat
  deriving DecidableEq, Repr

/-- The state when `waitForDynamicContent` returns: the observer is registered on the
body, nothing has been queried, the promise is pending. -/
def Waiter.initial : Waiter :=
  { connected := true, resolvedAt := none, resolveCalls := 0, checks := 0 }

/-- Delivery of the batch number `batchNo` to the observer of `waitForDynamicContent`
(content.js lines 138 to 147): a connected observer runs the callback, which queries
the selectors and, when all are found, disconnects and resolves; a disconnected
observer is not called. A promise settles at its first `resolve()`. -/
def Waiter.deliver (selectors : List JSString) (w : Waiter) (batchNo : Nat)
    (batch : MutationBatch) : Waiter :=
  if w.connected then
    if allElementsFound selectors batch.observed then
      { connected := false,
        resolvedAt := match w.resolvedAt with
          | none => some batchNo
          | some k => some k,
        resolveCalls := w.resolveCalls + 1,
        checks := w.checks + 1 }
    else { w with checks := w.checks + 1 }
  else w

/-- The observer over the batches delivered from batch number `batchNo` on. -/
def Waiter.run (selectors : List JSString) : Waiter → Nat → List MutationBatch → Waiter
  | w, _, [] => w
  | w, batchNo, batch :: rest =>
    Waiter.run selectors (Waiter.deliver selectors w batchNo batch) (batchNo + 1) rest

/-- The extraction loop of the main routine (lines 177 to 181): for each entry of
`rule.selectors` the trimmed text of the first matching element is stored under the
entry's name; reading `textContent` of null throws a TypeError. -/
def extractData (dom : Dom) : List (JSString × JSString) → JSObject → Completion JSObject
  | [], extractedData => .normal extractedData
  | (name, selector) :: rest, extractedData =>
    match dom.querySelector selector with
    | none => .throw .typeError
    | some element => extractData dom rest (extractedData.set name (trim element.textContent))

/-- Spec wording of the extracted value: the text content of the first element matching
the selector, with leading and trailing white space removed (empty when no element
matches). -/
def trimmedText (dom : Dom) (selector : JSString) : JSString :=
  match dom.querySelector selector with
  | some element => trim element.textContent
  | none => []

/-- What one iteration of the rule loop did for the rule at position `idx` of the
stored list: `updateTitle` was called, or the `catch` block logged an error. -/
inductive LogEntry where
  | applied (idx : Nat)
  | failed (idx : Nat)
  deriving DecidableEq, Repr

/-- Where the asynchronous main routine stands: suspended in the `await` for the
rule at position `idx` (with the rules that follow it), finished, or rejected by an
exception thrown outside the `try` block. -/
inductive Status where
  | waiting (idx : Nat) (rule : Rule) (rest : List Rule)
  | finished
  | rejected (error : JSError)
  deriving DecidableEq, Repr

/-- State of the content script on one page load. -/
structure Script where
  status : Status
  page : Page
  log : List LogEntry
  deriving DecidableEq, Repr

/-- The `for` loop of the main routine from the rule at position `idx` on: rules
that do not match the URL are skipped; at the first matching rule the routine
registers the observer and suspends. -/
def resumeLoop (currentUrl : JSString) : List Rule → Nat → Page → List LogEntry → Script
  | [], _, page, log => { status := .finished, page := page, log := log }
  | rule :: rest, idx, page, log =>
    match doesUrlMatch (.string currentUrl) (.string rule.matchType) (.string rule.urlValue) with
    | .normal false => resumeLoop currentUrl rest (idx + 1) page log
    | .normal true => { status := .waiting idx rule rest, page := page, log := log }
    | .throw error => { status := .rejected error, page := page, log := log }

/-- The callback of `chrome.storage.local.get` up to the first suspension. -/
def start (rules : List Rule) (currentUrl : JSString) (page : Page) : Script :=
  resumeLoop currentUrl rules 0 page []

/-- Delivery of one mutation batch. If the routine is suspended and every selector of
the rule resolves, the promise resolves and the routine resumes: extraction and
`updateTitle`, or the `catch` block, then the loop goes on with the next rule.
Otherwise nothing happens. -/
def onMutation (currentUrl : JSString) (s : Script) (batch : MutationBatch) : Script :=
  match s.status with
  | .waiting idx rule rest =>
    if allElementsFound rule.selectors.values batch.observed then
      match extractData batch.resumed rule.selectors.entries [] with
      | .normal extractedData =>
        resumeLoop currentUrl rest (idx + 1) (updateTitle rule extractedData s.page)
          (s.log ++ [.applied idx])
      | .throw _ => resumeLoop currentUrl rest (idx + 1) s.page (s.log ++ [.failed idx])
    else s
  | _ => s

/-- The content script on one page load: the main routine, then the mutation batches
in the order of their delivery. -/
def run (rules : List Rule) (currentUrl : JSString) (page : Page)
    (batches : List MutationBatch) : Script :=
  batches.foldl (onMutation currentUrl) (start rules currentUrl page)

/-- Invariant of the content script with respect to the rule at position `i`: no log
entry for it, no rejection, and a suspended routine waits for the rule found at the
position it records, with the rules after it. -/
def NeverApplied (rules : List Rule) (i : Nat) (s : Script) : Prop :=
  LogEntry.applied i ∉ s.log ∧ LogEntry.failed i ∉ s.log ∧
  (∀ error, s.status ≠ .rejected error) ∧
  (∀ idx rule rest, s.status = .waiting idx rule rest →
    rules[idx]? = some rule ∧ rest = rules.drop (idx + 1))

/-- The position in the stored list that a log entry is about. -/
def LogEntry.idx : LogEntry → Nat
  | .applied idx => idx
  | .failed idx => idx

/-- The test of line 168 of content.js: the rule matches the current URL. -/
abbrev matchesUrl (currentUrl : JSString) (rule : Rule) : Prop :=
  doesUrlMatch (.string currentUrl) (.string rule.matchType) (.string rule.urlValue)
    = .normal true

/-- The positions of the rules that match the URL, in store order, for a list of rules
whose first element stands at position `idx`. -/
def matchingFrom (currentUrl : JSString) : List Rule → Nat → List Nat
  | [], _ => []
  | rule :: rest, idx =>
    if matchesUrl currentUrl rule then idx :: matchingFrom currentUrl rest (idx + 1)
    else matchingFrom currentUrl rest (idx + 1)

/-- The positions of the matching rules the routine has still to process: the one it
waits for and the matching ones after it. -/
def Status.pending (currentUrl : JSString) : Status → List Nat
  | .waiting idx _ rest => idx :: matchingFrom currentUrl rest (idx + 1)
  | .finished => []
  | .rejected _ => []

/-! ## background.js: the tab listener -/

/-- The predicate `matchesAnyRule` of background.js (lines 49 to 62): `rules.some` of
the inline `switch` on `rule.matchType`. -/
def matchesAnyRule (tabUrl : JSString) (rules : List Rule) : Bool :=
  rules.any (fun rule =>
    if rule.matchType = utf16 "contains" then includes tabUrl rule.urlValue
    else if rule.matchType = utf16 "is" then decide (tabUrl = rule.urlValue)
    else if rule.matchType = utf16 "startsWith" then startsWith tabUrl rule.urlValue
    else if rule.matchType = utf16 "endsWith" then endsWith tabUrl rule.urlValue
    else false)

/-- The arguments of a `tabs.onUpdated` event that the listener reads:
`changeInfo.status` and `tab.url` (each may be undefined) and the tab id. -/
structure TabUpdate where
  tabId : Nat
  status : Option JSString
  url : Option JSString
  deriving DecidableEq, Repr

/-- The `tabs.onUpdated` listener of background.js (lines 37 to 84), with the item
`rules` that the storage read delivers: the API calls it makes. -/
def tabsOnUpdated (update : TabUpdate) (storedRules : Option (List Rule)) : List ApiCall :=
  match update.url with
  | none => []
  | some url =>
    if update.status = some (utf16 "complete") ∧ url ≠ [] then
      if startsWith url (utf16 "chrome://") = true
          ∨ startsWith url (utf16 "chrome-extension://") = true then []
      else if matchesAnyRule url (storedRules.getD []) then
        [.storageGet, .executeScript update.tabId]
      else [.storageGet]
    else []

/-! ## options.js: the submit handler of the rule form -/

/-- Whether a code unit is a LineTerminator, which `.` of a regular expression
without the `s` flag does not match. -/
def isLineTerminator (c : Nat) : Bool :=
  c = 0x0A || c = 0x0D || c = 0x2028 || c = 0x2029

/-- The tail of the pattern of line 137 of options.js, the lazy group `(.*?)`
followed by two closing braces, matched at the start of the text: the capture and
the number of code units matched. The group is extended by one code unit at a time
and only while the closing braces do not follow. -/
def matchLazyGroup : JSString → Option (JSString × Nat)
  | [] => none
  | [_] => none
  | c :: d :: rest =>
    if c = 0x7D ∧ d = 0x7D then some ([], 2)
    else if isLineTerminator c then none
    else (matchLazyGroup (d :: rest)).map (fun r => (c :: r.1, r.2 + 1))

/-- One attempt of the whole pattern (two opening braces, the lazy group, two closing
braces) at the start of the text: capture group 1 and the length of the match. -/
def matchPlaceholderAt : JSString → Option (JSString × Nat)
  | c :: d :: rest =>
    if c = 0x7B ∧ d = 0x7B then (matchLazyGroup rest).map (fun r => (r.1, r.2 + 2))
    else none
  | _ => none

/-- The captures of the global `matchAll` of the pattern: attempts start at each
index from `lastIndex` on, and after a match `lastIndex` is its end. The counter is
the number of code units still before `lastIndex`. -/
def matchAllPlaceholders : Nat → JSString → List JSString
  | _, [] => []
  | skip + 1, _ :: cs => matchAllPlaceholders skip cs
  | 0, c :: cs =>
    match matchPlaceholderAt (c :: cs) with
    | some (name, len) => name :: matchAllPlaceholders (len - 1) cs
    | none => matchAllPlaceholders 0 cs

/-- Line 137 of options.js: the names used as placeholders in the title template. -/
def usedPlaceholders (titleTemplate : JSString) : List JSString :=
  matchAllPlaceholders 0 titleTemplate

/-- A row of class `selectorPair` of the form, with the values of its two inputs. -/
structure SelectorPair where
  selectorName : JSString
  selectorValue : JSString
  deriving DecidableEq, Repr

/-- The state of the rule form at submission. -/
structure RuleForm where
  matchType : JSString
  urlValue : JSString
  selectorPairs : List SelectorPair
  titleChange : JSString
  deriving DecidableEq, Repr

/-- The callback of the `forEach` of lines 117 to 125 of options.js, on the pair of
the `selectors` object and the flag `valid`: a row with both trimmed values non-empty
is assigned into `selectors`, any other row clears `valid`. -/
def gatherStep (acc : JSObject × Bool) (pair : SelectorPair) : JSObject × Bool :=
  if trim pair.selectorName ≠ [] ∧ trim pair.selectorValue ≠ [] then
    (acc.1.set (trim pair.selectorName) (trim pair.selectorValue), acc.2)
  else (acc.1, false)

/-- Lines 113 to 125 of options.js: the `selectors` object gathered from the rows and
the flag `valid`. -/
def gatherSelectors (pairs : List SelectorPair) : JSObject × Bool :=
  pairs.foldl gatherStep ([], true)

/-- How the submit handler ends: with one of its three alerts, or at the save step
with the new rule. -/
inductive SubmitOutcome where
  | missingFields
  | unknownPlaceholders (unknown : List JSString)
  | unusedSelectors (unused : List JSString)
  | save (newRule : Rule)
  deriving DecidableEq, Repr

/-- The submit handler of `ruleForm` (options.js lines 104 to 165), up to the save
step; `uuid` is the value of `crypto.randomUUID()`. -/
def ruleFormSubmit (form : RuleForm) (uuid : JSString) : SubmitOutcome :=
  let selectors := (gatherSelectors form.selectorPairs).1
  let valid := (gatherSelectors form.selectorPairs).2
  if !valid then .missingFields
  else
    let titleTemplate := form.titleChange
    let used := usedPlaceholders titleTemplate
    let unknown := used.filter (fun name => !(selectors.hasProperty name))
    if unknown.length > 0 then .unknownPlaceholders unknown
    else
      let unused := selectors.keys.filter (fun name => !(used.contains name))
      if unused.length > 0 then .unusedSelectors unused
      else
        .save { id := uuid, matchType := form.matchType, urlValue := form.urlValue,
                selectors := selectors, titleChange := titleTemplate, verifiedTitle := false }

/-- The save step of the submit handler (options.js lines 167 to 200) on the freshly
read list `rules` (the stored item or `[]`): the list written back. `editIndex` is the
value of `addRuleBtn.dataset.editIndex`, absent when a new rule is added. In edit mode
the entry at that position is replaced by the new rule with the id of the old entry;
reading the id of a missing entry throws a TypeError and nothing is written. -/
def saveRule (newRule : Rule) (editIndex : Option Nat) (rules : List Rule) :
    Completion (List Rule) :=
  match editIndex with
  | some e =>
    match rules[e]? with
    | some old => .normal (rules.set e { newRule with id := old.id })
    | none => .throw .typeError
  | none => .normal (rules ++ [newRule])

/-! ## options.js: the rule list of the options page -/

/-- The options page and the Rule Store: the stored list, the array last passed to
`renderRules` (the Edit and Delete buttons of the page close over it and over their
position in it), and `addRuleBtn.dataset.editIndex`. -/
structure OptionsPage where
  stored : List Rule
  rendered : List Rule
  editIndex : Option Nat
  deriving DecidableEq, Repr

/-- The handler `editBtn.onclick` of the entry at position `index` (lines 241 to 274):
the form is filled from the rule and the position is recorded in the dataset. -/
def editClick (index : Nat) (page : OptionsPage) : OptionsPage :=
  { page with editIndex := some index }

/-- The handler `delBtn.onclick` of the entry at position `index` (lines 279 to 287):
`rules.splice(index, 1)` on the rendered array, which is written to the store and
rendered again. The dataset is not touched. -/
def deleteClick (index : Nat) (page : OptionsPage) : OptionsPage :=
  { page with
    stored := page.rendered.eraseIdx index
    rendered := page.rendered.eraseIdx index }

/-- The whole submit handler (lines 104 to 200) on the options page: a form that is
not accepted changes nothing; an accepted one goes through the save step on the stored
list, the list written is rendered, and the edit branch deletes the dataset entry. An
exception in the save step leaves everything as it is. -/
def submitForm (form : RuleForm) (uuid : JSString) (page : OptionsPage) : OptionsPage :=
  match ruleFormSubmit form uuid with
  | .save newRule =>
    match saveRule newRule page.editIndex page.stored with
    | .normal rules => { stored := rules, rendered := rules, editIndex := none }
    | .throw _ => page
  | _ => page

/-! ## options.js: import of rules -/

/-- A value produced by `JSON.parse`. A number is kept as the text of its literal. -/
inductive Json where
  | null
  | bool (b : Bool)
  | number (literal : JSString)
  | string (s : JSString)
  | array (items : List Json)
  | object (props : List (JSString × Json))
  deriving Repr

/-- The own and inherited string-keyed property names of `Array.prototype`, besides
those of `Object.prototype`. -/
def arrayPrototypeKeys : List JSString :=
  [utf16 "length", utf16 "at", utf16 "concat", utf16 "copyWithin", utf16 "fill",
   utf16 "find", utf16 "findIndex", utf16 "findLast", utf16 "findLastIndex",
   utf16 "lastIndexOf", utf16 "pop", utf16 "push", utf16 "reverse", utf16 "shift",
   utf16 "unshift", utf16 "slice", utf16 "sort", utf16 "splice", utf16 "includes",
   utf16 "indexOf", utf16 "join", utf16 "keys", utf16 "entries", utf16 "values",
   utf16 "forEach", utf16 "filter", utf16 "flat", utf16 "flatMap", utf16 "map",
   utf16 "every", utf16 "some", utf16 "reduce", utf16 "reduceRight", utf16 "toReversed",
   utf16 "toSorted", utf16 "toSpliced", utf16 "with"]

/-- The operator `field in value` on a parsed value: an object has its own properties
and those of `Object.prototype`; an array has its indices and the properties of
`Array.prototype` and `Object.prototype`; on a primitive or null the operator throws a
TypeError. -/
def Json.hasProperty (field : JSString) : Json → Completion Bool
  | .object props =>
    .normal (decide (field ∈ props.map Prod.fst) || decide (field ∈ objectPrototypeKeys))
  | .array items =>
    .normal ((match arrayIndex? field with
      | some n => decide (n < items.length)
      | none => false)
      || decide (field ∈ arrayPrototypeKeys) || decide (field ∈ objectPrototypeKeys))
  | _ => .throw .typeError

/-- The array `requiredFields` of line 959 of options.js. -/
def requiredFields : List JSString :=
  [utf16 "matchType", utf16 "urlValue", utf16 "selectors", utf16 "titleChange"]

/-- How the import ends: the list is written to the Rule Store, or the `catch` block
reports an error and nothing is written. -/
inductive ImportOutcome where
  | written (importedRules : List Json)
  | error
  deriving Repr

/-- The import handler after `JSON.parse` (options.js lines 953 to 981). The value must
be an array; for every element and every required field the test `field in rule` must
be true. A false test throws an Error and a test on a non-object throws a TypeError;
both end in the `catch` block. Otherwise the array is written. -/
def importParsed (importedRules : Json) : ImportOutcome :=
  match importedRules with
  | .array items =>
    if items.all (fun rule =>
        requiredFields.all (fun field => decide (Json.hasProperty field rule = .normal true)))
    then .written items
    else .error
  | _ => .error

/-! ## Scenario data -/

/-- The rule of Scenario A. -/
def scenarioRule : Rule :=
  { id := utf16 "rule-1", matchType := utf16 "contains",
    urlValue := utf16 "example.com/orders",
    selectors := [(utf16 "order", utf16 "#order-id")],
    titleChange := utf16 "Order \x7b\x7border\x7d\x7d", verifiedTitle := false }

/-- The page URL of Scenario A. -/
def scenarioUrl : JSString := utf16 "https://example.com/orders/42"

/-- A document in which `#order-id` resolves to an element with text 42 and no other
selector resolves. -/
def scenarioDom : Dom :=
  { querySelector := fun selector =>
      if selector = utf16 "#order-id" then some { textContent := utf16 "42" } else none }

/-- A document in which no selector resolves. -/
def emptyDom : Dom := { querySelector := fun _ => none }

/-- The page before the content script runs, with the title the site gave it. -/
def scenarioPage : Page := { title := utf16 "Orders", banners := [] }

/-- A second rule matching the page of Scenario A (Scenario D). -/
def secondRule : Rule :=
  { id := utf16 "rule-2", matchType := utf16 "startsWith",
    urlValue := utf16 "https://example.com/",
    selectors := [(utf16 "customer", utf16 "#customer")],
    titleChange := utf16 "Customer \x7b\x7bcustomer\x7d\x7d", verifiedTitle := false }

/-- A document in which `#order-id` resolves to the text 42 and `#customer` to the
text Ada, with surrounding white space. -/
def bothDom : Dom :=
  { querySelector := fun selector =>
      if selector = utf16 "#order-id" then some { textContent := utf16 "42" }
      else if selector = utf16 "#customer" then some { textContent := utf16 " Ada\n" }
      else none }

/-- A rule matching the page of Scenario A whose selector `#missing` resolves in none
of the documents above. -/
def blockedRule : Rule :=
  { id := utf16 "rule-0", matchType := utf16 "endsWith", urlValue := utf16 "/42",
    selectors := [(utf16 "x", utf16 "#missing")],
    titleChange := utf16 "Missing \x7b\x7bx\x7d\x7d", verifiedTitle := false }

/-- The rule form of Scenario A with another title template, as submitted after an
edit of that rule. -/
def editedForm : RuleForm :=
  { matchType := utf16 "contains", urlValue := utf16 "example.com/orders",
    selectorPairs := [{ selectorName := utf16 "order", selectorValue := utf16 "#order-id" }],
    titleChange := utf16 "Order no. \x7b\x7border\x7d\x7d" }

/-- The rule form filled in for the rule of Scenario A. -/
def scenarioForm : RuleForm :=
  { matchType := utf16 "contains", urlValue := utf16 "example.com/orders",
    selectorPairs := [{ selectorName := utf16 "order", selectorValue := utf16 "#order-id" }],
    titleChange := utf16 "Order \x7b\x7border\x7d\x7d" }

/-! ## JSON text: `JSON.stringify` and `JSON.parse` -/

/-- The lowercase hexadecimal digit of a value below 16. -/
def hexDigit (n : Nat) : Nat := if n < 10 then 0x30 + n else 0x61 + (n - 10)

/-- ECMA-262 `UnicodeEscape(C)`: a backslash, `u`, and four lowercase hexadecimal
digits. -/
def unicodeEscape (c : Nat) : JSString :=
  [0x5C, 0x75, hexDigit (c / 4096 % 16), hexDigit (c / 256 % 16), hexDigit (c / 16 % 16),
   hexDigit (c % 16)]

/-- The step of ECMA-262 `QuoteJSONString` for a code point that is one code unit: the
two-character escapes of the table, a Unicode escape for a control character or a lone
surrogate, the code unit itself otherwise. -/
def quoteUnit (c : Nat) : JSString :=
  if c = 0x08 then [0x5C, 0x62]
  else if c = 0x09 then [0x5C, 0x74]
  else if c = 0x0A then [0x5C, 0x6E]
  else if c = 0x0C then [0x5C, 0x66]
  else if c = 0x0D then [0x5C, 0x72]
  else if c = 0x22 then [0x5C, 0x22]
  else if c = 0x5C then [0x5C, 0x5C]
  else if c < 0x20 ∨ (0xD800 ≤ c ∧ c ≤ 0xDFFF) then unicodeEscape c
  else [c]

/-- The loop of `QuoteJSONString` over the code points of the string: a leading
surrogate followed by a trailing surrogate is one code point and is copied. -/
def quoteChars : JSString → JSString
  | [] => []
  | [c] => quoteUnit c
  | c :: d :: rest =>
    if (0xD800 ≤ c ∧ c ≤ 0xDBFF) ∧ (0xDC00 ≤ d ∧ d ≤ 0xDFFF) then c :: d :: quoteChars rest
    else quoteUnit c ++ quoteChars (d :: rest)

/-- ECMA-262 `QuoteJSONString(value)`. -/
def quoteJSONString (s : JSString) : JSString := 0x22 :: quoteChars s ++ [0x22]

mutual
/-- ECMA-262 `SerializeJSONProperty` on a parsed value, for `JSON.stringify(value, null,
2)`: the gap is two spaces and `indent` is the current indentation. -/
def Json.serialize (indent : JSString) : Json → JSString
  | .null => utf16 "null"
  | .bool b => if b then utf16 "true" else utf16 "false"
  | .number literal => literal
  | .string s => quoteJSONString s
  | .array items =>
    if items.isEmpty then utf16 "[]"
    else
      [0x5B, 0x0A] ++ (indent ++ [0x20, 0x20])
        ++ Json.serializeItems (indent ++ [0x20, 0x20]) items
        ++ [0x0A] ++ indent ++ [0x5D]
  | .object props =>
    if props.isEmpty then utf16 "\x7b\x7d"
    else
      [0x7B, 0x0A] ++ (indent ++ [0x20, 0x20])
        ++ Json.serializeProps (indent ++ [0x20, 0x20]) props
        ++ [0x0A] ++ indent ++ [0x7D]
/-- The elements of an array, joined by a comma, a line feed and the indentation. -/
def Json.serializeItems (indent : JSString) : List Json → JSString
  | [] => []
  | item :: rest =>
    Json.serialize indent item ++ (if rest.isEmpty then [] else [0x2C, 0x0A] ++ indent)
      ++ Json.serializeItems indent rest
/-- The members of an object: the quoted key, a colon, a space and the value, joined by
a comma, a line feed and the indentation. -/
def Json.serializeProps (indent : JSString) : List (JSString × Json) → JSString
  | [] => []
  | (key, value) :: rest =>
    quoteJSONString key ++ [0x3A, 0x20] ++ Json.serialize indent value
      ++ (if rest.isEmpty then [] else [0x2C, 0x0A] ++ indent)
      ++ Json.serializeProps indent rest
end

/-- `JSON.stringify(value, null, 2)`. -/
def jsonStringify (value : Json) : JSString := Json.serialize [] value

/-- Skip JSON white space: tab, line feed, carriage return and space. -/
def skipWs : JSString → JSString
  | [] => []
  | c :: cs => if c = 0x09 ∨ c = 0x0A ∨ c = 0x0D ∨ c = 0x20 then skipWs cs else c :: cs

/-- The value of a hexadecimal digit. -/
def hexVal (c : Nat) : Option Nat :=
  if 0x30 ≤ c ∧ c ≤ 0x39 then some (c - 0x30)
  else if 0x61 ≤ c ∧ c ≤ 0x66 then some (c - 0x61 + 10)
  else if 0x41 ≤ c ∧ c ≤ 0x46 then some (c - 0x41 + 10)
  else none

/-- Where the scan of a JSON string stands: in plain text, after a backslash, or inside
a Unicode escape with a number of digits still to read. -/
inductive StringMode where
  | plain
  | escape
  | hex (digitsLeft acc : Nat)

/-- The scan of a JSON string after its opening quote: the code units it denotes and
the text after the closing quote. -/
def parseStringAux : StringMode → JSString → Option (JSString × JSString)
  | _, [] => none
  | .plain, c :: cs =>
    if c = 0x22 then some ([], cs)
    else if c = 0x5C then parseStringAux .escape cs
    else if c < 0x20 then none
    else (parseStringAux .plain cs).map (fun r => (c :: r.1, r.2))
  | .escape, c :: cs =>
    if c = 0x75 then parseStringAux (.hex 4 0) cs
    else
      match (if c = 0x22 then some 0x22 else if c = 0x5C then some 0x5C
             else if c = 0x2F then some 0x2F else if c = 0x62 then some 0x08
             else if c = 0x66 then some 0x0C else if c = 0x6E then some 0x0A
             else if c = 0x72 then some 0x0D else if c = 0x74 then some 0x09
             else none : Option Nat) with
      | some v => (parseStringAux .plain cs).map (fun r => (v :: r.1, r.2))
      | none => none
  | .hex digitsLeft acc, c :: cs =>
    match hexVal c with
    | none => none
    | some h =>
      if digitsLeft ≤ 1 then
        (parseStringAux .plain cs).map (fun r => ((16 * acc + h) :: r.1, r.2))
      else parseStringAux (.hex (digitsLeft - 1) (16 * acc + h)) cs

/-- A maximal run of decimal digits and the text after it. -/
def spanDigits : JSString → JSString × JSString
  | [] => ([], [])
  | c :: cs =>
    if 0x30 ≤ c ∧ c ≤ 0x39 then ((c :: (spanDigits cs).1), (spanDigits cs).2)
    else ([], c :: cs)

/-- A JSON number at the start of the text: an optional minus, an integer part without
a leading zero, an optional fraction and an optional exponent. The value keeps the text
of the literal. -/
def parseNumber (s : JSString) : Option (Json × JSString) :=
  let sign : JSString := if s.head? = some 0x2D then [0x2D] else []
  let s1 := s.drop sign.length
  let intPart : Option (JSString × JSString) :=
    match s1 with
    | [] => none
    | c :: cs =>
      if c = 0x30 then some ([c], cs)
      else if 0x31 ≤ c ∧ c ≤ 0x39 then some (c :: (spanDigits cs).1, (spanDigits cs).2)
      else none
  match intPart with
  | none => none
  | some (digits, s2) =>
    let frac : JSString × JSString :=
      match s2 with
      | c :: cs =>
        if c = 0x2E ∧ (spanDigits cs).1 ≠ [] then (c :: (spanDigits cs).1, (spanDigits cs).2)
        else ([], s2)
      | [] => ([], s2)
    let s3 := frac.2
    let exp : JSString × JSString :=
      match s3 with
      | c :: cs =>
        if c = 0x65 ∨ c = 0x45 then
          let esign : JSString :=
            if cs.head? = some 0x2B ∨ cs.head? = some 0x2D then cs.take 1 else []
          let cs2 := cs.drop esign.length
          if (spanDigits cs2).1 ≠ [] then (c :: esign ++ (spanDigits cs2).1, (spanDigits cs2).2)
          else ([], s3)
        else ([], s3)
      | [] => ([], s3)
    some (.number (sign ++ digits ++ frac.1 ++ exp.1), exp.2)

namespace Json

/-- Overwrite the value of an existing property, keeping its position. -/
def updateProp (key : JSString) (value : Json) :
    List (JSString × Json) → List (JSString × Json)
  | [] => []
  | (k, w) :: rest =>
    if k = key then (k, value) :: rest else (k, w) :: updateProp key value rest

/-- Create a new property at its place in property order. -/
def insertProp (key : JSString) (value : Json) :
    List (JSString × Json) → List (JSString × Json)
  | [] => [(key, value)]
  | (k, w) :: rest =>
    match arrayIndex? key, arrayIndex? k with
    | some n, some m =>
      if n < m then (key, value) :: (k, w) :: rest else (k, w) :: insertProp key value rest
    | some _, none => (key, value) :: (k, w) :: rest
    | none, _ => (k, w) :: insertProp key value rest

/-- ECMA-262 `CreateDataProperty` as `JSON.parse` uses it for each member of an object
literal: a repeated key overwrites, a new key becomes a new own property (also the key
`__proto__`). -/
def defineProp (props : List (JSString × Json)) (key : JSString) (value : Json) :
    List (JSString × Json) :=
  if key ∈ props.map Prod.fst then updateProp key value props else insertProp key value props

/-- The object that `JSON.parse` builds from the members of an object literal. -/
def buildObject (members : List (JSString × Json)) : List (JSString × Json) :=
  members.foldl (fun props member => defineProp props member.1 member.2) []

end Json

mutual
/-- A JSON value at the start of the text (after white space) and the text after it.
The first argument bounds the number of nested calls. -/
def parseValue : Nat → JSString → Option (Json × JSString)
  | 0, _ => none
  | fuel + 1, s =>
    match skipWs s with
    | [] => none
    | c :: cs =>
      if c = 0x22 then (parseStringAux .plain cs).map (fun r => (.string r.1, r.2))
      else if c = 0x5B then
        match skipWs cs with
        | [] => none
        | d :: ds =>
          if d = 0x5D then some (.array [], ds)
          else (parseItems fuel (d :: ds)).map (fun r => (.array r.1, r.2))
      else if c = 0x7B then
        match skipWs cs with
        | [] => none
        | d :: ds =>
          if d = 0x7D then some (.object [], ds)
          else (parseMembers fuel (d :: ds)).map (fun r => (.object (Json.buildObject r.1), r.2))
      else if utf16 "true" <+: c :: cs then some (.bool true, cs.drop 3)
      else if utf16 "false" <+: c :: cs then some (.bool false, cs.drop 4)
      else if utf16 "null" <+: c :: cs then some (.null, cs.drop 3)
      else parseNumber (c :: cs)
/-- The elements of an array after its opening bracket, up to the closing bracket. -/
def parseItems : Nat → JSString → Option (List Json × JSString)
  | 0, _ => none
  | fuel + 1, s =>
    match parseValue fuel s with
    | none => none
    | some (value, rest) =>
      match skipWs rest with
      | [] => none
      | c :: cs =>
        if c = 0x2C then (parseItems fuel cs).map (fun r => (value :: r.1, r.2))
        else if c = 0x5D then some ([value], cs)
        else none
/-- The members of an object after its opening brace, up to the closing brace. -/
def parseMembers : Nat → JSString → Option (List (JSString × Json) × JSString)
  | 0, _ => none
  | fuel + 1, s =>
    match skipWs s with
    | [] => none
    | q :: cs =>
      if q = 0x22 then
        match parseStringAux .plain cs with
        | none => none
        | some (key, rest) =>
          match skipWs rest with
          | [] => none
          | colon :: rest2 =>
            if colon = 0x3A then
              match parseValue fuel rest2 with
              | none => none
              | some (value, rest3) =>
                match skipWs rest3 with
                | [] => none
                | c :: cs2 =>
                  if c = 0x2C then
                    (parseMembers fuel cs2).map (fun r => ((key, value) :: r.1, r.2))
                  else if c = 0x7D then some ([(key, value)], cs2)
                  else none
            else none
      else none
end

/-- `JSON.parse(text)`: the value of the text, `none` for a SyntaxError. Nothing but
white space may follow the value. A text of n characters is read with the bound n + 1 on
the nesting of calls. -/
def jsonParse (text : JSString) : Option Json :=
  match parseValue (text.length + 1) text with
  | some (value, rest) => if skipWs rest = [] then some value else none
  | none => none

/-! ## options.js: export and import of rules -/

/-- A `selectors` object as a JSON value. -/
def JSObject.toJson (o : JSObject) : Json := .object (o.map (fun e => (e.1, .string e.2)))

/-- A stored rule as a JSON value, its properties in the order of the object literal
that creates it (options.js lines 158 to 165). -/
def Rule.toJson (rule : Rule) : Json :=
  .object
    [(utf16 "id", .string rule.id), (utf16 "matchType", .string rule.matchType),
     (utf16 "urlValue", .string rule.urlValue), (utf16 "selectors", rule.selectors.toJson),
     (utf16 "titleChange", .string rule.titleChange),
     (utf16 "verifiedTitle", .bool rule.verifiedTitle)]

/-- The export handler (options.js lines 914 to 937): the text of the downloaded file,
`JSON.stringify(rules, null, 2)` of the stored list (of the empty list when nothing is
stored), or nothing when the read reports an error. The text holds no lone surrogate
(`QuoteJSONString` escapes them), so the UTF-8 encoding of the Blob and the decoding of
`readAsText` give the same text back; the file is identified with its text. -/
def exportRules (read : StorageRead) : Option JSString :=
  if read.lastError then none
  else some (jsonStringify (.array ((read.rules.getD []).map Rule.toJson)))

/-- The handler `reader.onload` of the import (options.js lines 949 to 985) on the text
of the chosen file: a SyntaxError of `JSON.parse` ends in the `catch` block, a parsed
value goes through the validation. -/
def importOnload (text : JSString) : ImportOutcome :=
  match jsonParse text with
  | none => .error
  | some importedRules => importParsed importedRules

/-! ## Scenario data: a `selectors` object with the key `__proto__` -/

/-- A rule for the page of Scenario A whose `selectors` object has the own key
`__proto__`, with a title template that names it. -/
def protoRule : Rule :=
  { id := utf16 "rule-p", matchType := utf16 "contains",
    urlValue := utf16 "example.com/orders",
    selectors := [(utf16 "__proto__", utf16 "#order-id")],
    titleChange := utf16 "Order \x7b\x7b__proto__\x7d\x7d", verifiedTitle := false }

/-- The text of a file for the import that holds the rule `protoRule`. -/
def protoImportText : JSString :=
  utf16 ("[\x7b\"id\": \"rule-p\", \"matchType\": \"contains\", "
    ++ "\"urlValue\": \"example.com/orders\", "
    ++ "\"selectors\": \x7b\"__proto__\": \"#order-id\"\x7d, "
    ++ "\"titleChange\": \"Order \x7b\x7b__proto__\x7d\x7d\", \"verifiedTitle\": false\x7d]")

/-! ## Lemmas on the string primitives -/

theorem substring_eq_iff_prefix (s v : JSString) (i : Nat) :
    substring s i (i + v.length) = v ↔ v <+: s.drop i := by
  unfold substring
  rw [Nat.add_sub_cancel_left, List.prefix_iff_eq_take]
  exact eq_comm

theorem infix_iff_exists_prefix_drop (s v : JSString) :
    v <:+: s ↔ ∃ i, i + v.length ≤ s.length ∧ v <+: s.drop i := by
  constructor
  · rintro ⟨a, b, rfl⟩
    refine ⟨a.length, by simp, ?_⟩
    simp [List.append_assoc]
  · rintro ⟨i, _, hp⟩
    exact hp.isInfix.trans (List.drop_suffix i s).isInfix

theorem prefix_drop_length_le {s v : JSString} {i : Nat} (h : v <+: s.drop i)
    (hv : v ≠ []) : i + v.length ≤ s.length := by
  have h1 := h.length_le
  have h2 : 0 < v.length := List.length_pos.mpr hv
  rw [List.length_drop] at h1
  omega

/-- The index returned by `stringIndexOf` is the least occurrence at or after `fromIndex`. -/
theorem stringIndexOf_eq_some_iff (s v : JSString) (hv : v ≠ []) (k p : Nat) :
    stringIndexOf s v k = some p ↔
      k ≤ p ∧ v <+: s.drop p ∧ ∀ j, k ≤ j → j < p → ¬ v <+: s.drop j := by
  unfold stringIndexOf
  rw [if_neg (fun h => hv h.1), List.find?_range_eq_some]
  simp only [decide_eq_true_eq, substring_eq_iff_prefix, List.mem_range, Bool.not_eq_true',
    decide_eq_false_iff_not, not_and]
  constructor
  · rintro ⟨⟨h1, h2⟩, _, h4⟩
    exact ⟨h1, h2, fun j hkj hjp => h4 j hjp hkj⟩
  · rintro ⟨h1, h2, h3⟩
    have := prefix_drop_length_le h2 hv
    exact ⟨⟨h1, h2⟩, by omega, fun j hjp hkj => h3 j hkj hjp⟩

/-- NOT-FOUND is returned exactly when there is no occurrence at or after `fromIndex`. -/
theorem stringIndexOf_eq_none_iff (s v : JSString) (hv : v ≠ []) (k : Nat) :
    stringIndexOf s v k = none ↔ ∀ j, k ≤ j → ¬ v <+: s.drop j := by
  unfold stringIndexOf
  rw [if_neg (fun h => hv h.1), List.find?_eq_none]
  simp only [decide_eq_true_eq, substring_eq_iff_prefix, List.mem_range, not_and]
  constructor
  · intro h j hkj hp
    have := prefix_drop_length_le hp hv
    exact h j (by omega) hkj hp
  · intro h j _ hkj
    exact h j hkj

theorem stringIndexOf_ge (s v : JSString) (k p : Nat) (h : stringIndexOf s v k = some p) :
    k ≤ p := by
  unfold stringIndexOf at h
  split at h
  · injection h with h
    omega
  · have := List.find?_some h
    simp only [decide_eq_true_eq] at this
    exact this.1

theorem stringIndexOf_eq_none_of_length_lt (s v : JSString) (k : Nat) (h : s.length < k) :
    stringIndexOf s v k = none := by
  unfold stringIndexOf
  rw [if_neg (fun hc => by omega), List.find?_eq_none]
  intro i hi
  have := List.mem_range.mp hi
  simp only [decide_eq_true_eq, not_and]
  intro hk
  omega

/-- The iteration bound of `matchPositions` is never reached: with at least
`string.length + 2` iterations allowed from index 0, more iterations change nothing. -/
theorem matchPositions_fuel_irrelevant (s v : JSString) (advanceBy : Nat)
    (hadv : 1 ≤ advanceBy) :
    ∀ (fuel fuel2 k : Nat), s.length + 2 ≤ fuel + k → fuel ≤ fuel2 →
      matchPositions s v advanceBy fuel k = matchPositions s v advanceBy fuel2 k
  | 0, fuel2, k, h1, _ => by
    have hnone := stringIndexOf_eq_none_of_length_lt s v k (by omega)
    cases fuel2 with
    | zero => rfl
    | succ m => simp [matchPositions, hnone]
  | n + 1, 0, k, _, h2 => by omega
  | n + 1, m + 1, k, h1, h2 => by
    unfold matchPositions
    cases hq : stringIndexOf s v k with
    | none => rfl
    | some p =>
      have hge := stringIndexOf_ge s v k p hq
      simp only
      rw [matchPositions_fuel_irrelevant s v advanceBy hadv n m (p + advanceBy) (by omega)
        (by omega)]

theorem includes_iff_infix (s v : JSString) : includes s v = true ↔ v <:+: s := by
  unfold includes
  by_cases hv : v = []
  · subst hv
    simp [stringIndexOf]
  · rw [infix_iff_exists_prefix_drop]
    constructor
    · intro h
      obtain ⟨p, hp⟩ := Option.isSome_iff_exists.mp h
      have h2 := ((stringIndexOf_eq_some_iff s v hv 0 p).mp hp).2.1
      exact ⟨p, prefix_drop_length_le h2 hv, h2⟩
    · rintro ⟨i, _, hp⟩
      cases hq : stringIndexOf s v 0 with
      | some p => rfl
      | none =>
        exact absurd hp ((stringIndexOf_eq_none_iff s v hv 0).mp hq i (Nat.zero_le i))

theorem startsWith_iff_prefix (s v : JSString) : startsWith s v = true ↔ v <+: s := by
  unfold startsWith
  by_cases hv : v.length = 0
  · rw [if_pos hv]
    have : v = [] := List.length_eq_zero.mp hv
    subst this
    simp
  · rw [if_neg hv]
    by_cases hl : v.length > s.length
    · rw [if_pos hl]
      constructor
      · intro h; cases h
      · intro h
        have := h.length_le
        omega
    · rw [if_neg hl, decide_eq_true_eq]
      have := substring_eq_iff_prefix s v 0
      simpa using this

theorem endsWith_iff_suffix (s v : JSString) : endsWith s v = true ↔ v <:+ s := by
  unfold endsWith
  by_cases hv : v.length = 0
  · rw [if_pos hv]
    have : v = [] := List.length_eq_zero.mp hv
    subst this
    simp
  · rw [if_neg hv]
    by_cases hl : s.length < v.length
    · rw [if_pos hl]
      constructor
      · intro h; cases h
      · intro h
        have := h.length_le
        omega
    · rw [if_neg hl, decide_eq_true_eq, List.suffix_iff_eq_drop]
      unfold substring
      have hlen : (s.drop (s.length - v.length)).length = v.length := by
        rw [List.length_drop]; omega
      have htake : (s.drop (s.length - v.length)).take (s.length - (s.length - v.length))
          = s.drop (s.length - v.length) := by
        apply List.take_of_length_le
        rw [hlen]; omega
      rw [htake]
      exact eq_comm

/-! ## Lemmas on string replacement -/

theorem getSubstitution_of_no_dollar (matched str : JSString) (position : Nat) :
    ∀ v : JSString, 0x24 ∉ v → getSubstitution matched str position v = v
  | [], _ => by simp [getSubstitution]
  | [c], _ => by simp [getSubstitution]
  | c :: d :: rest, h => by
    have hc : c ≠ 0x24 := fun hc => h (by simp [hc])
    have ih := getSubstitution_of_no_dollar matched str position (d :: rest)
      (fun hm => h (List.mem_cons_of_mem _ hm))
    simp only [getSubstitution, hc, false_and, if_false, ih]

theorem replaceOccurrences_nil (pat v : JSString) (n : Nat) :
    replaceOccurrences pat v n [] = [] := by
  cases n <;> simp [replaceOccurrences]

theorem replaceOccurrences_skip (pat v : JSString) :
    ∀ (t : JSString) (n : Nat),
      replaceOccurrences pat v n t = replaceOccurrences pat v 0 (t.drop n)
  | [], n => by simp [replaceOccurrences_nil]
  | c :: cs, 0 => by simp
  | c :: cs, n + 1 => by
    simp only [replaceOccurrences, List.drop_succ_cons]
    exact replaceOccurrences_skip pat v cs n

theorem replaceOccurrences_of_prefix (pat v t : JSString) (hpat : pat ≠ [])
    (h : pat <+: t) :
    replaceOccurrences pat v 0 t = v ++ replaceOccurrences pat v 0 (t.drop pat.length) := by
  cases t with
  | nil => exact absurd (List.prefix_nil.mp h) hpat
  | cons c cs =>
    have hlen : 0 < pat.length := List.length_pos.mpr hpat
    obtain ⟨k, hk⟩ : ∃ k, pat.length = k + 1 := ⟨pat.length - 1, by omega⟩
    simp only [replaceOccurrences, if_pos h]
    rw [replaceOccurrences_skip pat v cs, hk]
    simp

theorem replaceOccurrences_of_no_prefix (pat v : JSString) :
    ∀ (m : Nat) (t : JSString), (∀ j, j < m → ¬ pat <+: t.drop j) →
      replaceOccurrences pat v 0 t = t.take m ++ replaceOccurrences pat v 0 (t.drop m)
  | 0, t, _ => by simp
  | m + 1, [], _ => by simp [replaceOccurrences_nil]
  | m + 1, c :: cs, h => by
    have h0 : ¬ pat <+: c :: cs := by simpa using h 0 (Nat.succ_pos m)
    have ih := replaceOccurrences_of_no_prefix pat v m cs (fun j hj => by
      simpa using h (j + 1) (Nat.succ_lt_succ hj))
    simp only [replaceOccurrences, if_neg h0, List.take_succ_cons, List.drop_succ_cons,
      List.cons_append]
    rw [ih]

theorem replaceOccurrences_of_no_occurrence (pat v t : JSString)
    (h : ∀ j, ¬ pat <+: t.drop j) : replaceOccurrences pat v 0 t = t := by
  have := replaceOccurrences_of_no_prefix pat v t.length t (fun j _ => h j)
  simpa [replaceOccurrences_nil] using this

/-- The two loops of `replaceAll`, started at `fromIndex` with enough iterations left,
replace every occurrence in the text from `fromIndex` on. -/
theorem replaceAllLoop_matchPositions (s pat v : JSString) (hpat : pat ≠ [])
    (hv : 0x24 ∉ v) :
    ∀ (fuel fromIndex : Nat) (acc : JSString), fromIndex ≤ s.length →
      s.length + 1 ≤ fuel + fromIndex →
      replaceAllLoop s pat v (matchPositions s pat pat.length fuel fromIndex) fromIndex acc
        = acc ++ replaceOccurrences pat v 0 (s.drop fromIndex)
  | 0, fromIndex, acc, h1, h2 => by omega
  | fuel + 1, fromIndex, acc, h1, h2 => by
    unfold matchPositions
    cases hq : stringIndexOf s pat fromIndex with
    | none =>
      have hno := (stringIndexOf_eq_none_iff s pat hpat fromIndex).mp hq
      have hspec : replaceOccurrences pat v 0 (s.drop fromIndex) = s.drop fromIndex :=
        replaceOccurrences_of_no_occurrence pat v _ (fun j => by
          rw [List.drop_drop]
          exact hno (fromIndex + j) (Nat.le_add_right _ _))
      simp only [replaceAllLoop, hspec]
      by_cases hlt : fromIndex < s.length
      · rw [if_pos hlt]
        unfold substring
        rw [List.take_of_length_le (by rw [List.length_drop])]
      · rw [if_neg hlt, List.drop_of_length_le (by omega)]
        simp
    | some p =>
      obtain ⟨hle, hpre, hleast⟩ := (stringIndexOf_eq_some_iff s pat hpat fromIndex p).mp hq
      have hbound := prefix_drop_length_le hpre hpat
      have hlen : 0 < pat.length := List.length_pos.mpr hpat
      have ih := replaceAllLoop_matchPositions s pat v hpat hv fuel (p + pat.length)
        (acc ++ substring s fromIndex p ++ v) hbound (by omega)
      simp only [replaceAllLoop, getSubstitution_of_no_dollar _ _ _ v hv]
      rw [ih]
      have hsplit := replaceOccurrences_of_no_prefix pat v (p - fromIndex) (s.drop fromIndex)
        (fun j hj => by
          rw [List.drop_drop]
          exact hleast (fromIndex + j) (Nat.le_add_right _ _) (by omega))
      have hdrop : (s.drop fromIndex).drop (p - fromIndex) = s.drop p := by
        rw [List.drop_drop]; congr 1; omega
      rw [hsplit, hdrop, replaceOccurrences_of_prefix pat v (s.drop p) hpat hpre,
        List.drop_drop]
      have hadd : pat.length + p = p + pat.length := Nat.add_comm _ _
      simp only [substring, List.append_assoc, hadd]

/-- On a non-empty pattern and a replacement without `$`, `replaceAll` replaces every
non-overlapping occurrence of the pattern, scanned left to right. -/
theorem replaceAll_eq_replaceOccurrences (s pat v : JSString) (hpat : pat ≠ [])
    (hv : 0x24 ∉ v) : replaceAll s pat v = replaceOccurrences pat v 0 s := by
  have hlen : 0 < pat.length := List.length_pos.mpr hpat
  have hmax : max 1 pat.length = pat.length := Nat.max_eq_right hlen
  unfold replaceAll
  rw [hmax, replaceAllLoop_matchPositions s pat v hpat hv (s.length + 2) 0 [] (Nat.zero_le _)
    (by omega)]
  simp

/-- Without an occurrence of the (non-empty) pattern, `replaceAll` returns the text
unchanged, whatever the replacement is. -/
theorem replaceAll_of_not_infix (s pat v : JSString) (hpat : pat ≠ [])
    (h : ¬ pat <:+: s) : replaceAll s pat v = s := by
  have hq : stringIndexOf s pat 0 = none :=
    (stringIndexOf_eq_none_iff s pat hpat 0).mpr (fun j _ hp =>
      h (hp.isInfix.trans (List.drop_suffix j s).isInfix))
  unfold replaceAll
  simp only [matchPositions, hq, replaceAllLoop]
  by_cases hlt : 0 < s.length
  · rw [if_pos hlt]
    simp [substring]
  · rw [if_neg hlt]
    have : s = [] := List.length_eq_zero.mp (by omega)
    simp [this]

theorem placeholder_ne_nil (name : JSString) : placeholder name ≠ [] := by
  simp [placeholder]

theorem updateTitle_title (rule : Rule) (extractedData : JSObject) (page : Page) :
    (updateTitle rule extractedData page).title = renderTitle rule.titleChange extractedData := by
  unfold updateTitle
  cases rule.verifiedTitle <;> simp [showVerifyBanner, removeExistingBanners]

theorem renderTitle_of_no_placeholder :
    ∀ (values : JSObject) (t : JSString), (∀ k ∈ values.keys, ¬ placeholder k <:+: t) →
      renderTitle t values = t
  | [], t, _ => rfl
  | (k, v) :: rest, t, h => by
    have hk : replaceAll t (placeholder k) v = t :=
      replaceAll_of_not_infix t (placeholder k) v (placeholder_ne_nil k)
        (h k (by simp [JSObject.keys]))
    have ih := renderTitle_of_no_placeholder rest t (fun k2 hk2 =>
      h k2 (by simp only [JSObject.keys, List.map_cons, List.mem_cons]; exact Or.inr hk2))
    simp only [renderTitle, JSObject.entries, List.foldl_cons, hk] at ih ⊢
    exact ih

/-! ## Lemmas on objects and on the submit handler -/

theorem JSObject.keys_update (key value : JSString) :
    ∀ o : JSObject, (JSObject.update key value o).keys = o.keys
  | [] => rfl
  | (k, w) :: rest => by
    by_cases hk : k = key
    · simp [JSObject.update, hk, JSObject.keys]
    · have ih := JSObject.keys_update key value rest
      simp only [JSObject.keys] at ih
      simp [JSObject.update, hk, JSObject.keys, ih]

theorem JSObject.mem_keys_insertNew (key value k2 : JSString) :
    ∀ o : JSObject, k2 ∈ (JSObject.insertNew key value o).keys ↔ k2 = key ∨ k2 ∈ o.keys
  | [] => by simp [JSObject.insertNew, JSObject.keys]
  | (k, w) :: rest => by
    have ih := JSObject.mem_keys_insertNew key value k2 rest
    simp only [JSObject.keys] at ih
    unfold JSObject.insertNew
    cases h1 : arrayIndex? key with
    | none =>
      simp only [JSObject.keys, List.map_cons, List.mem_cons, ih]
      tauto
    | some n =>
      cases h2 : arrayIndex? k with
      | none => simp [JSObject.keys]
      | some m =>
        by_cases hlt : n < m
        · simp [hlt, JSObject.keys]
        · simp only [hlt, if_false, JSObject.keys, List.map_cons, List.mem_cons, ih]
          tauto

theorem JSObject.mem_keys_set_of_mem (o : JSObject) (key value k2 : JSString)
    (h : k2 ∈ o.keys) : k2 ∈ (o.set key value).keys := by
  unfold JSObject.set
  by_cases h1 : key ∈ o.keys
  · rw [if_pos h1, JSObject.keys_update]; exact h
  · rw [if_neg h1]
    by_cases h2 : key = utf16 "__proto__"
    · rw [if_pos h2]; exact h
    · rw [if_neg h2]; exact (JSObject.mem_keys_insertNew key value k2 o).mpr (Or.inr h)

theorem JSObject.mem_keys_set_self (o : JSObject) (key value : JSString)
    (hkey : key ≠ utf16 "__proto__") : key ∈ (o.set key value).keys := by
  unfold JSObject.set
  by_cases h1 : key ∈ o.keys
  · rw [if_pos h1, JSObject.keys_update]; exact h1
  · rw [if_neg h1, if_neg hkey]
    exact (JSObject.mem_keys_insertNew key value key o).mpr (Or.inl rfl)

theorem gatherStep_fold_valid :
    ∀ (pairs : List SelectorPair) (acc : JSObject × Bool),
      (pairs.foldl gatherStep acc).2 = true →
      acc.2 = true ∧
        ∀ pair ∈ pairs, trim pair.selectorName ≠ [] ∧ trim pair.selectorValue ≠ []
  | [], acc, h => ⟨h, fun _ hp => by cases hp⟩
  | pair :: rest, acc, h => by
    rw [List.foldl_cons] at h
    obtain ⟨h1, h2⟩ := gatherStep_fold_valid rest (gatherStep acc pair) h
    by_cases hc : trim pair.selectorName ≠ [] ∧ trim pair.selectorValue ≠ []
    · simp only [gatherStep, if_pos hc] at h1
      refine ⟨h1, fun q hq => ?_⟩
      rcases List.mem_cons.mp hq with rfl | hq
      · exact hc
      · exact h2 q hq
    · simp [gatherStep, if_neg hc] at h1

theorem gatherStep_fold_keys_mono :
    ∀ (pairs : List SelectorPair) (acc : JSObject × Bool) (k : JSString),
      k ∈ acc.1.keys → k ∈ (pairs.foldl gatherStep acc).1.keys
  | [], _, _, h => h
  | pair :: rest, acc, k, h => by
    rw [List.foldl_cons]
    apply gatherStep_fold_keys_mono rest
    unfold gatherStep
    split
    · exact JSObject.mem_keys_set_of_mem _ _ _ _ h
    · exact h

theorem gatherStep_fold_mem_keys :
    ∀ (pairs : List SelectorPair) (acc : JSObject × Bool),
      (pairs.foldl gatherStep acc).2 = true →
      ∀ pair ∈ pairs, trim pair.selectorName ≠ utf16 "__proto__" →
        trim pair.selectorName ∈ (pairs.foldl gatherStep acc).1.keys
  | [], _, _, _, hp, _ => by cases hp
  | pair :: rest, acc, h, q, hq, hne => by
    rw [List.foldl_cons] at h ⊢
    rcases List.mem_cons.mp hq with rfl | hq
    · apply gatherStep_fold_keys_mono rest
      have hvalid := (gatherStep_fold_valid rest _ h).1
      by_cases hc : trim q.selectorName ≠ [] ∧ trim q.selectorValue ≠ []
      · simp only [gatherStep, if_pos hc]
        exact JSObject.mem_keys_set_self _ _ _ hne
      · simp [gatherStep, if_neg hc] at hvalid
    · exact gatherStep_fold_mem_keys rest _ h q hq hne

/-- What reaching the save step says about the form. -/
theorem ruleFormSubmit_eq_save (form : RuleForm) (uuid : JSString) (newRule : Rule)
    (h : ruleFormSubmit form uuid = .save newRule) :
    (gatherSelectors form.selectorPairs).2 = true ∧
    newRule.selectors = (gatherSelectors form.selectorPairs).1 ∧
    newRule.titleChange = form.titleChange := by
  unfold ruleFormSubmit at h
  simp only at h
  split at h
  · cases h
  · rename_i hvalid
    split at h
    · cases h
    · split at h
      · cases h
      · injection h with h
        subst h
        refine ⟨?_, rfl, rfl⟩
        simpa using hvalid

/-! ## Lemmas on the main routine -/

theorem doesUrlMatch_string_ne_throw (url matchType value : JSString) (error : JSError) :
    doesUrlMatch (.string url) (.string matchType) (.string value) ≠ .throw error := by
  unfold doesUrlMatch invokeStringMethod
  split_ifs <;> simp

theorem resumeLoop_neverApplied (rules : List Rule) (currentUrl : JSString) (i : Nat) :
    ∀ (rest : List Rule) (idx : Nat) (page : Page) (log : List LogEntry),
      rest = rules.drop idx → LogEntry.applied i ∉ log → LogEntry.failed i ∉ log →
      NeverApplied rules i (resumeLoop currentUrl rest idx page log)
  | [], idx, page, log, _, h1, h2 => by
    refine ⟨h1, h2, ?_, ?_⟩ <;> simp [resumeLoop]
  | rule :: rest, idx, page, log, hdrop, h1, h2 => by
    have hget : rules[idx]? = some rule := by
      have := congrArg List.head? hdrop
      simpa [List.head?_drop] using this.symm
    have hrest : rest = rules.drop (idx + 1) := by
      have := congrArg List.tail hdrop
      simpa [List.tail_drop] using this
    unfold resumeLoop
    cases hm : doesUrlMatch (.string currentUrl) (.string rule.matchType)
        (.string rule.urlValue) with
    | throw error => exact absurd hm (doesUrlMatch_string_ne_throw _ _ _ _)
    | normal b =>
      cases b with
      | false => exact resumeLoop_neverApplied rules currentUrl i rest (idx + 1) page log hrest h1 h2
      | true =>
        refine ⟨h1, h2, ?_, ?_⟩
        · simp
        · intro idx2 rule2 rest2 heq
          simp only [Status.waiting.injEq] at heq
          obtain ⟨rfl, rfl, rfl⟩ := heq
          exact ⟨hget, hrest⟩

theorem allElementsFound_false_of_unresolved (selectors : List JSString) (dom : Dom)
    (selector : JSString) (hmem : selector ∈ selectors)
    (hnone : dom.querySelector selector = none) : allElementsFound selectors dom = false := by
  cases h : allElementsFound selectors dom with
  | false => rfl
  | true =>
    have := List.all_eq_true.mp h selector hmem
    simp [hnone] at this

theorem onMutation_neverApplied (rules : List Rule) (currentUrl : JSString) (i : Nat)
    (rule : Rule) (selector : JSString) (hrule : rules[i]? = some rule)
    (hsel : selector ∈ rule.selectors.values) (s : Script) (batch : MutationBatch)
    (hnone : batch.observed.querySelector selector = none)
    (hs : NeverApplied rules i s) :
    NeverApplied rules i (onMutation currentUrl s batch) := by
  obtain ⟨h1, h2, h3, h4⟩ := hs
  unfold onMutation
  cases hst : s.status with
  | finished => exact ⟨h1, h2, h3, h4⟩
  | rejected error => exact ⟨h1, h2, h3, h4⟩
  | waiting idx r rest =>
    obtain ⟨hget, hrest⟩ := h4 idx r rest hst
    simp only
    by_cases hall : allElementsFound r.selectors.values batch.observed = true
    · have hne : idx ≠ i := by
        rintro rfl
        rw [hrule] at hget
        injection hget with hget
        subst hget
        rw [allElementsFound_false_of_unresolved _ _ selector hsel hnone] at hall
        cases hall
      rw [if_pos hall]
      cases extractData batch.resumed r.selectors.entries [] with
      | normal extractedData =>
        exact resumeLoop_neverApplied rules currentUrl i rest (idx + 1) _ _ hrest
          (by simp [h1, Ne.symm hne]) (by simp [h2])
      | throw error =>
        exact resumeLoop_neverApplied rules currentUrl i rest (idx + 1) _ _ hrest
          (by simp [h1]) (by simp [h2, Ne.symm hne])
    · rw [if_neg hall]
      exact ⟨h1, h2, h3, h4⟩

theorem foldl_onMutation_neverApplied (rules : List Rule) (currentUrl : JSString) (i : Nat)
    (rule : Rule) (selector : JSString) (hrule : rules[i]? = some rule)
    (hsel : selector ∈ rule.selectors.values) :
    ∀ (batches : List MutationBatch) (s : Script),
      (∀ batch ∈ batches, batch.observed.querySelector selector = none) →
      NeverApplied rules i s →
      NeverApplied rules i (batches.foldl (onMutation currentUrl) s)
  | [], _, _, hs => hs
  | batch :: rest, s, hnone, hs => by
    rw [List.foldl_cons]
    exact foldl_onMutation_neverApplied rules currentUrl i rule selector hrule hsel rest _
      (fun b hb => hnone b (List.mem_cons_of_mem _ hb))
      (onMutation_neverApplied rules currentUrl i rule selector hrule hsel s batch
        (hnone batch (List.mem_cons_self _ _)) hs)

theorem foldl_onMutation_waiting_unchanged (currentUrl : JSString) (idx : Nat) (rule : Rule)
    (rest : List Rule) (selector : JSString) (hsel : selector ∈ rule.selectors.values) :
    ∀ (batches : List MutationBatch) (s : Script),
      (∀ batch ∈ batches, batch.observed.querySelector selector = none) →
      s.status = .waiting idx rule rest →
      batches.foldl (onMutation currentUrl) s = s
  | [], _, _, _ => rfl
  | batch :: more, s, hnone, hst => by
    have hstep : onMutation currentUrl s batch = s := by
      unfold onMutation
      rw [hst]
      simp only
      rw [allElementsFound_false_of_unresolved _ _ selector hsel
        (hnone batch (List.mem_cons_self _ _))]
      simp
    rw [List.foldl_cons, hstep]
    exact foldl_onMutation_waiting_unchanged currentUrl idx rule rest selector hsel more s
      (fun b hb => hnone b (List.mem_cons_of_mem _ hb)) hst

/-! ## Claims C1 to C3: the URL matcher -/

/-- C1: for strings `url` and `value`, `doesUrlMatch(url, "contains", value)` returns
true iff `value` is a contiguous substring of `url`, with "startsWith" iff `value` is a
prefix of `url`, with "endsWith" iff `value` is a suffix of `url`; the comparison is on
the raw code units (case-sensitive, no normalisation). -/
theorem C1_doesUrlMatch_contains_startsWith_endsWith (url value : JSString) :
    doesUrlMatch (.string url) (.string (utf16 "contains")) (.string value)
        = .normal (decide (value <:+: url)) ∧
    doesUrlMatch (.string url) (.string (utf16 "startsWith")) (.string value)
        = .normal (decide (value <+: url)) ∧
    doesUrlMatch (.string url) (.string (utf16 "endsWith")) (.string value)
        = .normal (decide (value <:+ url)) := by
  refine ⟨?_, ?_, ?_⟩
  · have h := includes_iff_infix url value
    simp only [doesUrlMatch, if_true, invokeStringMethod, JSValue.toJSString]
    congr 1
    by_cases hi : value <:+: url
    · rw [h.mpr hi]; simp [hi]
    · have : includes url value = false := by
        cases hb : includes url value
        · rfl
        · exact absurd (h.mp hb) hi
      rw [this]; simp [hi]
  · have h := startsWith_iff_prefix url value
    have hne1 : (JSValue.string (utf16 "startsWith") = .string (utf16 "contains")) = False := by
      decide
    have hne2 : (JSValue.string (utf16 "startsWith") = .string (utf16 "is")) = False := by
      decide
    simp only [doesUrlMatch, hne1, hne2, if_false, if_true, invokeStringMethod,
      JSValue.toJSString]
    congr 1
    by_cases hi : value <+: url
    · rw [h.mpr hi]; simp [hi]
    · have : startsWith url value = false := by
        cases hb : startsWith url value
        · rfl
        · exact absurd (h.mp hb) hi
      rw [this]; simp [hi]
  · have h := endsWith_iff_suffix url value
    have hne1 : (JSValue.string (utf16 "endsWith") = .string (utf16 "contains")) = False := by
      decide
    have hne2 : (JSValue.string (utf16 "endsWith") = .string (utf16 "is")) = False := by
      decide
    have hne3 : (JSValue.string (utf16 "endsWith") = .string (utf16 "startsWith")) = False := by
      decide
    simp only [doesUrlMatch, hne1, hne2, hne3, if_false, if_true, invokeStringMethod,
      JSValue.toJSString]
    congr 1
    by_cases hi : value <:+ url
    · rw [h.mpr hi]; simp [hi]
    · have : endsWith url value = false := by
        cases hb : endsWith url value
        · rfl
        · exact absurd (h.mp hb) hi
      rw [this]; simp [hi]


/-- C2: `doesUrlMatch(url, "is", value)` returns true iff `url` and `value` are the same
sequence of code units; every url matches itself, and a url followed by a slash does
not match the url without it. -/
theorem C2_doesUrlMatch_is_exact (url value : JSString) :
    doesUrlMatch (.string url) (.string (utf16 "is")) (.string value)
        = .normal (decide (url = value)) ∧
    doesUrlMatch (.string url) (.string (utf16 "is")) (.string url) = .normal true ∧
    doesUrlMatch (.string (url ++ utf16 "/")) (.string (utf16 "is")) (.string url)
        = .normal false := by
  have hne : (JSValue.string (utf16 "is") = .string (utf16 "contains")) = False := by decide
  have hslash : utf16 "/" ≠ [] := by decide
  refine ⟨?_, ?_, ?_⟩
  · simp only [doesUrlMatch, hne, if_false, if_true, JSValue.string.injEq]
  · simp only [doesUrlMatch, hne, if_false, if_true, decide_True]
  · simp only [doesUrlMatch, hne, if_false, if_true, JSValue.string.injEq]
    congr 1
    rw [decide_eq_false_iff_not]
    intro h
    have hlen := congrArg List.length h
    have hpos : 0 < (utf16 "/").length := List.length_pos.mpr hslash
    rw [List.length_append] at hlen
    omega

/-- C3: for a `matchType` string other than the four spellings "contains", "is",
"startsWith" and "endsWith", `doesUrlMatch` completes normally with false, whatever
`url` and `value` are (also `undefined` or `null`, on which a method call would throw). -/
theorem C3_doesUrlMatch_unknown_matchType (matchType : JSString) (url value : JSValue)
    (h1 : matchType ≠ utf16 "contains") (h2 : matchType ≠ utf16 "is")
    (h3 : matchType ≠ utf16 "startsWith") (h4 : matchType ≠ utf16 "endsWith") :
    doesUrlMatch url (.string matchType) value = .normal false := by
  simp only [doesUrlMatch, JSValue.string.injEq, if_neg h1, if_neg h2, if_neg h3, if_neg h4]

/-- C3 at a differently-cased spelling with an `undefined` url, and at the empty string. -/
theorem C3_doesUrlMatch_unknown_matchType_witness :
    (utf16 "Contains" ≠ utf16 "contains" ∧ utf16 "Contains" ≠ utf16 "is" ∧
      utf16 "Contains" ≠ utf16 "startsWith" ∧ utf16 "Contains" ≠ utf16 "endsWith") ∧
    doesUrlMatch .undefined (.string (utf16 "Contains")) .null = .normal false ∧
    doesUrlMatch (.string (utf16 "https://a.example/")) (.string (utf16 "")) (.string (utf16 ""))
      = .normal false :=
  ⟨by decide,
   C3_doesUrlMatch_unknown_matchType (utf16 "Contains") .undefined .null
     (by decide) (by decide) (by decide) (by decide),
   C3_doesUrlMatch_unknown_matchType (utf16 "") _ _
     (by decide) (by decide) (by decide) (by decide)⟩

/-! ## Claims C4 to C6: the template engine -/

/-- C4: for every template (the rule's `titleChange`), key `k` and value `v` without a
`$` code unit, the title written by `updateTitle` for the extracted data `{k: v}` is
the template with every non-overlapping occurrence of the placeholder of `k`, scanned
left to right, replaced by `v`. -/
theorem C4_updateTitle_replaces_every_occurrence (rule : Rule) (k v : JSString)
    (page : Page) (hv : 0x24 ∉ v) :
    (updateTitle rule [(k, v)] page).title
      = replaceOccurrences (placeholder k) v 0 rule.titleChange := by
  rw [updateTitle_title]
  simp only [renderTitle, JSObject.entries, List.foldl_cons, List.foldl_nil]
  exact replaceAll_eq_replaceOccurrences _ _ _ (placeholder_ne_nil k) hv

/-- C4 on a template with three occurrences of the placeholder, two of them adjacent. -/
theorem C4_updateTitle_replaces_every_occurrence_witness :
    0x24 ∉ utf16 "42" ∧
    (updateTitle { scenarioRule with titleChange := utf16 "\x7b\x7bn\x7d\x7d-\x7b\x7bn\x7d\x7d\x7b\x7bn\x7d\x7d" }
        [(utf16 "n", utf16 "42")] scenarioPage).title
      = replaceOccurrences (placeholder (utf16 "n")) (utf16 "42") 0
          (utf16 "\x7b\x7bn\x7d\x7d-\x7b\x7bn\x7d\x7d\x7b\x7bn\x7d\x7d") ∧
    replaceOccurrences (placeholder (utf16 "n")) (utf16 "42") 0
        (utf16 "\x7b\x7bn\x7d\x7d-\x7b\x7bn\x7d\x7d\x7b\x7bn\x7d\x7d") = utf16 "42-4242" :=
  ⟨by decide,
   C4_updateTitle_replaces_every_occurrence
     { scenarioRule with titleChange := utf16 "\x7b\x7bn\x7d\x7d-\x7b\x7bn\x7d\x7d\x7b\x7bn\x7d\x7d" }
     (utf16 "n") (utf16 "42") scenarioPage (by decide),
   by decide⟩

/-- C5, evaluated where it fails: with the template made of the placeholder of `k`
alone, the value `$$` is rendered as a single `$`, and the value `$&` is rendered
as the placeholder text itself; neither title is the value. -/
theorem C5_dollar_value_not_inserted_verbatim :
    (updateTitle { scenarioRule with titleChange := placeholder (utf16 "k") }
        [(utf16 "k", utf16 "$$")] scenarioPage).title = utf16 "$" ∧
    (updateTitle { scenarioRule with titleChange := placeholder (utf16 "k") }
        [(utf16 "k", utf16 "$&")] scenarioPage).title = utf16 "\x7b\x7bk\x7d\x7d" := by
  decide

/-- C6: if the placeholder of no key of the extracted data occurs in the template, the
title written by `updateTitle` is the template unchanged; with empty extracted data the
title is always the template. -/
theorem C6_placeholders_without_key_left_intact (rule : Rule) (values : JSObject)
    (page : Page) (h : ∀ k ∈ values.keys, ¬ placeholder k <:+: rule.titleChange) :
    (updateTitle rule values page).title = rule.titleChange ∧
    (updateTitle rule [] page).title = rule.titleChange := by
  rw [updateTitle_title, updateTitle_title]
  exact ⟨renderTitle_of_no_placeholder values rule.titleChange h, rfl⟩

/-- C6 on the template of Scenario A rendered against a mapping with another key. -/
theorem C6_placeholders_without_key_left_intact_witness :
    (∀ k ∈ JSObject.keys [(utf16 "total", utf16 "$5")],
      ¬ placeholder k <:+: scenarioRule.titleChange) ∧
    (updateTitle scenarioRule [(utf16 "total", utf16 "$5")] scenarioPage).title
      = utf16 "Order \x7b\x7border\x7d\x7d" ∧
    (updateTitle scenarioRule [] scenarioPage).title = utf16 "Order \x7b\x7border\x7d\x7d" :=
  ⟨by decide,
   C6_placeholders_without_key_left_intact scenarioRule [(utf16 "total", utf16 "$5")]
     scenarioPage (by decide)⟩

/-! ## Claims C7 and C8: the authoring handler -/

/-- C7, evaluated where it fails: the form with the one selector row `order` and the
title template with the placeholders `order` and `constructor` reaches the save step;
the saved selectors have the single key `order` while the template uses the two names.
The test `name in selectors` holds for `constructor`, a property every plain object
inherits. -/
theorem C7_inherited_name_passes_placeholder_check :
    ruleFormSubmit
        { matchType := utf16 "contains", urlValue := utf16 "example.com/orders",
          selectorPairs := [{ selectorName := utf16 "order", selectorValue := utf16 "#order-id" }],
          titleChange := utf16 "Order \x7b\x7border\x7d\x7d \x7b\x7bconstructor\x7d\x7d" }
        (utf16 "uuid-1")
      = .save
        { id := utf16 "uuid-1", matchType := utf16 "contains",
          urlValue := utf16 "example.com/orders",
          selectors := [(utf16 "order", utf16 "#order-id")],
          titleChange := utf16 "Order \x7b\x7border\x7d\x7d \x7b\x7bconstructor\x7d\x7d",
          verifiedTitle := false } ∧
    usedPlaceholders (utf16 "Order \x7b\x7border\x7d\x7d \x7b\x7bconstructor\x7d\x7d")
      = [utf16 "order", utf16 "constructor"] ∧
    JSObject.keys [(utf16 "order", utf16 "#order-id")] = [utf16 "order"] ∧
    JSObject.hasProperty [(utf16 "order", utf16 "#order-id")] (utf16 "constructor") = true := by
  decide

/-- C8 fails on the form with zero selector rows and a title template without
placeholders: it reaches the save step with an empty `selectors` object. -/
theorem C8_zero_rows_saved_with_empty_selectors :
    ruleFormSubmit
        { matchType := utf16 "contains", urlValue := utf16 "example.com",
          selectorPairs := [], titleChange := utf16 "Static title" }
        (utf16 "uuid-1")
      = .save
        { id := utf16 "uuid-1", matchType := utf16 "contains", urlValue := utf16 "example.com",
          selectors := [], titleChange := utf16 "Static title", verifiedTitle := false } := by
  decide

/-- C8 as amended: a rule that reaches the save step from a form with at least one
selector row whose trimmed name is not `__proto__` has a non-empty `selectors` object;
the trimmed name of each such row is one of its keys. -/
theorem C8_saved_selectors_nonempty_of_row (form : RuleForm) (uuid : JSString)
    (newRule : Rule) (hsave : ruleFormSubmit form uuid = .save newRule)
    (hrow : ∃ pair ∈ form.selectorPairs, trim pair.selectorName ≠ utf16 "__proto__") :
    newRule.selectors ≠ [] ∧
    ∀ pair ∈ form.selectorPairs, trim pair.selectorName ≠ utf16 "__proto__" →
      trim pair.selectorName ∈ newRule.selectors.keys := by
  obtain ⟨hvalid, hsel, _⟩ := ruleFormSubmit_eq_save form uuid newRule hsave
  have hkeys : ∀ pair ∈ form.selectorPairs, trim pair.selectorName ≠ utf16 "__proto__" →
      trim pair.selectorName ∈ newRule.selectors.keys := by
    intro pair hp hne
    rw [hsel]
    exact gatherStep_fold_mem_keys form.selectorPairs ([], true) hvalid pair hp hne
  refine ⟨?_, hkeys⟩
  obtain ⟨pair, hp, hne⟩ := hrow
  intro hnil
  have := hkeys pair hp hne
  rw [hnil] at this
  cases this

/-- C8 as amended, on the form of Scenario A. -/
theorem C8_saved_selectors_nonempty_of_row_witness :
    ruleFormSubmit
        { matchType := utf16 "contains", urlValue := utf16 "example.com/orders",
          selectorPairs := [{ selectorName := utf16 " order", selectorValue := utf16 "#order-id" }],
          titleChange := utf16 "Order \x7b\x7border\x7d\x7d" }
        (utf16 "rule-1") = .save scenarioRule ∧
    scenarioRule.selectors ≠ [] :=
  ⟨by decide,
   (C8_saved_selectors_nonempty_of_row
     { matchType := utf16 "contains", urlValue := utf16 "example.com/orders",
       selectorPairs := [{ selectorName := utf16 " order", selectorValue := utf16 "#order-id" }],
       titleChange := utf16 "Order \x7b\x7border\x7d\x7d" }
     (utf16 "rule-1") scenarioRule (by decide)
     ⟨{ selectorName := utf16 " order", selectorValue := utf16 "#order-id" },
      by simp, by decide⟩).1⟩

/-! ## Claims C9 and C10: the main routine of the content script -/

/-- C9, evaluated where it fails and where it holds. With the rule, the URL and the
page of Scenario A and no mutation batch after the script has started, the routine
stays suspended in `waitForDynamicContent` and the title is still the one of the page,
whatever the document contains: the observer is registered without a first check.
Once one mutation batch is delivered with `#order-id` resolving to the text 42, the
title is `Order 42`. -/
theorem C9_scenarioA_title_needs_a_mutation :
    run [scenarioRule] scenarioUrl scenarioPage []
      = { status := .waiting 0 scenarioRule [], page := scenarioPage, log := [] } ∧
    (run [scenarioRule] scenarioUrl scenarioPage []).page.title = utf16 "Orders" ∧
    waitForDynamicContent scenarioRule.selectors.values [] = none ∧
    (run [scenarioRule] scenarioUrl scenarioPage
      [{ observed := scenarioDom, resumed := scenarioDom }]).page.title = utf16 "Order 42" := by
  decide

/-- C10: if some selector of the rule at position `i` of the stored list resolves at no
mutation batch, then `updateTitle` is never called for that rule (no title write and no
verification banner for it), its `catch` block never runs, the routine is not rejected,
and from the moment the routine waits for that rule the whole state of the content
script, the title included, stays as it is. -/
theorem C10_unresolved_selector_rule_never_applied (rules : List Rule)
    (currentUrl : JSString) (page : Page) (batches : List MutationBatch) (i : Nat)
    (rule : Rule) (selector : JSString) (hrule : rules[i]? = some rule)
    (hsel : selector ∈ rule.selectors.values)
    (hnever : ∀ batch ∈ batches, batch.observed.querySelector selector = none) :
    LogEntry.applied i ∉ (run rules currentUrl page batches).log ∧
    LogEntry.failed i ∉ (run rules currentUrl page batches).log ∧
    (∀ error, (run rules currentUrl page batches).status ≠ .rejected error) ∧
    (∀ pre post rest, batches = pre ++ post →
      (run rules currentUrl page pre).status = .waiting i rule rest →
      run rules currentUrl page batches = run rules currentUrl page pre) := by
  have hinv := foldl_onMutation_neverApplied rules currentUrl i rule selector hrule hsel
    batches (start rules currentUrl page) hnever
    (resumeLoop_neverApplied rules currentUrl i rules 0 page [] (by simp) (by simp) (by simp))
  refine ⟨hinv.1, hinv.2.1, hinv.2.2.1, ?_⟩
  intro pre post rest hsplit hwait
  subst hsplit
  unfold run at hwait ⊢
  rw [List.foldl_append]
  exact foldl_onMutation_waiting_unchanged currentUrl i rule rest selector hsel post _
    (fun b hb => hnever b (List.mem_append_right _ hb)) hwait

/-- C10 on Scenario B: the rule of Scenario A on a page where `#order-id` never
appears, over two mutation batches. -/
theorem C10_unresolved_selector_rule_never_applied_witness :
    [scenarioRule][0]? = some scenarioRule ∧
    utf16 "#order-id" ∈ scenarioRule.selectors.values ∧
    (∀ batch ∈ [({ observed := emptyDom, resumed := emptyDom } : MutationBatch),
        { observed := emptyDom, resumed := emptyDom }],
      batch.observed.querySelector (utf16 "#order-id") = none) ∧
    LogEntry.applied 0 ∉ (run [scenarioRule] scenarioUrl scenarioPage
      [{ observed := emptyDom, resumed := emptyDom },
       { observed := emptyDom, resumed := emptyDom }]).log ∧
    (run [scenarioRule] scenarioUrl scenarioPage
      [{ observed := emptyDom, resumed := emptyDom },
       { observed := emptyDom, resumed := emptyDom }]).page = scenarioPage :=
  ⟨rfl, by decide, by simp [emptyDom],
   (C10_unresolved_selector_rule_never_applied [scenarioRule] scenarioUrl scenarioPage
      [{ observed := emptyDom, resumed := emptyDom },
       { observed := emptyDom, resumed := emptyDom }] 0 scenarioRule (utf16 "#order-id")
      rfl (by decide) (by simp [emptyDom])).1,
   by decide⟩

/-! ## Lemmas on the order of processing -/

theorem resumeLoop_page_log (currentUrl : JSString) :
    ∀ (rest : List Rule) (idx : Nat) (page : Page) (log : List LogEntry),
      (resumeLoop currentUrl rest idx page log).page = page ∧
      (resumeLoop currentUrl rest idx page log).log = log
  | [], _, _, _ => ⟨rfl, rfl⟩
  | rule :: rest, idx, page, log => by
    unfold resumeLoop
    cases hm : doesUrlMatch (.string currentUrl) (.string rule.matchType)
        (.string rule.urlValue) with
    | throw error => exact ⟨rfl, rfl⟩
    | normal b =>
      cases b with
      | false => exact resumeLoop_page_log currentUrl rest (idx + 1) page log
      | true => exact ⟨rfl, rfl⟩

theorem resumeLoop_not_rejected (currentUrl : JSString) :
    ∀ (rest : List Rule) (idx : Nat) (page : Page) (log : List LogEntry) (error : JSError),
      (resumeLoop currentUrl rest idx page log).status ≠ .rejected error
  | [], _, _, _, _ => by simp [resumeLoop]
  | rule :: rest, idx, page, log, error => by
    unfold resumeLoop
    cases hm : doesUrlMatch (.string currentUrl) (.string rule.matchType)
        (.string rule.urlValue) with
    | throw e => exact absurd hm (doesUrlMatch_string_ne_throw _ _ _ _)
    | normal b =>
      cases b with
      | false => exact resumeLoop_not_rejected currentUrl rest (idx + 1) page log error
      | true => simp

theorem resumeLoop_pending (currentUrl : JSString) :
    ∀ (rest : List Rule) (idx : Nat) (page : Page) (log : List LogEntry),
      Status.pending currentUrl (resumeLoop currentUrl rest idx page log).status
        = matchingFrom currentUrl rest idx
  | [], _, _, _ => rfl
  | rule :: rest, idx, page, log => by
    unfold matchingFrom
    by_cases hmu : matchesUrl currentUrl rule
    · rw [if_pos hmu]
      unfold resumeLoop
      rw [hmu]
      rfl
    · rw [if_neg hmu]
      unfold resumeLoop
      cases hm : doesUrlMatch (.string currentUrl) (.string rule.matchType)
          (.string rule.urlValue) with
      | throw e => exact absurd hm (doesUrlMatch_string_ne_throw _ _ _ _)
      | normal b =>
        cases b with
        | false => exact resumeLoop_pending currentUrl rest (idx + 1) page log
        | true => exact absurd hm hmu

theorem resumeLoop_waiting (rules : List Rule) (currentUrl : JSString) :
    ∀ (rest : List Rule) (k : Nat) (page : Page) (log : List LogEntry),
      rest = rules.drop k →
      ∀ idx rule rest2, (resumeLoop currentUrl rest k page log).status = .waiting idx rule rest2 →
        rules[idx]? = some rule ∧ rest2 = rules.drop (idx + 1)
  | [], _, _, _, _, _, _, _, h => by simp [resumeLoop] at h
  | r :: rest, k, page, log, hdrop, idx, rule, rest2, h => by
    have hget : rules[k]? = some r := by
      have := congrArg List.head? hdrop
      simpa [List.head?_drop] using this.symm
    have hrest : rest = rules.drop (k + 1) := by
      have := congrArg List.tail hdrop
      simpa [List.tail_drop] using this
    unfold resumeLoop at h
    cases hm : doesUrlMatch (.string currentUrl) (.string r.matchType)
        (.string r.urlValue) with
    | throw e => exact absurd hm (doesUrlMatch_string_ne_throw _ _ _ _)
    | normal b =>
      rw [hm] at h
      cases b with
      | false =>
        exact resumeLoop_waiting rules currentUrl rest (k + 1) page log hrest idx rule rest2 h
      | true =>
        simp only [Status.waiting.injEq] at h
        obtain ⟨rfl, rfl, rfl⟩ := h
        exact ⟨hget, hrest⟩

theorem matchingFrom_ge (currentUrl : JSString) :
    ∀ (rest : List Rule) (k j : Nat), j ∈ matchingFrom currentUrl rest k → k ≤ j
  | [], _, _, h => by simp [matchingFrom] at h
  | r :: rest, k, j, h => by
    unfold matchingFrom at h
    split at h
    · rcases List.mem_cons.mp h with rfl | h
      · exact Nat.le_refl _
      · exact Nat.le_of_succ_le (matchingFrom_ge currentUrl rest (k + 1) j h)
    · exact Nat.le_of_succ_le (matchingFrom_ge currentUrl rest (k + 1) j h)

theorem matchingFrom_pairwise (currentUrl : JSString) :
    ∀ (rest : List Rule) (k : Nat), (matchingFrom currentUrl rest k).Pairwise (· < ·)
  | [], _ => by simp [matchingFrom]
  | r :: rest, k => by
    unfold matchingFrom
    split
    · exact List.pairwise_cons.mpr
        ⟨fun j hj => matchingFrom_ge currentUrl rest (k + 1) j hj,
         matchingFrom_pairwise currentUrl rest (k + 1)⟩
    · exact matchingFrom_pairwise currentUrl rest (k + 1)

theorem mem_matchingFrom (currentUrl : JSString) :
    ∀ (rest : List Rule) (k j : Nat),
      j ∈ matchingFrom currentUrl rest k ↔
        ∃ r, k ≤ j ∧ rest[j - k]? = some r ∧ matchesUrl currentUrl r
  | [], _, _ => by simp [matchingFrom]
  | r :: rest, k, j => by
    have ih := mem_matchingFrom currentUrl rest (k + 1) j
    unfold matchingFrom
    constructor
    · intro h
      have hcases : (j = k ∧ matchesUrl currentUrl r) ∨ j ∈ matchingFrom currentUrl rest (k + 1) := by
        split at h
        · rename_i hm
          rcases List.mem_cons.mp h with rfl | h
          · exact Or.inl ⟨rfl, hm⟩
          · exact Or.inr h
        · exact Or.inr h
      rcases hcases with ⟨rfl, hm⟩ | h
      · exact ⟨r, Nat.le_refl _, by simp, hm⟩
      · obtain ⟨r2, hle, hget, hm⟩ := ih.mp h
        refine ⟨r2, by omega, ?_, hm⟩
        have : j - k = (j - (k + 1)) + 1 := by omega
        rw [this, List.getElem?_cons_succ]
        exact hget
    · rintro ⟨r2, hle, hget, hm⟩
      rcases Nat.eq_or_lt_of_le hle with rfl | hlt
      · simp only [Nat.sub_self, List.getElem?_cons_zero, Option.some.injEq] at hget
        subst hget
        rw [if_pos hm]
        exact List.mem_cons_self _ _
      · have hmem : j ∈ matchingFrom currentUrl rest (k + 1) := by
          apply ih.mpr
          refine ⟨r2, by omega, ?_, hm⟩
          have : j - k = (j - (k + 1)) + 1 := by omega
          rw [this, List.getElem?_cons_succ] at hget
          exact hget
        split
        · exact List.mem_cons_of_mem _ hmem
        · exact hmem

theorem mem_matchingFrom_zero (currentUrl : JSString) (rules : List Rule) (j : Nat) :
    j ∈ matchingFrom currentUrl rules 0 ↔ ∃ r, rules[j]? = some r ∧ matchesUrl currentUrl r := by
  rw [mem_matchingFrom]
  simp

/-- The outcomes of the delivery of one mutation batch: nothing happens, or the rule
waited for is applied, or its extraction fails; in the last two cases the loop goes on
with the rules after it. -/
theorem onMutation_cases (currentUrl : JSString) (s : Script) (batch : MutationBatch) :
    onMutation currentUrl s batch = s ∨
    ∃ idx rule rest, s.status = .waiting idx rule rest ∧
      allElementsFound rule.selectors.values batch.observed = true ∧
      ((∃ data, extractData batch.resumed rule.selectors.entries [] = .normal data ∧
          onMutation currentUrl s batch
            = resumeLoop currentUrl rest (idx + 1) (updateTitle rule data s.page)
                (s.log ++ [.applied idx])) ∨
       (∃ error, extractData batch.resumed rule.selectors.entries [] = .throw error ∧
          onMutation currentUrl s batch
            = resumeLoop currentUrl rest (idx + 1) s.page (s.log ++ [.failed idx]))) := by
  unfold onMutation
  cases hst : s.status with
  | finished => exact Or.inl rfl
  | rejected error => exact Or.inl rfl
  | waiting idx rule rest =>
    simp only
    by_cases hall : allElementsFound rule.selectors.values batch.observed = true
    · rw [if_pos hall]
      refine Or.inr ⟨idx, rule, rest, rfl, hall, ?_⟩
      cases hx : extractData batch.resumed rule.selectors.entries [] with
      | normal data => exact Or.inl ⟨data, rfl, rfl⟩
      | throw error => exact Or.inr ⟨error, rfl, rfl⟩
    · rw [if_neg hall]
      exact Or.inl rfl

theorem run_snoc (rules : List Rule) (currentUrl : JSString) (page : Page)
    (pre : List MutationBatch) (batch : MutationBatch) :
    run rules currentUrl page (pre ++ [batch])
      = onMutation currentUrl (run rules currentUrl page pre) batch := by
  simp [run, List.foldl_append]

/-- The log and the positions still to process always make up the positions of the
matching rules, in store order. -/
theorem run_pending (rules : List Rule) (currentUrl : JSString) (page : Page)
    (batches : List MutationBatch) :
    (run rules currentUrl page batches).log.map LogEntry.idx
        ++ Status.pending currentUrl (run rules currentUrl page batches).status
      = matchingFrom currentUrl rules 0 := by
  induction batches using List.reverseRecOn with
  | nil =>
    simp only [run, List.foldl_nil, start, (resumeLoop_page_log currentUrl rules 0 page []).2,
      resumeLoop_pending, List.map_nil, List.nil_append]
  | append_singleton pre batch ih =>
    rw [run_snoc]
    rcases onMutation_cases currentUrl (run rules currentUrl page pre) batch with
      h | ⟨idx, rule, rest, hst, _, ⟨data, _, h⟩ | ⟨error, _, h⟩⟩
    · rw [h]; exact ih
    · rw [hst] at ih
      rw [h, (resumeLoop_page_log _ _ _ _ _).2, resumeLoop_pending, ← ih]
      simp [Status.pending, LogEntry.idx]
    · rw [hst] at ih
      rw [h, (resumeLoop_page_log _ _ _ _ _).2, resumeLoop_pending, ← ih]
      simp [Status.pending, LogEntry.idx]

/-- A suspended routine waits for the rule found at the position it records. -/
theorem run_waiting (rules : List Rule) (currentUrl : JSString) (page : Page)
    (batches : List MutationBatch) :
    ∀ idx rule rest, (run rules currentUrl page batches).status = .waiting idx rule rest →
      rules[idx]? = some rule ∧ rest = rules.drop (idx + 1) := by
  induction batches using List.reverseRecOn with
  | nil =>
    intro idx rule rest h
    exact resumeLoop_waiting rules currentUrl rules 0 page [] (by simp) idx rule rest h
  | append_singleton pre batch ih =>
    intro idx rule rest hw
    rw [run_snoc] at hw
    rcases onMutation_cases currentUrl (run rules currentUrl page pre) batch with
      h | ⟨idx0, rule0, rest0, hst, _, ⟨data, _, h⟩ | ⟨error, _, h⟩⟩
    · rw [h] at hw; exact ih idx rule rest hw
    · rw [h] at hw
      exact resumeLoop_waiting rules currentUrl rest0 (idx0 + 1) _ _ (ih idx0 rule0 rest0 hst).2
        idx rule rest hw
    · rw [h] at hw
      exact resumeLoop_waiting rules currentUrl rest0 (idx0 + 1) _ _ (ih idx0 rule0 rest0 hst).2
        idx rule rest hw

theorem run_not_rejected (rules : List Rule) (currentUrl : JSString) (page : Page)
    (batches : List MutationBatch) (error : JSError) :
    (run rules currentUrl page batches).status ≠ .rejected error := by
  induction batches using List.reverseRecOn with
  | nil => exact resumeLoop_not_rejected currentUrl rules 0 page [] error
  | append_singleton pre batch ih =>
    rw [run_snoc]
    rcases onMutation_cases currentUrl (run rules currentUrl page pre) batch with
      h | ⟨idx0, rule0, rest0, hst, _, ⟨data, _, h⟩ | ⟨err, _, h⟩⟩
    · rw [h]; exact ih
    · rw [h]; exact resumeLoop_not_rejected _ _ _ _ _ _
    · rw [h]; exact resumeLoop_not_rejected _ _ _ _ _ _

theorem extractData_throw_of_unresolved (dom : Dom) (selector : JSString)
    (hmiss : dom.querySelector selector = none) :
    ∀ (entries : List (JSString × JSString)) (extractedData : JSObject),
      selector ∈ entries.map Prod.snd → extractData dom entries extractedData = .throw .typeError
  | [], _, h => by simp at h
  | (name, sel) :: rest, extractedData, h => by
    unfold extractData
    cases hq : dom.querySelector sel with
    | none => rfl
    | some element =>
      have hrest : selector ∈ rest.map Prod.snd := by
        rw [List.map_cons] at h
        rcases List.mem_cons.mp h with hs | hs
        · rw [hs, hq] at hmiss
          cases hmiss
        · exact hs
      exact extractData_throw_of_unresolved dom selector hmiss rest _ hrest

/-- The title after the last application: when the last log entry says that the rule at
position `j` was applied, the title is that rule's template rendered with the data
extracted at one of the batches. -/
theorem run_last_applied (rules : List Rule) (currentUrl : JSString) (page : Page)
    (batches : List MutationBatch) :
    ∀ j, (run rules currentUrl page batches).log.getLast? = some (.applied j) →
      ∃ rule batch data, rules[j]? = some rule ∧ batch ∈ batches ∧
        extractData batch.resumed rule.selectors.entries [] = .normal data ∧
        (run rules currentUrl page batches).page.title = renderTitle rule.titleChange data := by
  induction batches using List.reverseRecOn with
  | nil =>
    intro j h
    simp [run, start, (resumeLoop_page_log currentUrl rules 0 page []).2] at h
  | append_singleton pre batch ih =>
    intro j hlast
    rw [run_snoc] at hlast ⊢
    rcases onMutation_cases currentUrl (run rules currentUrl page pre) batch with
      h | ⟨idx, rule, rest, hst, _, ⟨data, hdata, h⟩ | ⟨error, _, h⟩⟩
    · rw [h] at hlast ⊢
      obtain ⟨r, b, d, hr, hb, hd, ht⟩ := ih j hlast
      exact ⟨r, b, d, hr, List.mem_append_left _ hb, hd, ht⟩
    · rw [h, (resumeLoop_page_log _ _ _ _ _).2, List.getLast?_concat] at hlast
      injection hlast with hlast
      injection hlast with hlast
      subst hlast
      refine ⟨rule, batch, data,
        (run_waiting rules currentUrl page pre idx rule rest hst).1, by simp, hdata, ?_⟩
      rw [h, (resumeLoop_page_log _ _ _ _ _).1, updateTitle_title]
    · rw [h, (resumeLoop_page_log _ _ _ _ _).2, List.getLast?_concat] at hlast
      injection hlast with hlast
      cases hlast

/-- While the selectors of the rule at position `i` never all resolve, no log entry is
about that rule. -/
theorem run_not_processed (rules : List Rule) (currentUrl : JSString) (page : Page)
    (i : Nat) (rule : Rule) (hrule : rules[i]? = some rule) :
    ∀ batches : List MutationBatch,
      (∀ batch ∈ batches, allElementsFound rule.selectors.values batch.observed = false) →
      i ∉ (run rules currentUrl page batches).log.map LogEntry.idx := by
  intro batches
  induction batches using List.reverseRecOn with
  | nil =>
    intro _
    simp [run, start, (resumeLoop_page_log currentUrl rules 0 page []).2]
  | append_singleton pre batch ih =>
    intro hnever
    have ihp := ih (fun b hb => hnever b (List.mem_append_left _ hb))
    have hb := hnever batch (by simp)
    have hne : ∀ idx r rest, (run rules currentUrl page pre).status = .waiting idx r rest →
        allElementsFound r.selectors.values batch.observed = true → idx ≠ i := by
      rintro idx r rest hst hall rfl
      have := (run_waiting rules currentUrl page pre idx r rest hst).1
      rw [hrule] at this
      injection this with this
      subst this
      rw [hb] at hall
      cases hall
    rw [run_snoc]
    rcases onMutation_cases currentUrl (run rules currentUrl page pre) batch with
      h | ⟨idx, r, rest, hst, hall, ⟨data, _, h⟩ | ⟨error, _, h⟩⟩
    · rw [h]; exact ihp
    · rw [h, (resumeLoop_page_log _ _ _ _ _).2]
      simp only [List.map_append, List.map_cons, List.map_nil, List.mem_append,
        List.mem_singleton, LogEntry.idx, not_or]
      exact ⟨ihp, Ne.symm (hne idx r rest hst hall)⟩
    · rw [h, (resumeLoop_page_log _ _ _ _ _).2]
      simp only [List.map_append, List.map_cons, List.map_nil, List.mem_append,
        List.mem_singleton, LogEntry.idx, not_or]
      exact ⟨ihp, Ne.symm (hne idx r rest hst hall)⟩

theorem resumeLoop_status (currentUrl : JSString) :
    ∀ (rest : List Rule) (k : Nat) (page : Page) (log : List LogEntry),
      ((resumeLoop currentUrl rest k page log).status = .finished ∧
        ∀ r ∈ rest, ¬ matchesUrl currentUrl r) ∨
      ∃ skipped next after, rest = skipped ++ next :: after ∧
        (∀ r ∈ skipped, ¬ matchesUrl currentUrl r) ∧ matchesUrl currentUrl next ∧
        (resumeLoop currentUrl rest k page log).status
          = .waiting (k + skipped.length) next after
  | [], _, _, _ => Or.inl ⟨rfl, fun _ h => by simp at h⟩
  | rule :: rest, k, page, log => by
    by_cases hmu : matchesUrl currentUrl rule
    · refine Or.inr ⟨[], rule, rest, rfl, fun _ h => by simp at h, hmu, ?_⟩
      unfold resumeLoop
      rw [hmu]
      rfl
    · unfold resumeLoop
      cases hm : doesUrlMatch (.string currentUrl) (.string rule.matchType)
          (.string rule.urlValue) with
      | throw e => exact absurd hm (doesUrlMatch_string_ne_throw _ _ _ _)
      | normal b =>
        cases b with
        | true => exact absurd hm hmu
        | false =>
          rcases resumeLoop_status currentUrl rest (k + 1) page log with
            ⟨hfin, hnone⟩ | ⟨skipped, next, after, hrest, hskip, hnext, hst⟩
          · refine Or.inl ⟨hfin, fun r hr => ?_⟩
            rcases List.mem_cons.mp hr with rfl | h
            · exact hmu
            · exact hnone r h
          · refine Or.inr ⟨rule :: skipped, next, after, by rw [hrest]; rfl, fun r hr => ?_,
              hnext, ?_⟩
            · rcases List.mem_cons.mp hr with rfl | h
              · exact hmu
              · exact hskip r h
            · rw [hst, List.length_cons]
              congr 1
              omega

theorem foldl_onMutation_waiting_stays (currentUrl : JSString) (idx : Nat) (rule : Rule)
    (rest : List Rule) :
    ∀ (batches : List MutationBatch) (s : Script),
      (∀ batch ∈ batches, allElementsFound rule.selectors.values batch.observed = false) →
      s.status = .waiting idx rule rest →
      batches.foldl (onMutation currentUrl) s = s
  | [], _, _, _ => rfl
  | batch :: more, s, hnone, hst => by
    have hstep : onMutation currentUrl s batch = s := by
      unfold onMutation
      rw [hst]
      simp only
      rw [hnone batch (List.mem_cons_self _ _)]
      simp
    rw [List.foldl_cons, hstep]
    exact foldl_onMutation_waiting_stays currentUrl idx rule rest more s
      (fun b hb => hnone b (List.mem_cons_of_mem _ hb)) hst

/-! ## Claims C11 to C13: several matching rules -/

/-- C11 fails on the page of Scenario A with two matching rules, the earlier one with a
selector that never resolves and the later one with a selector that resolves at every
batch: after two batches the routine still waits for the earlier rule, nothing has been
applied and the title is the one of the page. -/
theorem C11_blocked_earlier_rule_scenario :
    matchesUrl scenarioUrl blockedRule ∧ matchesUrl scenarioUrl scenarioRule ∧
    allElementsFound blockedRule.selectors.values bothDom = false ∧
    allElementsFound scenarioRule.selectors.values bothDom = true ∧
    run [blockedRule, scenarioRule] scenarioUrl scenarioPage
        [{ observed := bothDom, resumed := bothDom }, { observed := bothDom, resumed := bothDom }]
      = { status := .waiting 0 blockedRule [scenarioRule], page := scenarioPage, log := [] } := by
  decide

/-- C11 as amended: the rules are processed one at a time in store order. If the rule at
position `i` matches the URL and its selectors never all resolve at a mutation batch,
every log entry is about a rule before position `i`, so no rule at or after `i` is
applied, whether or not its selectors resolve, and the routine stays suspended at a
position not after `i`. -/
theorem C11_unresolved_rule_blocks_later_rules (rules : List Rule) (currentUrl : JSString)
    (page : Page) (batches : List MutationBatch) (i : Nat) (rule : Rule)
    (hrule : rules[i]? = some rule) (hmatch : matchesUrl currentUrl rule)
    (hnever : ∀ batch ∈ batches,
      allElementsFound rule.selectors.values batch.observed = false) :
    (∀ entry ∈ (run rules currentUrl page batches).log, entry.idx < i) ∧
    (∀ j, i ≤ j → LogEntry.applied j ∉ (run rules currentUrl page batches).log) ∧
    ∃ idx r rest, (run rules currentUrl page batches).status = .waiting idx r rest ∧ idx ≤ i := by
  have hpend := run_pending rules currentUrl page batches
  have hnot := run_not_processed rules currentUrl page i rule hrule batches hnever
  have hmem : i ∈ matchingFrom currentUrl rules 0 :=
    (mem_matchingFrom_zero currentUrl rules i).mpr ⟨rule, hrule, hmatch⟩
  have hpair := matchingFrom_pairwise currentUrl rules 0
  rw [← hpend] at hmem hpair
  have hip : i ∈ Status.pending currentUrl (run rules currentUrl page batches).status := by
    rcases List.mem_append.mp hmem with h | h
    · exact absurd h hnot
    · exact h
  obtain ⟨_, hpp, hcross⟩ := List.pairwise_append.mp hpair
  have hlog : ∀ entry ∈ (run rules currentUrl page batches).log, entry.idx < i :=
    fun entry he => hcross entry.idx (List.mem_map_of_mem _ he) i hip
  refine ⟨hlog, ?_, ?_⟩
  · intro j hj hin
    have := hlog _ hin
    simp only [LogEntry.idx] at this
    omega
  · cases hst : (run rules currentUrl page batches).status with
    | finished => rw [hst] at hip; simp [Status.pending] at hip
    | rejected error => rw [hst] at hip; simp [Status.pending] at hip
    | waiting idx r rest =>
      refine ⟨idx, r, rest, rfl, ?_⟩
      rw [hst] at hip hpp
      simp only [Status.pending] at hip hpp
      rcases List.mem_cons.mp hip with h | h
      · omega
      · exact Nat.le_of_lt ((List.pairwise_cons.mp hpp).1 i h)

/-- C11 as amended, on the two rules and the two batches of the counterexample. -/
theorem C11_unresolved_rule_blocks_later_rules_witness :
    [blockedRule, scenarioRule][0]? = some blockedRule ∧
    matchesUrl scenarioUrl blockedRule ∧
    (∀ batch ∈ [({ observed := bothDom, resumed := bothDom } : MutationBatch),
        { observed := bothDom, resumed := bothDom }],
      allElementsFound blockedRule.selectors.values batch.observed = false) ∧
    LogEntry.applied 1 ∉ (run [blockedRule, scenarioRule] scenarioUrl scenarioPage
      [{ observed := bothDom, resumed := bothDom },
       { observed := bothDom, resumed := bothDom }]).log :=
  ⟨rfl, by decide, by simp; decide,
   (C11_unresolved_rule_blocks_later_rules [blockedRule, scenarioRule] scenarioUrl scenarioPage
      [{ observed := bothDom, resumed := bothDom }, { observed := bothDom, resumed := bothDom }]
      0 blockedRule rfl (by decide) (by simp; decide)).2.1 1 (by decide)⟩

/-- C12 fails on three rules that match the page of Scenario A: the first one misses
`#order-id` at extraction, the second one has a selector that never resolves, and the
third one, whose selector resolves at every batch, is never evaluated: the routine stays
suspended at the second rule and the log holds nothing about position 2. -/
theorem C12_third_rule_never_evaluated_scenario :
    matchesUrl scenarioUrl scenarioRule ∧ matchesUrl scenarioUrl blockedRule ∧
    matchesUrl scenarioUrl secondRule ∧
    allElementsFound scenarioRule.selectors.values bothDom = true ∧
    emptyDom.querySelector (utf16 "#order-id") = none ∧
    allElementsFound secondRule.selectors.values bothDom = true ∧
    run [scenarioRule, blockedRule, secondRule] scenarioUrl scenarioPage
        [{ observed := bothDom, resumed := emptyDom }, { observed := bothDom, resumed := bothDom },
         { observed := bothDom, resumed := bothDom }]
      = { status := .waiting 1 blockedRule [secondRule], page := scenarioPage,
          log := [.failed 0] } := by
  decide

/-- C12 as amended: when the routine waits for a rule, a batch resolves the wait, and at
extraction `querySelector` returns null for one of the rule's selectors, then the step
is the `catch` block followed by the rest of the loop: the page (title, banners, API
calls, hence the Rule Store) is unchanged, the log records a failure and no application
for that rule, and the routine is not rejected. The loop goes on in store order: either
no later rule matches the URL and the routine finishes, or the rules up to the next
matching one are skipped and the routine waits for that one; as long as the selectors of
that rule do not all resolve at a batch, the state stays as it is, so the rules after it
are not evaluated. -/
theorem C12_post_wait_miss_is_isolated (currentUrl : JSString) (s : Script)
    (batch : MutationBatch) (idx : Nat) (rule : Rule) (rest : List Rule) (selector : JSString)
    (hwait : s.status = .waiting idx rule rest)
    (hfound : allElementsFound rule.selectors.values batch.observed = true)
    (hsel : selector ∈ rule.selectors.values)
    (hmiss : batch.resumed.querySelector selector = none) :
    onMutation currentUrl s batch
      = resumeLoop currentUrl rest (idx + 1) s.page (s.log ++ [.failed idx]) ∧
    (onMutation currentUrl s batch).page = s.page ∧
    (onMutation currentUrl s batch).log = s.log ++ [.failed idx] ∧
    (∀ error, (onMutation currentUrl s batch).status ≠ .rejected error) ∧
    Status.pending currentUrl (onMutation currentUrl s batch).status
      = matchingFrom currentUrl rest (idx + 1) ∧
    (((onMutation currentUrl s batch).status = .finished ∧
        ∀ r ∈ rest, ¬ matchesUrl currentUrl r) ∨
      ∃ skipped next after, rest = skipped ++ next :: after ∧
        (∀ r ∈ skipped, ¬ matchesUrl currentUrl r) ∧ matchesUrl currentUrl next ∧
        (onMutation currentUrl s batch).status
          = .waiting (idx + 1 + skipped.length) next after ∧
        ∀ more : List MutationBatch,
          (∀ b ∈ more, allElementsFound next.selectors.values b.observed = false) →
          more.foldl (onMutation currentUrl) (onMutation currentUrl s batch)
            = onMutation currentUrl s batch) := by
  have hthrow := extractData_throw_of_unresolved batch.resumed selector hmiss
    rule.selectors.entries [] hsel
  have hstep : onMutation currentUrl s batch
      = resumeLoop currentUrl rest (idx + 1) s.page (s.log ++ [.failed idx]) := by
    unfold onMutation
    rw [hwait]
    simp only [hfound, if_true, hthrow]
  refine ⟨hstep, ?_, ?_, ?_, ?_, ?_⟩
  · rw [hstep]; exact (resumeLoop_page_log _ _ _ _ _).1
  · rw [hstep]; exact (resumeLoop_page_log _ _ _ _ _).2
  · intro error; rw [hstep]; exact resumeLoop_not_rejected _ _ _ _ _ _
  · rw [hstep]; exact resumeLoop_pending _ _ _ _ _
  · rw [hstep]
    rcases resumeLoop_status currentUrl rest (idx + 1) s.page (s.log ++ [.failed idx]) with
      h | ⟨skipped, next, after, hrest, hskip, hnext, hst⟩
    · exact Or.inl h
    · exact Or.inr ⟨skipped, next, after, hrest, hskip, hnext, hst, fun more hmore =>
        foldl_onMutation_waiting_stays currentUrl _ next after more _ hmore hst⟩

/-- C12 as amended, on the three rules of the counterexample: `#order-id` is there when
the observer fires and gone at extraction; the first rule fails, the page is untouched
and the routine waits for the second rule. -/
theorem C12_post_wait_miss_is_isolated_witness :
    (run [scenarioRule, blockedRule, secondRule] scenarioUrl scenarioPage []).status
      = .waiting 0 scenarioRule [blockedRule, secondRule] ∧
    allElementsFound scenarioRule.selectors.values scenarioDom = true ∧
    utf16 "#order-id" ∈ scenarioRule.selectors.values ∧
    emptyDom.querySelector (utf16 "#order-id") = none ∧
    onMutation scenarioUrl
        (run [scenarioRule, blockedRule, secondRule] scenarioUrl scenarioPage [])
        { observed := scenarioDom, resumed := emptyDom }
      = { status := .waiting 1 blockedRule [secondRule], page := scenarioPage,
          log := [.failed 0] } :=
  ⟨by decide, by decide, by decide, rfl,
   (C12_post_wait_miss_is_isolated scenarioUrl
      (run [scenarioRule, blockedRule, secondRule] scenarioUrl scenarioPage [])
      { observed := scenarioDom, resumed := emptyDom } 0 scenarioRule [blockedRule, secondRule]
      (utf16 "#order-id") (by decide) (by decide) (by decide) rfl).1.trans (by decide)⟩

/-- C13: when every stored rule that matches the URL has been applied, the log entries
are in increasing order of position (the titles were written in store order), and the
title is the template of the matching rule last in store order, rendered with the data
extracted for it at one of the batches. -/
theorem C13_last_matching_rule_wins (rules : List Rule) (currentUrl : JSString)
    (page : Page) (batches : List MutationBatch)
    (hall : ∀ (j : Nat) (r : Rule), rules[j]? = some r → matchesUrl currentUrl r →
      LogEntry.applied j ∈ (run rules currentUrl page batches).log) :
    (run rules currentUrl page batches).log.Pairwise (fun a b => a.idx < b.idx) ∧
    ∀ (j : Nat) (r : Rule), rules[j]? = some r → matchesUrl currentUrl r →
      (∀ (k : Nat) (r2 : Rule), j < k → rules[k]? = some r2 → ¬ matchesUrl currentUrl r2) →
      ∃ batch data, batch ∈ batches ∧
        extractData batch.resumed r.selectors.entries [] = .normal data ∧
        (run rules currentUrl page batches).page.title = renderTitle r.titleChange data := by
  have hpend := run_pending rules currentUrl page batches
  have hpair := matchingFrom_pairwise currentUrl rules 0
  rw [← hpend] at hpair
  obtain ⟨hlogpair, _, _⟩ := List.pairwise_append.mp hpair
  have hlog : (run rules currentUrl page batches).log.Pairwise (fun a b => a.idx < b.idx) :=
    List.pairwise_map.mp hlogpair
  refine ⟨hlog, ?_⟩
  intro j r hr hm hlast
  have hin := hall j r hr hm
  rcases List.eq_nil_or_concat (run rules currentUrl page batches).log with hnil | ⟨init, e, hcat⟩
  · rw [hnil] at hin
    cases hin
  · rw [List.concat_eq_append] at hcat
    have hmemM : e.idx ∈ matchingFrom currentUrl rules 0 := by
      rw [← hpend]
      apply List.mem_append_left
      rw [hcat]
      simp
    obtain ⟨r2, hr2, hm2⟩ := (mem_matchingFrom_zero currentUrl rules e.idx).mp hmemM
    have he : e = .applied j := by
      rw [hcat] at hin hlog
      rcases List.mem_append.mp hin with h | h
      · have hlt := (List.pairwise_append.mp hlog).2.2 _ h e (by simp)
        simp only [LogEntry.idx] at hlt
        exact absurd hm2 (hlast e.idx r2 hlt hr2)
      · exact (List.mem_singleton.mp h).symm
    have hgl : (run rules currentUrl page batches).log.getLast? = some (.applied j) := by
      rw [hcat, List.getLast?_concat, he]
    obtain ⟨rule, batch, data, hrule, hb, hd, ht⟩ :=
      run_last_applied rules currentUrl page batches j hgl
    rw [hr] at hrule
    injection hrule with hrule
    subst hrule
    exact ⟨batch, data, hb, hd, ht⟩

/-- C13 on Scenario D: both rules match, each is applied at its batch, and the title is
that of the second rule. -/
theorem C13_last_matching_rule_wins_witness :
    (run [scenarioRule, secondRule] scenarioUrl scenarioPage
      [{ observed := bothDom, resumed := bothDom },
       { observed := bothDom, resumed := bothDom }]).log = [.applied 0, .applied 1] ∧
    (run [scenarioRule, secondRule] scenarioUrl scenarioPage
      [{ observed := bothDom, resumed := bothDom },
       { observed := bothDom, resumed := bothDom }]).page.title = utf16 "Customer Ada" ∧
    (run [scenarioRule, secondRule] scenarioUrl scenarioPage
      [{ observed := bothDom, resumed := bothDom },
       { observed := bothDom, resumed := bothDom }]).log.Pairwise
        (fun a b => a.idx < b.idx) :=
  ⟨by decide, by decide,
   (C13_last_matching_rule_wins [scenarioRule, secondRule] scenarioUrl scenarioPage
      [{ observed := bothDom, resumed := bothDom }, { observed := bothDom, resumed := bothDom }]
      (fun j r hj _ => by
        have hlog : (run [scenarioRule, secondRule] scenarioUrl scenarioPage
            [{ observed := bothDom, resumed := bothDom },
             { observed := bothDom, resumed := bothDom }]).log = [.applied 0, .applied 1] := by
          decide
        rw [hlog]
        match j, hj with
        | 0, _ => simp
        | 1, _ => simp
        | k + 2, hk => simp at hk)).1⟩

/-! ## Lemmas on the banner, the confirmation and the save step -/

theorem updateTitle_banners (rule : Rule) (extractedData : JSObject) (page : Page) :
    (updateTitle rule extractedData page).banners
      = if rule.verifiedTitle then page.banners
        else [{ title := renderTitle rule.titleChange extractedData, ruleId := rule.id }] := by
  unfold updateTitle
  cases rule.verifiedTitle <;> simp [showVerifyBanner, removeExistingBanners]

theorem updateTitle_apiCalls (rule : Rule) (extractedData : JSObject) (page : Page) :
    (updateTitle rule extractedData page).apiCalls = page.apiCalls := by
  unfold updateTitle
  cases rule.verifiedTitle <;> simp [showVerifyBanner, removeExistingBanners]

theorem storeAfter_append (calls more : List ApiCall) :
    ∀ stored : List Rule,
      storeAfter stored (calls ++ more) = storeAfter (storeAfter stored calls) more := by
  induction calls with
  | nil => intro stored; rfl
  | cons call rest ih =>
    intro stored
    cases call <;> simp only [List.cons_append, storeAfter] <;> exact ih _

/-! ## Claims C14 to C18: verification prompt and confirmation -/

/-- C14 fails on the page of Scenario A with two unverified matching rules, both
applied: after the second application the only banner on the page is that of the
second rule; the banner of the first rule is gone. -/
theorem C14_second_application_removes_first_banner :
    (run [scenarioRule, secondRule] scenarioUrl scenarioPage
        [{ observed := bothDom, resumed := bothDom },
         { observed := bothDom, resumed := bothDom }]).log = [.applied 0, .applied 1] ∧
    (run [scenarioRule, secondRule] scenarioUrl scenarioPage
        [{ observed := bothDom, resumed := bothDom }]).page.banners
      = [{ title := utf16 "Order 42", ruleId := utf16 "rule-1" }] ∧
    (run [scenarioRule, secondRule] scenarioUrl scenarioPage
        [{ observed := bothDom, resumed := bothDom },
         { observed := bothDom, resumed := bothDom }]).page.banners
      = [{ title := utf16 "Customer Ada", ruleId := utf16 "rule-2" }] := by
  decide

/-- C14 as amended: after an unverified rule is applied following any other rule, the
page holds exactly one verification banner, the one of the rule applied last, showing
its rendered title: `showVerifyBanner` removes the existing banners first. -/
theorem C14_only_last_banner_remains (rule1 rule2 : Rule) (data1 data2 : JSObject)
    (page : Page) (h2 : rule2.verifiedTitle = false) :
    (updateTitle rule2 data2 (updateTitle rule1 data1 page)).banners
      = [{ title := renderTitle rule2.titleChange data2, ruleId := rule2.id }] := by
  rw [updateTitle_banners, h2]
  simp

/-- C14 as amended, on the two rules of Scenario D. -/
theorem C14_only_last_banner_remains_witness :
    secondRule.verifiedTitle = false ∧
    (updateTitle secondRule [(utf16 "customer", utf16 "Ada")]
        (updateTitle scenarioRule [(utf16 "order", utf16 "42")] scenarioPage)).banners
      = [{ title := utf16 "Customer Ada", ruleId := utf16 "rule-2" }] :=
  ⟨rfl,
   (C14_only_last_banner_remains scenarioRule secondRule [(utf16 "order", utf16 "42")]
      [(utf16 "customer", utf16 "Ada")] scenarioPage rfl).trans (by decide)⟩

/-- C15: `updateTitle` writes the rendered title whatever `verifiedTitle` is and makes
no storage call; for a verified rule the banners on the page are left as they are (no
prompt is presented), for an unverified rule the page then holds exactly one banner,
showing the rendered title and carrying the rule's id. -/
theorem C15_updateTitle_title_and_prompt (rule : Rule) (extractedData : JSObject)
    (page : Page) :
    (updateTitle rule extractedData page).title = renderTitle rule.titleChange extractedData ∧
    (updateTitle rule extractedData page).apiCalls = page.apiCalls ∧
    (updateTitle rule extractedData page).banners
      = if rule.verifiedTitle then page.banners
        else [{ title := renderTitle rule.titleChange extractedData, ruleId := rule.id }] :=
  ⟨updateTitle_title rule extractedData page, updateTitle_apiCalls rule extractedData page,
   updateTitle_banners rule extractedData page⟩

/-- C16: when the list `L` read by the confirm callback holds a rule with the id of the
banner, exactly one write is issued; the list written has the length of `L`, the first
rule of `L` with that id (at position `k`) has `verifiedTitle` set and its other fields
as before, and every other position holds the rule of `L`. Only the id and `L` enter:
the position of the rule at page load is no argument of the callback. -/
theorem C16_confirm_updates_first_rule_with_id (ruleId : JSString) (L : List Rule)
    (page : Page) (h : ∃ r ∈ L, r.id = ruleId) :
    ∃ (k : Nat) (W : List Rule) (r : Rule),
      onConfirmCallback ruleId { lastError := false, rules := some L } page
        = { page with apiCalls := page.apiCalls ++ [.storageSet W] } ∧
      L[k]? = some r ∧ r.id = ruleId ∧
      (∀ j r2, j < k → L[j]? = some r2 → r2.id ≠ ruleId) ∧
      W.length = L.length ∧
      W[k]? = some { r with verifiedTitle := true } ∧
      (∀ j, j ≠ k → W[j]? = L[j]?) := by
  cases hq : L.findIdx? (fun r => decide (r.id = ruleId)) with
  | none =>
    obtain ⟨r, hr, hid⟩ := h
    have := List.findIdx?_eq_none_iff.mp hq r hr
    simp [hid] at this
  | some k =>
    obtain ⟨hk, hpk, hfirst⟩ := List.findIdx?_eq_some_iff_getElem.mp hq
    refine ⟨k, L.modify (fun r => { r with verifiedTitle := true }) k, L[k], ?_, ?_, ?_, ?_,
      ?_, ?_, ?_⟩
    · simp [onConfirmCallback, hq]
    · exact List.getElem?_eq_getElem hk
    · simpa using hpk
    · intro j r2 hj hr2
      have hjl : j < L.length := Nat.lt_trans hj hk
      have := hfirst j hj
      rw [List.getElem?_eq_getElem hjl] at hr2
      injection hr2 with hr2
      subst hr2
      simpa using this
    · exact List.length_modify _ _ _
    · rw [List.getElem?_modify_eq, List.getElem?_eq_getElem hk]
      rfl
    · intro j hj
      rw [List.getElem?_modify]
      cases L[j]? with
      | none => rfl
      | some a => simp [Ne.symm hj]

/-- C16 with the rule of Scenario D stored twice after the rule of Scenario A: the
first of the two copies is marked, the list is otherwise as read. -/
theorem C16_confirm_updates_first_rule_with_id_witness :
    (∃ r ∈ [scenarioRule, secondRule, secondRule], r.id = utf16 "rule-2") ∧
    onConfirmCallback (utf16 "rule-2")
        { lastError := false, rules := some [scenarioRule, secondRule, secondRule] }
        scenarioPage
      = { scenarioPage with
          apiCalls := [.storageSet
            [scenarioRule, { secondRule with verifiedTitle := true }, secondRule]] } ∧
    (∃ (k : Nat) (W : List Rule) (r : Rule),
      onConfirmCallback (utf16 "rule-2")
          { lastError := false, rules := some [scenarioRule, secondRule, secondRule] }
          scenarioPage
        = { scenarioPage with apiCalls := scenarioPage.apiCalls ++ [.storageSet W] } ∧
      [scenarioRule, secondRule, secondRule][k]? = some r ∧ r.id = utf16 "rule-2" ∧
      (∀ j r2, j < k → [scenarioRule, secondRule, secondRule][j]? = some r2 →
        r2.id ≠ utf16 "rule-2") ∧
      W.length = [scenarioRule, secondRule, secondRule].length ∧
      W[k]? = some { r with verifiedTitle := true } ∧
      (∀ j, j ≠ k → W[j]? = [scenarioRule, secondRule, secondRule][j]?)) :=
  ⟨⟨secondRule, by simp, rfl⟩, by decide,
   C16_confirm_updates_first_rule_with_id (utf16 "rule-2")
     [scenarioRule, secondRule, secondRule] scenarioPage ⟨secondRule, by simp, rfl⟩⟩

/-- C17: when the read issued by the confirm callback reports an error, the click on
"Looks Good" has issued the read and nothing else: no write follows, and the Rule Store
after the calls of the content script is the one before the click. -/
theorem C17_read_error_issues_no_write (banner : Banner) (rules : Option (List Rule))
    (page : Page) (stored : List Rule) :
    onConfirmCallback banner.ruleId { lastError := true, rules := rules }
        (looksGoodClick banner page) = looksGoodClick banner page ∧
    (onConfirmCallback banner.ruleId { lastError := true, rules := rules }
        (looksGoodClick banner page)).apiCalls = page.apiCalls ++ [.storageGet] ∧
    storeAfter stored (onConfirmCallback banner.ruleId { lastError := true, rules := rules }
        (looksGoodClick banner page)).apiCalls = storeAfter stored page.apiCalls := by
  refine ⟨by simp [onConfirmCallback], by simp [onConfirmCallback, looksGoodClick], ?_⟩
  simp only [onConfirmCallback, looksGoodClick, if_true, storeAfter_append, storeAfter]

/-- C18: for an unverified rule, the banner shown by `updateTitle` carries the rule's
id; the click on "Something's Wrong" on it adds exactly one API call of the content
script, the message with the action `openOptionsWithError` and that id, so no storage
read or write, and the Rule Store stays as it was; the banner is removed. The background
listener answers that message by opening the options page and forwarding the id, again
without a storage call. -/
theorem C18_report_problem_sends_one_message (rule : Rule) (extractedData : JSObject)
    (page : Page) (stored : List Rule) (h : rule.verifiedTitle = false) :
    (updateTitle rule extractedData page).banners
      = [{ title := renderTitle rule.titleChange extractedData, ruleId := rule.id }] ∧
    (wrongClick { title := renderTitle rule.titleChange extractedData, ruleId := rule.id }
        (updateTitle rule extractedData page)).apiCalls
      = page.apiCalls ++ [.sendMessage (utf16 "openOptionsWithError") rule.id] ∧
    storeAfter stored
        (wrongClick { title := renderTitle rule.titleChange extractedData, ruleId := rule.id }
          (updateTitle rule extractedData page)).apiCalls
      = storeAfter stored page.apiCalls ∧
    (wrongClick { title := renderTitle rule.titleChange extractedData, ruleId := rule.id }
        (updateTitle rule extractedData page)).banners = [] ∧
    backgroundOnMessage (utf16 "openOptionsWithError") rule.id
      = [.openOptionsPage, .sendMessage (utf16 "setErrorFilter") rule.id] := by
  have hb := updateTitle_banners rule extractedData page
  rw [h] at hb
  simp only [Bool.false_eq_true, if_false] at hb
  refine ⟨hb, ?_, ?_, ?_, ?_⟩
  · simp [wrongClick, updateTitle_apiCalls]
  · simp only [wrongClick, updateTitle_apiCalls, storeAfter_append, storeAfter]
  · simp [wrongClick, hb]
  · simp [backgroundOnMessage]

/-- C18 on the rule of Scenario A. -/
theorem C18_report_problem_sends_one_message_witness :
    scenarioRule.verifiedTitle = false ∧
    (wrongClick { title := utf16 "Order 42", ruleId := utf16 "rule-1" }
        (updateTitle scenarioRule [(utf16 "order", utf16 "42")] scenarioPage)).apiCalls
      = [.sendMessage (utf16 "openOptionsWithError") (utf16 "rule-1")] :=
  ⟨rfl,
   (C18_report_problem_sends_one_message scenarioRule [(utf16 "order", utf16 "42")]
      scenarioPage [] rfl).2.1.trans (by decide)⟩

/-- The rule that reaches the save step, field by field. -/
theorem ruleFormSubmit_save_fields (form : RuleForm) (uuid : JSString) (newRule : Rule)
    (h : ruleFormSubmit form uuid = .save newRule) :
    newRule = { id := uuid, matchType := form.matchType, urlValue := form.urlValue,
                selectors := (gatherSelectors form.selectorPairs).1,
                titleChange := form.titleChange, verifiedTitle := false } := by
  unfold ruleFormSubmit at h
  simp only at h
  split at h
  · cases h
  · split at h
    · cases h
    · split at h
      · cases h
      · injection h with h
        exact h.symm

theorem saveRule_edit (newRule old : Rule) (L : List Rule) (e : Nat) (hold : L[e]? = some old) :
    saveRule newRule (some e) L = .normal (L.set e { newRule with id := old.id }) := by
  simp [saveRule, hold]

/-! ## Claims C19 and C20: editing a rule -/

/-- C19: for a stored list `L` and an edit index `e` below its length, a form that
reaches the save step in edit mode writes a list of the same length whose entry `e` has
the id of the old entry and the match type, URL value, gathered selectors and title
template of the form (and `verifiedTitle` false), every other entry being that of `L`. -/
theorem C19_edit_preserves_id_and_position (form : RuleForm) (uuid : JSString)
    (newRule : Rule) (L : List Rule) (e : Nat)
    (hsave : ruleFormSubmit form uuid = .save newRule) (he : e < L.length) :
    ∃ (W : List Rule) (old : Rule),
      saveRule newRule (some e) L = .normal W ∧ L[e]? = some old ∧
      W.length = L.length ∧
      W[e]? = some { id := old.id, matchType := form.matchType, urlValue := form.urlValue,
                     selectors := (gatherSelectors form.selectorPairs).1,
                     titleChange := form.titleChange, verifiedTitle := false } ∧
      (∀ k, k ≠ e → W[k]? = L[k]?) := by
  have hold : L[e]? = some L[e] := List.getElem?_eq_getElem he
  have hfields := ruleFormSubmit_save_fields form uuid newRule hsave
  refine ⟨L.set e { newRule with id := L[e].id }, L[e], saveRule_edit newRule L[e] L e hold,
    hold, List.length_set _ _ _, ?_, ?_⟩
  · rw [List.getElem?_set]
    simp only [if_true, if_pos he]
    rw [hfields]
  · intro k hk
    rw [List.getElem?_set]
    simp [Ne.symm hk]

/-- C19 on the form of Scenario A submitted as an edit of the second of three rules. -/
theorem C19_edit_preserves_id_and_position_witness :
    ruleFormSubmit scenarioForm (utf16 "uuid-9") = .save { scenarioRule with id := utf16 "uuid-9" } ∧
    1 < [blockedRule, secondRule, scenarioRule].length ∧
    saveRule { scenarioRule with id := utf16 "uuid-9" } (some 1)
        [blockedRule, secondRule, scenarioRule]
      = .normal [blockedRule, { scenarioRule with id := utf16 "rule-2" }, scenarioRule] ∧
    (∃ (W : List Rule) (old : Rule),
      saveRule { scenarioRule with id := utf16 "uuid-9" } (some 1)
          [blockedRule, secondRule, scenarioRule] = .normal W ∧
      [blockedRule, secondRule, scenarioRule][1]? = some old ∧
      W.length = [blockedRule, secondRule, scenarioRule].length ∧
      W[1]? = some { id := old.id, matchType := scenarioForm.matchType,
                     urlValue := scenarioForm.urlValue,
                     selectors := (gatherSelectors scenarioForm.selectorPairs).1,
                     titleChange := scenarioForm.titleChange, verifiedTitle := false } ∧
      (∀ k, k ≠ 1 → W[k]? = [blockedRule, secondRule, scenarioRule][k]?)) :=
  ⟨by decide, by decide, by decide,
   C19_edit_preserves_id_and_position scenarioForm (utf16 "uuid-9")
     { scenarioRule with id := utf16 "uuid-9" } [blockedRule, secondRule, scenarioRule] 1
     (by decide) (by decide)⟩

/-- C20 fails on a stored verified copy of the rule of Scenario A edited with the form
of Scenario A: the rule written at its position has `verifiedTitle` false. -/
theorem C20_edit_of_verified_rule_resets_verification :
    ruleFormSubmit scenarioForm (utf16 "uuid-9") = .save { scenarioRule with id := utf16 "uuid-9" } ∧
    saveRule { scenarioRule with id := utf16 "uuid-9" } (some 0)
        [{ scenarioRule with verifiedTitle := true }]
      = .normal [{ scenarioRule with verifiedTitle := false }] := by
  decide

/-- C20 as amended: after a stored rule, verified or not, is edited through the submit
handler in edit mode, the rule written at its position has `verifiedTitle` false and
the id of the old entry. -/
theorem C20_edit_resets_verification (form : RuleForm) (uuid : JSString) (newRule old : Rule)
    (L : List Rule) (e : Nat) (hsave : ruleFormSubmit form uuid = .save newRule)
    (hold : L[e]? = some old) :
    ∃ (W : List Rule) (r : Rule),
      saveRule newRule (some e) L = .normal W ∧ W[e]? = some r ∧
      r.verifiedTitle = false ∧ r.id = old.id := by
  have he : e < L.length := by
    rcases Nat.lt_or_ge e L.length with h | h
    · exact h
    · rw [List.getElem?_eq_none h] at hold
      cases hold
  have hfields := ruleFormSubmit_save_fields form uuid newRule hsave
  refine ⟨L.set e { newRule with id := old.id }, { newRule with id := old.id },
    saveRule_edit newRule old L e hold, ?_, ?_, rfl⟩
  · rw [List.getElem?_set]
    simp [he]
  · rw [hfields]

/-- C20 as amended, on a verified rule stored after another rule. -/
theorem C20_edit_resets_verification_witness :
    ruleFormSubmit scenarioForm (utf16 "uuid-9") = .save { scenarioRule with id := utf16 "uuid-9" } ∧
    [secondRule, { scenarioRule with verifiedTitle := true }][1]?
      = some { scenarioRule with verifiedTitle := true } ∧
    (∃ (W : List Rule) (r : Rule),
      saveRule { scenarioRule with id := utf16 "uuid-9" } (some 1)
          [secondRule, { scenarioRule with verifiedTitle := true }] = .normal W ∧
      W[1]? = some r ∧ r.verifiedTitle = false ∧
      r.id = ({ scenarioRule with verifiedTitle := true } : Rule).id) :=
  ⟨by decide, rfl,
   C20_edit_resets_verification scenarioForm (utf16 "uuid-9")
     { scenarioRule with id := utf16 "uuid-9" } { scenarioRule with verifiedTitle := true }
     [secondRule, { scenarioRule with verifiedTitle := true }] 1 (by decide) rfl⟩

/-! ## Lemmas on the two matchers -/

theorem doesUrlMatch_string_eq (url matchType value : JSString) :
    doesUrlMatch (.string url) (.string matchType) (.string value)
      = .normal
        (if matchType = utf16 "contains" then includes url value
         else if matchType = utf16 "is" then decide (url = value)
         else if matchType = utf16 "startsWith" then startsWith url value
         else if matchType = utf16 "endsWith" then endsWith url value
         else false) := by
  unfold doesUrlMatch invokeStringMethod
  simp only [JSValue.string.injEq, JSValue.toJSString]
  split_ifs <;> rfl

theorem matchesAnyRule_iff (url : JSString) (rules : List Rule) :
    matchesAnyRule url rules = true ↔ ∃ r ∈ rules, matchesUrl url r := by
  unfold matchesAnyRule
  rw [List.any_eq_true]
  constructor
  · rintro ⟨r, hr, h⟩
    refine ⟨r, hr, ?_⟩
    rw [matchesUrl, doesUrlMatch_string_eq, h]
  · rintro ⟨r, hr, h⟩
    refine ⟨r, hr, ?_⟩
    rw [matchesUrl, doesUrlMatch_string_eq] at h
    injection h

theorem matchingFrom_eq_nil_iff (url : JSString) :
    ∀ (rules : List Rule) (k : Nat),
      matchingFrom url rules k = [] ↔ ∀ r ∈ rules, ¬ matchesUrl url r
  | [], _ => by simp [matchingFrom]
  | r :: rest, k => by
    have ih := matchingFrom_eq_nil_iff url rest (k + 1)
    unfold matchingFrom
    by_cases h : matchesUrl url r
    · rw [if_pos h]
      simp only [List.cons_ne_nil, false_iff]
      intro hall
      exact hall r (List.mem_cons_self _ _) h
    · rw [if_neg h, ih]
      constructor
      · intro hall r2 hr2
        rcases List.mem_cons.mp hr2 with rfl | hr2
        · exact h
        · exact hall r2 hr2
      · intro hall r2 hr2
        exact hall r2 (List.mem_cons_of_mem _ hr2)

/-! ## Claims C21 and C22: deleting and creating a rule -/

/-- C21: the click on Delete of the entry at position `i` of the rendered list `L`
writes `L` without the element at position `i`: one element fewer when `i` is below the
length, the entries before `i` in place and the entries after `i` moved up by one. -/
theorem C21_delete_removes_by_position (page : OptionsPage) (i : Nat)
    (hi : i < page.rendered.length) :
    (deleteClick i page).stored = page.rendered.eraseIdx i ∧
    (deleteClick i page).stored.length + 1 = page.rendered.length ∧
    (∀ k : Nat, k < i → (deleteClick i page).stored[k]? = page.rendered[k]?) ∧
    (∀ k : Nat, i ≤ k → (deleteClick i page).stored[k]? = page.rendered[k + 1]?) ∧
    (deleteClick i page).rendered = (deleteClick i page).stored :=
  ⟨rfl, List.length_eraseIdx_add_one hi,
   fun _ hk => List.getElem?_eraseIdx_of_lt _ _ _ hk,
   fun _ hk => List.getElem?_eraseIdx_of_ge _ _ _ hk, rfl⟩

/-- C21 on a list of three rules, the middle one deleted. -/
theorem C21_delete_removes_by_position_witness :
    1 < [blockedRule, scenarioRule, secondRule].length ∧
    (deleteClick 1
        { stored := [blockedRule, scenarioRule, secondRule],
          rendered := [blockedRule, scenarioRule, secondRule], editIndex := none }).stored
      = [blockedRule, secondRule] :=
  ⟨by decide,
   (C21_delete_removes_by_position
      { stored := [blockedRule, scenarioRule, secondRule],
        rendered := [blockedRule, scenarioRule, secondRule], editIndex := none } 1
      (by decide)).1.trans (by decide)⟩

/-- C22: a form that reaches the save step outside edit mode writes the stored list `L`
followed by one new rule, which has `verifiedTitle` false, the match type, URL value and
title template of the form and the selectors gathered from its rows; the entries of `L`
are in place. -/
theorem C22_creation_appends_unverified_rule (form : RuleForm) (uuid : JSString)
    (newRule : Rule) (L : List Rule) (hsave : ruleFormSubmit form uuid = .save newRule) :
    saveRule newRule none L = .normal (L ++ [newRule]) ∧
    newRule = { id := uuid, matchType := form.matchType, urlValue := form.urlValue,
                selectors := (gatherSelectors form.selectorPairs).1,
                titleChange := form.titleChange, verifiedTitle := false } ∧
    (L ++ [newRule]).length = L.length + 1 ∧
    (∀ k, k < L.length → (L ++ [newRule])[k]? = L[k]?) ∧
    (L ++ [newRule])[L.length]? = some newRule ∧
    submitForm form uuid { stored := L, rendered := L, editIndex := none }
      = { stored := L ++ [newRule], rendered := L ++ [newRule], editIndex := none } := by
  refine ⟨rfl, ruleFormSubmit_save_fields form uuid newRule hsave, by simp,
    fun k hk => List.getElem?_append_left hk, by simp, ?_⟩
  simp [submitForm, hsave, saveRule]

/-- C22 on the form of Scenario A added to a store holding one rule. -/
theorem C22_creation_appends_unverified_rule_witness :
    ruleFormSubmit scenarioForm (utf16 "rule-1") = .save scenarioRule ∧
    saveRule scenarioRule none [secondRule] = .normal [secondRule, scenarioRule] ∧
    scenarioRule.verifiedTitle = false :=
  ⟨by decide,
   (C22_creation_appends_unverified_rule scenarioForm (utf16 "rule-1") scenarioRule
      [secondRule] (by decide)).1,
   rfl⟩

/-! ## Claims C23 and C29: the background listener -/

/-- C23: the listener calls `executeScript` for the tab iff the status is `complete`,
the URL is a non-empty string that starts with neither `chrome://` nor
`chrome-extension://`, and some stored rule matches it; on a URL with one of the two
prefixes it makes no API call at all, so the Rule Store is not read. -/
theorem C23_inject_iff_complete_allowed_and_matching (update : TabUpdate)
    (storedRules : Option (List Rule)) :
    (ApiCall.executeScript update.tabId ∈ tabsOnUpdated update storedRules ↔
      update.status = some (utf16 "complete") ∧
      ∃ url, update.url = some url ∧ url ≠ [] ∧
        ¬ utf16 "chrome://" <+: url ∧ ¬ utf16 "chrome-extension://" <+: url ∧
        ∃ r ∈ storedRules.getD [], matchesUrl url r) ∧
    (tabsOnUpdated update storedRules = [] ∨
      tabsOnUpdated update storedRules = [.storageGet] ∨
      tabsOnUpdated update storedRules = [.storageGet, .executeScript update.tabId]) ∧
    (∀ url, update.url = some url →
      (utf16 "chrome://" <+: url ∨ utf16 "chrome-extension://" <+: url) →
      tabsOnUpdated update storedRules = []) := by
  unfold tabsOnUpdated
  cases hu : update.url with
  | none => simp
  | some url =>
    simp only [ startsWith_iff_prefix, Option.some.injEq]
    by_cases hc : update.status = some (utf16 "complete") ∧ url ≠ []
    · rw [if_pos hc]
      by_cases hp : utf16 "chrome://" <+: url ∨ utf16 "chrome-extension://" <+: url
      · rw [if_pos hp]
        refine ⟨?_, Or.inl rfl, fun _ _ _ => rfl⟩
        simp only [List.not_mem_nil, false_iff]
        rintro ⟨_, url2, rfl, _, h1, h2, _⟩
        exact hp.elim h1 h2
      · rw [if_neg hp]
        have hp' := not_or.mp hp
        by_cases hm : matchesAnyRule url (storedRules.getD []) = true
        · rw [if_pos hm]
          refine ⟨?_, Or.inr (Or.inr rfl), fun url2 h2 hpre => ?_⟩
          · simp only [List.mem_cons, List.mem_singleton, true_or, or_true, true_iff]
            exact ⟨hc.1, url, rfl, hc.2, hp'.1, hp'.2, (matchesAnyRule_iff _ _).mp hm⟩
          · subst h2; exact absurd hpre hp
        · rw [if_neg hm]
          refine ⟨?_, Or.inr (Or.inl rfl), fun url2 h2 hpre => ?_⟩
          · simp only [List.mem_singleton]
            constructor
            · intro h; cases h
            · rintro ⟨_, url2, rfl, _, _, _, hex⟩
              exact absurd ((matchesAnyRule_iff _ _).mpr hex) hm
          · subst h2; exact absurd hpre hp
    · rw [if_neg hc]
      refine ⟨?_, Or.inl rfl, fun _ _ _ => rfl⟩
      simp only [List.not_mem_nil, false_iff]
      rintro ⟨h1, url2, rfl, h2, _⟩
      exact hc ⟨h1, h2⟩

/-- C29: the inline predicate of the background script holds iff some rule of the list
matches the URL under `doesUrlMatch`; and it fails iff the loop of the content script
skips every rule, that is, the main routine finishes without waiting for any rule. -/
theorem C29_background_matcher_agrees_with_doesUrlMatch (url : JSString)
    (rules : List Rule) (page : Page) :
    (matchesAnyRule url rules = true ↔
      ∃ r ∈ rules,
        doesUrlMatch (.string url) (.string r.matchType) (.string r.urlValue) = .normal true) ∧
    (matchesAnyRule url rules = false ↔ (start rules url page).status = .finished) := by
  refine ⟨matchesAnyRule_iff url rules, ?_⟩
  have hp := resumeLoop_pending url rules 0 page []
  have hnil := matchingFrom_eq_nil_iff url rules 0
  have hany := matchesAnyRule_iff url rules
  constructor
  · intro hf
    have hno : ∀ r ∈ rules, ¬ matchesUrl url r := fun r hr hm => by
      rw [hany.mpr ⟨r, hr, hm⟩] at hf
      cases hf
    rw [hnil.mpr hno] at hp
    unfold start
    cases hst : (resumeLoop url rules 0 page []).status with
    | finished => rfl
    | rejected e => exact absurd hst (resumeLoop_not_rejected url rules 0 page [] e)
    | waiting idx r rest => rw [hst] at hp; simp [Status.pending] at hp
  · intro hfin
    unfold start at hfin
    rw [hfin] at hp
    have hno := hnil.mp hp.symm
    cases hb : matchesAnyRule url rules with
    | false => rfl
    | true =>
      obtain ⟨r, hr, hm⟩ := hany.mp hb
      exact absurd hm (hno r hr)

/-! ## Claim C30: an edit after a deletion -/

/-- C30, evaluated where it fails. The store holds the rules with the ids `rule-0`,
`rule-1`, `rule-2`; Edit is clicked on `rule-1` (position 1), then `rule-0` is deleted,
then the form is submitted. The recorded position 1 now holds `rule-2`: the rule
written there has the submitted fields and the id `rule-2`, and `rule-1` is stored as
it was. When Edit was clicked on the last rule instead, the position is past the end
after the deletion and the submission writes nothing. -/
theorem C30_edit_after_delete_overwrites_other_rule :
    (submitForm editedForm (utf16 "uuid-9")
        (deleteClick 0 (editClick 1
          { stored := [blockedRule, scenarioRule, secondRule],
            rendered := [blockedRule, scenarioRule, secondRule], editIndex := none }))).stored
      = [scenarioRule,
         { id := utf16 "rule-2", matchType := utf16 "contains",
           urlValue := utf16 "example.com/orders",
           selectors := [(utf16 "order", utf16 "#order-id")],
           titleChange := utf16 "Order no. \x7b\x7border\x7d\x7d", verifiedTitle := false }] ∧
    (submitForm editedForm (utf16 "uuid-9")
        (deleteClick 0 (editClick 2
          { stored := [blockedRule, scenarioRule, secondRule],
            rendered := [blockedRule, scenarioRule, secondRule], editIndex := none }))).stored
      = [scenarioRule, secondRule] := by
  decide

/-! ## Lemmas on the observer of `waitForDynamicContent` -/

theorem Waiter.run_disconnected (selectors : List JSString) :
    ∀ (batches : List MutationBatch) (w : Waiter) (n : Nat), w.connected = false →
      Waiter.run selectors w n batches = w
  | [], _, _, _ => rfl
  | batch :: rest, w, n, h => by
    have hstep : Waiter.deliver selectors w n batch = w := by
      simp [Waiter.deliver, h]
    rw [Waiter.run, hstep]
    exact Waiter.run_disconnected selectors rest w (n + 1) h

theorem Waiter.run_append (selectors : List JSString) :
    ∀ (batches more : List MutationBatch) (w : Waiter) (n : Nat),
      Waiter.run selectors w n (batches ++ more)
        = Waiter.run selectors (Waiter.run selectors w n batches) (n + batches.length) more
  | [], _, _, _ => rfl
  | batch :: rest, more, w, n => by
    have ih := Waiter.run_append selectors rest more (Waiter.deliver selectors w n batch) (n + 1)
    show Waiter.run selectors (Waiter.deliver selectors w n batch) (n + 1) (rest ++ more)
      = Waiter.run selectors (Waiter.run selectors (Waiter.deliver selectors w n batch) (n + 1) rest)
          (n + (rest.length + 1)) more
    rw [ih]
    congr 1
    omega

/-- The observer started connected and pending: it resolves at the first batch (counted
from `n`) at which all selectors are found, with one call of `resolve()`, after one
check per batch up to that one; until then it stays connected. -/
theorem Waiter.run_connected (selectors : List JSString) :
    ∀ (batches : List MutationBatch) (w : Waiter) (n : Nat),
      w.connected = true → w.resolvedAt = none →
      (Waiter.run selectors w n batches).resolvedAt
        = batches.findIdx? (fun batch => allElementsFound selectors batch.observed) n ∧
      ((Waiter.run selectors w n batches).resolvedAt = none →
        (Waiter.run selectors w n batches).connected = true ∧
        (Waiter.run selectors w n batches).resolveCalls = w.resolveCalls ∧
        (Waiter.run selectors w n batches).checks = w.checks + batches.length) ∧
      (∀ k, (Waiter.run selectors w n batches).resolvedAt = some k →
        (Waiter.run selectors w n batches).connected = false ∧
        (Waiter.run selectors w n batches).resolveCalls = w.resolveCalls + 1 ∧
        (Waiter.run selectors w n batches).checks + n = w.checks + k + 1)
  | [], w, n, hc, hr => by
    simp [Waiter.run, hc, hr]
  | batch :: rest, w, n, hc, hr => by
    rw [Waiter.run, List.findIdx?_cons]
    by_cases hall : allElementsFound selectors batch.observed = true
    · have hstep : Waiter.deliver selectors w n batch
          = { connected := false, resolvedAt := some n,
              resolveCalls := w.resolveCalls + 1, checks := w.checks + 1 } := by
        simp [Waiter.deliver, hc, hall, hr]
      rw [hstep, Waiter.run_disconnected selectors rest _ (n + 1) rfl, if_pos hall]
      refine ⟨rfl, ?_, ?_⟩
      · intro h
        cases h
      · intro k hk
        simp only [Option.some.injEq] at hk
        subst hk
        exact ⟨rfl, rfl, by simp only; omega⟩
    · have hstep : Waiter.deliver selectors w n batch = { w with checks := w.checks + 1 } := by
        simp [Waiter.deliver, hc, hall]
      rw [hstep, if_neg hall]
      obtain ⟨h1, h2, h3⟩ := Waiter.run_connected selectors rest
        { w with checks := w.checks + 1 } (n + 1) hc hr
      refine ⟨h1, fun h => ?_, fun k hk => ?_⟩
      · obtain ⟨a, b, c⟩ := h2 h
        refine ⟨a, b, ?_⟩
        rw [c]
        simp only [List.length_cons]
        omega
      · obtain ⟨a, b, c⟩ := h3 k hk
        refine ⟨a, b, ?_⟩
        simp only at c
        omega

/-! ## Claim C25: the wait for dynamic content -/

/-- C25: over the batches delivered after the observer is registered, the promise of
`waitForDynamicContent` resolves at the first batch at which every selector is found in
the document of that batch and at no other; without a batch it is pending; `resolve()`
is called at most once; the callback has run once per batch up to the resolving one;
and once resolved the observer is disconnected, so further batches change nothing. -/
theorem C25_wait_resolves_at_first_complete_batch (selectors : List JSString)
    (batches more : List MutationBatch) :
    (Waiter.run selectors Waiter.initial 0 batches).resolvedAt
      = waitForDynamicContent selectors batches ∧
    (∀ k, (Waiter.run selectors Waiter.initial 0 batches).resolvedAt = some k →
      (∃ batch, batches[k]? = some batch ∧ allElementsFound selectors batch.observed = true) ∧
      (∀ (j : Nat) (batch : MutationBatch), j < k → batches[j]? = some batch →
        allElementsFound selectors batch.observed = false) ∧
      (Waiter.run selectors Waiter.initial 0 batches).connected = false ∧
      (Waiter.run selectors Waiter.initial 0 batches).checks = k + 1 ∧
      Waiter.run selectors Waiter.initial 0 (batches ++ more)
        = Waiter.run selectors Waiter.initial 0 batches) ∧
    ((Waiter.run selectors Waiter.initial 0 batches).resolvedAt = none →
      (∀ batch ∈ batches, allElementsFound selectors batch.observed = false) ∧
      (Waiter.run selectors Waiter.initial 0 batches).connected = true ∧
      (Waiter.run selectors Waiter.initial 0 batches).checks = batches.length) ∧
    (Waiter.run selectors Waiter.initial 0 batches).resolveCalls ≤ 1 ∧
    (Waiter.run selectors Waiter.initial 0 []).resolvedAt = none := by
  obtain ⟨h1, h2, h3⟩ := Waiter.run_connected selectors batches Waiter.initial 0 rfl rfl
  refine ⟨h1, ?_, ?_, ?_, rfl⟩
  · intro k hk
    obtain ⟨hconn, _, hchecks⟩ := h3 k hk
    rw [h1] at hk
    obtain ⟨hlt, hpk, hfirst⟩ := List.findIdx?_eq_some_iff_getElem.mp hk
    refine ⟨⟨batches[k], List.getElem?_eq_getElem hlt, hpk⟩, ?_, hconn, ?_, ?_⟩
    · intro j batch hj hb
      have hjl : j < batches.length := Nat.lt_trans hj hlt
      rw [List.getElem?_eq_getElem hjl] at hb
      injection hb with hb
      subst hb
      simpa using hfirst j hj
    · have h0 : Waiter.initial.checks = 0 := rfl
      omega
    · rw [Waiter.run_append, Waiter.run_disconnected selectors more _ _ hconn]
  · intro hnone
    obtain ⟨hconn, _, hchecks⟩ := h2 hnone
    rw [h1] at hnone
    refine ⟨List.findIdx?_eq_none_iff.mp hnone, hconn, ?_⟩
    simpa [Waiter.initial] using hchecks
  · cases hr : (Waiter.run selectors Waiter.initial 0 batches).resolvedAt with
    | none => rw [(h2 hr).2.1]; simp [Waiter.initial]
    | some k => rw [(h3 k hr).2.1]; simp [Waiter.initial]

/-! ## Claim C28: sequential substitution -/

/-- C28: the title written by `updateTitle` is the fold of `replaceAll` over the entries
of the extracted data in their order, each step scanning the text the steps before it
produced. For the template with the placeholders of `a` and `b` and the entries `a` with
the value made of the placeholder of `b`, then `b` with the value `x`, the title is
`x x`; simultaneous substitution gives the placeholder of `b` followed by `x`, and so
does the fold with the two entries in the other order. -/
theorem C28_substitution_is_sequential (rule : Rule) (extractedData : JSObject)
    (page : Page) :
    (updateTitle rule extractedData page).title
      = extractedData.entries.foldl
          (fun newTitle entry => replaceAll newTitle (placeholder entry.1) entry.2)
          rule.titleChange ∧
    (updateTitle { scenarioRule with titleChange := utf16 "\x7b\x7ba\x7d\x7d \x7b\x7bb\x7d\x7d" }
        [(utf16 "a", utf16 "\x7b\x7bb\x7d\x7d"), (utf16 "b", utf16 "x")] scenarioPage).title
      = utf16 "x x" ∧
    substituteSimultaneously [(utf16 "a", utf16 "\x7b\x7bb\x7d\x7d"), (utf16 "b", utf16 "x")] 0
        (utf16 "\x7b\x7ba\x7d\x7d \x7b\x7bb\x7d\x7d") = utf16 "\x7b\x7bb\x7d\x7d x" ∧
    (updateTitle { scenarioRule with titleChange := utf16 "\x7b\x7ba\x7d\x7d \x7b\x7bb\x7d\x7d" }
        [(utf16 "b", utf16 "x"), (utf16 "a", utf16 "\x7b\x7bb\x7d\x7d")] scenarioPage).title
      = utf16 "\x7b\x7bb\x7d\x7d x" :=
  ⟨updateTitle_title rule extractedData page, by decide, by decide, by decide⟩

/-! ## Claim C27: validation of an import -/

theorem requiredFields_not_inherited :
    ∀ field ∈ requiredFields,
      field ∉ objectPrototypeKeys ∧ field ∉ arrayPrototypeKeys ∧ arrayIndex? field = none := by
  decide

theorem Json.hasProperty_required (field : JSString) (hf : field ∈ requiredFields)
    (rule : Json) :
    Json.hasProperty field rule = .normal true ↔
      ∃ props, rule = .object props ∧ field ∈ props.map Prod.fst := by
  obtain ⟨h1, h2, h3⟩ := requiredFields_not_inherited field hf
  cases rule with
  | object props => simp [Json.hasProperty, h1]
  | array items => simp [Json.hasProperty, h1, h2, h3]
  | null => simp [Json.hasProperty]
  | bool b => simp [Json.hasProperty]
  | number n => simp [Json.hasProperty]
  | string str => simp [Json.hasProperty]

/-- C27: a parsed import is written to the Rule Store iff it is an array whose every
element is an object with each of the properties `matchType`, `urlValue`, `selectors`
and `titleChange`, and then the array is written as it is; in every other case the
handler ends in its `catch` block and writes nothing. An element without `id` and
`verifiedTitle`, with values of any type and a placeholder that names no selector, is
accepted. -/
theorem C27_import_validation (importedRules : Json) :
    (∀ items, importParsed importedRules = .written items ↔
      importedRules = .array items ∧
        ∀ rule ∈ items, ∀ field ∈ requiredFields,
          ∃ props, rule = .object props ∧ field ∈ props.map Prod.fst) ∧
    (importParsed importedRules = .error ↔
      ¬ ∃ items, importedRules = .array items ∧
        ∀ rule ∈ items, ∀ field ∈ requiredFields,
          ∃ props, rule = .object props ∧ field ∈ props.map Prod.fst) ∧
    importParsed (.array [.object
        [(utf16 "matchType", .number (utf16 "7")), (utf16 "urlValue", .null),
         (utf16 "selectors", .object []),
         (utf16 "titleChange", .string (utf16 "\x7b\x7bnobody\x7d\x7d"))]])
      = .written [.object
        [(utf16 "matchType", .number (utf16 "7")), (utf16 "urlValue", .null),
         (utf16 "selectors", .object []),
         (utf16 "titleChange", .string (utf16 "\x7b\x7bnobody\x7d\x7d"))]] := by
  have hvalid : ∀ items : List Json,
      (items.all (fun rule => requiredFields.all
        (fun field => decide (Json.hasProperty field rule = .normal true))) = true) ↔
      ∀ rule ∈ items, ∀ field ∈ requiredFields,
        ∃ props, rule = .object props ∧ field ∈ props.map Prod.fst := by
    intro items
    simp only [List.all_eq_true, decide_eq_true_eq]
    constructor
    · intro h rule hr field hf
      exact (Json.hasProperty_required field hf rule).mp (h rule hr field hf)
    · intro h rule hr field hf
      exact (Json.hasProperty_required field hf rule).mpr (h rule hr field hf)
  refine ⟨?_, ?_, rfl⟩
  · intro items
    cases importedRules with
    | array xs =>
      unfold importParsed
      by_cases hv : xs.all (fun rule => requiredFields.all
          (fun field => decide (Json.hasProperty field rule = .normal true))) = true
      · simp only [hv, if_true, ImportOutcome.written.injEq, Json.array.injEq]
        constructor
        · rintro rfl
          exact ⟨rfl, (hvalid xs).mp hv⟩
        · rintro ⟨h, _⟩
          exact h
      · simp only [hv]
        constructor
        · intro h
          cases h
        · rintro ⟨h, hall⟩
          injection h with h
          subst h
          exact absurd ((hvalid xs).mpr hall) hv
    | null => simp [importParsed]
    | bool b => simp [importParsed]
    | number n => simp [importParsed]
    | string str => simp [importParsed]
    | object props => simp [importParsed]
  · cases importedRules with
    | array xs =>
      unfold importParsed
      by_cases hv : xs.all (fun rule => requiredFields.all
          (fun field => decide (Json.hasProperty field rule = .normal true))) = true
      · simp only [hv, if_true]
        constructor
        · intro h
          cases h
        · intro h
          exact absurd ⟨xs, rfl, (hvalid xs).mp hv⟩ h
      · simp only [hv]
        constructor
        · rintro _ ⟨items, h, hall⟩
          injection h with h
          subst h
          exact hv ((hvalid xs).mpr hall)
        · intro _
          rfl
    | null => simp [importParsed]
    | bool b => simp [importParsed]
    | number n => simp [importParsed]
    | string str => simp [importParsed]
    | object props => simp [importParsed]

/-! ## Lemmas on trimming and on the extraction loop -/

/-- What `trim` removes and what it leaves: the string is its trimmed part between two
runs of white space, and the trimmed part neither starts nor ends with white space. -/
theorem trim_spec (s : JSString) :
    ∃ a b, s = a ++ trim s ++ b ∧
      (∀ c ∈ a, isTrimmed c = true) ∧ (∀ c ∈ b, isTrimmed c = true) ∧
      (∀ c, (trim s).head? = some c → isTrimmed c = false) ∧
      (∀ c, (trim s).getLast? = some c → isTrimmed c = false) := by
  have h1 := List.takeWhile_append_dropWhile isTrimmed s
  have h2 := List.takeWhile_append_dropWhile isTrimmed (s.dropWhile isTrimmed).reverse
  have hrev : s.dropWhile isTrimmed
      = trim s ++ ((s.dropWhile isTrimmed).reverse.takeWhile isTrimmed).reverse := by
    have := congrArg List.reverse h2
    rw [List.reverse_append, List.reverse_reverse] at this
    exact this.symm
  refine ⟨s.takeWhile isTrimmed,
    ((s.dropWhile isTrimmed).reverse.takeWhile isTrimmed).reverse, ?_, ?_, ?_, ?_, ?_⟩
  · rw [List.append_assoc, ← hrev, h1]
  · intro c hc
    exact (List.mem_takeWhile_imp hc)
  · intro c hc
    exact List.mem_takeWhile_imp (List.mem_reverse.mp hc)
  · intro c hc
    have hhead : (s.dropWhile isTrimmed).head? = some c := by
      rw [hrev, List.head?_append, hc]
      rfl
    have := List.head?_dropWhile_not isTrimmed s
    rw [hhead] at this
    exact this
  · intro c hc
    have hhead : ((s.dropWhile isTrimmed).reverse.dropWhile isTrimmed).head? = some c := by
      have : trim s = ((s.dropWhile isTrimmed).reverse.dropWhile isTrimmed).reverse := rfl
      rw [this, List.getLast?_reverse] at hc
      exact hc
    have := List.head?_dropWhile_not isTrimmed (s.dropWhile isTrimmed).reverse
    rw [hhead] at this
    exact this

theorem trim_of_all_trimmed (s : JSString) (h : ∀ c ∈ s, isTrimmed c = true) : trim s = [] := by
  have : s.dropWhile isTrimmed = [] := List.dropWhile_eq_nil_iff.mpr h
  simp [trim, this]

theorem JSObject.insertNew_of_precedes (key value : JSString) :
    ∀ o : JSObject, (∀ k ∈ o.keys, JSObject.keyPrecedes k key = true) →
      JSObject.insertNew key value o = o ++ [(key, value)]
  | [], _ => rfl
  | (k, w) :: rest, h => by
    have hk : JSObject.keyPrecedes k key = true := h k (by simp [JSObject.keys])
    have ih := JSObject.insertNew_of_precedes key value rest (fun k2 hk2 =>
      h k2 (by simp only [JSObject.keys, List.map_cons, List.mem_cons]; exact Or.inr hk2))
    unfold JSObject.insertNew
    unfold JSObject.keyPrecedes at hk
    cases h1 : arrayIndex? key with
    | none => simp only [ih, List.cons_append]
    | some n =>
      cases h2 : arrayIndex? k with
      | none => rw [h1, h2] at hk; cases hk
      | some m =>
        rw [h1, h2] at hk
        have hlt : ¬ n < m := by
          have : m < n := by simpa using hk
          omega
        simp only [hlt, if_false, ih, List.cons_append]

theorem JSObject.set_of_new (o : JSObject) (key value : JSString) (hnew : key ∉ o.keys)
    (hproto : key ≠ utf16 "__proto__")
    (hprec : ∀ k ∈ o.keys, JSObject.keyPrecedes k key = true) :
    o.set key value = o ++ [(key, value)] := by
  unfold JSObject.set
  rw [if_neg hnew, if_neg hproto]
  exact JSObject.insertNew_of_precedes key value o hprec

/-- The extraction loop on the properties of a well-formed object without the key
`__proto__`, all of whose selectors resolve: it completes, and it appends to the
extracted data one property per entry, in order, with the trimmed text as value. -/
theorem extractData_eq (dom : Dom) :
    ∀ (entries : List (JSString × JSString)) (acc : JSObject),
      (acc.keys ++ entries.map Prod.fst).Nodup →
      (acc.keys ++ entries.map Prod.fst).Pairwise
        (fun k1 k2 => JSObject.keyPrecedes k1 k2 = true) →
      utf16 "__proto__" ∉ entries.map Prod.fst →
      (∀ e ∈ entries, ∃ element, dom.querySelector e.2 = some element) →
      extractData dom entries acc
        = .normal (acc ++ entries.map (fun e => (e.1, trimmedText dom e.2)))
  | [], acc, _, _, _, _ => by simp [extractData]
  | (name, sel) :: rest, acc, hnd, hpw, hproto, hres => by
    obtain ⟨element, hel⟩ := hres (name, sel) (List.mem_cons_self _ _)
    have hnew : name ∉ acc.keys := by
      intro hmem
      have := (List.nodup_append.mp hnd).2.2
      exact this hmem (by simp)
    have hne : name ≠ utf16 "__proto__" := by
      rintro rfl
      exact hproto (by simp)
    have hprec : ∀ k ∈ acc.keys, JSObject.keyPrecedes k name = true := fun k hk =>
      (List.pairwise_append.mp hpw).2.2 k hk name (by simp)
    have hset := JSObject.set_of_new acc name (trim element.textContent) hnew hne hprec
    have hkeys : (acc ++ [(name, trim element.textContent)]).keys ++ rest.map Prod.fst
        = acc.keys ++ ((name, sel) :: rest).map Prod.fst := by
      simp [JSObject.keys]
    have ih := extractData_eq dom rest (acc ++ [(name, trim element.textContent)])
      (by rw [hkeys]; exact hnd) (by rw [hkeys]; exact hpw)
      (fun hmem => hproto (by simp only [List.map_cons, List.mem_cons]; exact Or.inr hmem))
      (fun e he => hres e (List.mem_cons_of_mem _ he))
    unfold extractData
    simp only [hel, hset, ih]
    simp [trimmedText, hel]

/-! ## Claim C26: extraction -/

/-- The extraction loop for a rule whose `selectors` object has no key `__proto__` and
whose selectors all resolve at extraction: it completes; the extracted data has one
property per entry of `selectors`, in the same order and under the same name, whose
value is the text content of the first element matching the selector with leading and
trailing white space removed, the empty string for an element of white space only. -/
theorem extractData_maps_names_to_trimmed_text (dom : Dom) (rule : Rule)
    (hwf : rule.selectors.WellFormed) (hproto : utf16 "__proto__" ∉ rule.selectors.keys)
    (hres : ∀ selector ∈ rule.selectors.values,
      ∃ element, dom.querySelector selector = some element) :
    extractData dom rule.selectors.entries []
      = .normal (rule.selectors.map (fun e => (e.1, trimmedText dom e.2))) ∧
    JSObject.keys (rule.selectors.map (fun e => (e.1, trimmedText dom e.2)))
      = rule.selectors.keys ∧
    ∀ (selector : JSString) (element : Element), dom.querySelector selector = some element →
      (∃ a b, element.textContent = a ++ trimmedText dom selector ++ b ∧
        (∀ c ∈ a, isTrimmed c = true) ∧ (∀ c ∈ b, isTrimmed c = true) ∧
        (∀ c, (trimmedText dom selector).head? = some c → isTrimmed c = false) ∧
        (∀ c, (trimmedText dom selector).getLast? = some c → isTrimmed c = false)) ∧
      ((∀ c ∈ element.textContent, isTrimmed c = true) → trimmedText dom selector = []) := by
  refine ⟨?_, ?_, ?_⟩
  · have := extractData_eq dom rule.selectors.entries []
      (by simpa [JSObject.keys, JSObject.entries] using hwf.1)
      (by simpa [JSObject.keys, JSObject.entries] using hwf.2)
      (by simpa [JSObject.keys, JSObject.entries] using hproto)
      (fun e he => hres e.2 (by
        simp only [JSObject.values, List.mem_map]
        exact ⟨e, he, rfl⟩))
    simpa [JSObject.entries] using this
  · simp [JSObject.keys]
  · intro selector element hel
    have ht : trimmedText dom selector = trim element.textContent := by
      simp [trimmedText, hel]
    rw [ht]
    exact ⟨trim_spec element.textContent, trim_of_all_trimmed element.textContent⟩

/-- The extraction on Scenario D read from the document with both elements: the customer
name is stored without its surrounding white space. -/
theorem extractData_secondRule :
    extractData bothDom secondRule.selectors.entries []
      = .normal [(utf16 "customer", utf16 "Ada")] := by
  decide

set_option maxRecDepth 100000 in
/-- C26 fails on a rule whose `selectors` object has the own key `__proto__`. The import
stores such a rule (`JSON.parse` creates the key as an own property). On the page of
Scenario A the rule matches, its selector resolves, so the wait ends, and `Object.entries`
yields the entry; the assignment `extractedData[name] = ...` to the name `__proto__` of
a plain object creates no property, so the extracted data has no key at all where
`selectors` has one, and the title keeps the placeholder that the text 42 was read
for. -/
theorem C26_proto_key_is_not_extracted :
    importOnload protoImportText = .written [protoRule.toJson] ∧
    protoRule.selectors.WellFormed ∧
    JSObject.keys protoRule.selectors = [utf16 "__proto__"] ∧
    JSObject.entries protoRule.selectors = [(utf16 "__proto__", utf16 "#order-id")] ∧
    matchesUrl scenarioUrl protoRule ∧
    allElementsFound (JSObject.values protoRule.selectors) scenarioDom = true ∧
    trimmedText scenarioDom (utf16 "#order-id") = utf16 "42" ∧
    extractData scenarioDom (JSObject.entries protoRule.selectors) [] = .normal [] ∧
    (run [protoRule] scenarioUrl scenarioPage
        [{ observed := scenarioDom, resumed := scenarioDom }]).log = [.applied 0] ∧
    (run [protoRule] scenarioUrl scenarioPage
        [{ observed := scenarioDom, resumed := scenarioDom }]).page.title
      = utf16 "Order \x7b\x7b__proto__\x7d\x7d" :=
  ⟨rfl, by decide, by decide, by decide, by decide, by decide, by decide, by decide,
    by decide, by decide⟩

/-! ## Lemmas on the JSON text -/

theorem hexVal_hexDigit (n : Nat) (h : n < 16) : hexVal (hexDigit n) = some n := by
  interval_cases n <;> decide

theorem parseStringAux_unicodeEscape (c : Nat) (hc : c < 65536) (rest : JSString) :
    parseStringAux .plain (unicodeEscape c ++ rest)
      = (parseStringAux .plain rest).map (fun r => (c :: r.1, r.2)) := by
  have h1 := hexVal_hexDigit (c / 4096 % 16) (Nat.mod_lt _ (by decide))
  have h2 := hexVal_hexDigit (c / 256 % 16) (Nat.mod_lt _ (by decide))
  have h3 := hexVal_hexDigit (c / 16 % 16) (Nat.mod_lt _ (by decide))
  have h4 := hexVal_hexDigit (c % 16) (Nat.mod_lt _ (by decide))
  have hval : 16 * (16 * (16 * (c / 4096 % 16) + c / 256 % 16) + c / 16 % 16) + c % 16
      = c := by omega
  simp [unicodeEscape, parseStringAux, h1, h2, h3, h4]
  rw [hval]

theorem parseStringAux_quoteUnit (c : Nat) (rest : JSString) :
    parseStringAux .plain (quoteUnit c ++ rest)
      = (parseStringAux .plain rest).map (fun r => (c :: r.1, r.2)) := by
  unfold quoteUnit
  split_ifs with h1 h2 h3 h4 h5 h6 h7 h8
  · subst h1; simp [parseStringAux]
  · subst h2; simp [parseStringAux]
  · subst h3; simp [parseStringAux]
  · subst h4; simp [parseStringAux]
  · subst h5; simp [parseStringAux]
  · subst h6; simp [parseStringAux]
  · subst h7; simp [parseStringAux]
  · exact parseStringAux_unicodeEscape c (by omega) rest
  · have hlt : ¬ c < 0x20 := fun h => h8 (Or.inl h)
    simp [parseStringAux, h6, h7, hlt]

theorem parseStringAux_quoteChars (rest : JSString) :
    ∀ (n : Nat) (s : JSString), s.length ≤ n →
      parseStringAux .plain (quoteChars s ++ 0x22 :: rest) = some (s, rest)
  | _, [], _ => by simp [quoteChars, parseStringAux]
  | _, [c], _ => by
    simp only [quoteChars]
    rw [parseStringAux_quoteUnit]
    simp [parseStringAux]
  | 0, _ :: _ :: _, h => by simp at h
  | n + 1, c :: d :: tail, h => by
    have hlen1 : (d :: tail).length ≤ n := by simp at h ⊢; omega
    have hlen2 : tail.length ≤ n := by simp at h ⊢; omega
    simp only [quoteChars]
    split_ifs with hpair
    · have hc1 : c ≠ 0x22 := by omega
      have hc2 : c ≠ 0x5C := by omega
      have hc3 : ¬ c < 0x20 := by omega
      have hd1 : d ≠ 0x22 := by omega
      have hd2 : d ≠ 0x5C := by omega
      have hd3 : ¬ d < 0x20 := by omega
      simp [parseStringAux, hc1, hc2, hc3, hd1, hd2, hd3,
        parseStringAux_quoteChars rest n tail hlen2]
    · rw [List.append_assoc, parseStringAux_quoteUnit,
        parseStringAux_quoteChars rest n (d :: tail) hlen1]
      rfl

theorem parseString_quoteJSONString (s rest : JSString) :
    parseStringAux .plain (quoteChars s ++ 0x22 :: rest) = some (s, rest) :=
  parseStringAux_quoteChars rest s.length s (Nat.le_refl _)

theorem skipWs_spaces : ∀ (ind s : JSString), (∀ c ∈ ind, c = 0x20) →
    skipWs (ind ++ s) = skipWs s
  | [], _, _ => rfl
  | c :: ind, s, h => by
    have hc : c = 0x20 := h c (List.mem_cons_self _ _)
    subst hc
    simp only [List.cons_append, skipWs]
    simp only [Nat.reduceEqDiff, or_true, if_true]
    exact skipWs_spaces ind s (fun c hc => h c (List.mem_cons_of_mem _ hc))

theorem skipWs_newline (ind s : JSString) (h : ∀ c ∈ ind, c = 0x20) :
    skipWs (0x0A :: (ind ++ s)) = skipWs s := by
  simp only [skipWs]
  simp only [Nat.reduceEqDiff, or_true, true_or, if_true]
  exact skipWs_spaces ind s h

theorem skipWs_space (s : JSString) : skipWs (0x20 :: s) = skipWs s := by
  simp [skipWs]

theorem skipWs_of_not_ws (c : Nat) (s : JSString)
    (h : ¬ (c = 0x09 ∨ c = 0x0A ∨ c = 0x0D ∨ c = 0x20)) : skipWs (c :: s) = c :: s := by
  simp only [skipWs, if_neg h]

theorem parseValue_congr (f : Nat) (a b : JSString) (h : skipWs a = skipWs b) :
    parseValue f a = parseValue f b := by
  cases f with
  | zero => simp [parseValue]
  | succ f => simp only [parseValue, h]

theorem parseMembers_congr (f : Nat) (a b : JSString) (h : skipWs a = skipWs b) :
    parseMembers f a = parseMembers f b := by
  cases f with
  | zero => simp [parseMembers]
  | succ f => simp only [parseMembers, h]

theorem parseItems_congr (f : Nat) (a b : JSString) (h : skipWs a = skipWs b) :
    parseItems f a = parseItems f b := by
  cases f with
  | zero => simp [parseItems]
  | succ f => simp only [parseItems, parseValue_congr f a b h]

theorem parseValue_string (f : Nat) (hf : 1 ≤ f) (ind s rest : JSString) :
    parseValue f (Json.serialize ind (.string s) ++ rest) = some (.string s, rest) := by
  obtain ⟨f, rfl⟩ : ∃ g, f = g + 1 := ⟨f - 1, by omega⟩
  simp only [Json.serialize, quoteJSONString, List.cons_append, List.append_assoc,
    List.singleton_append, List.nil_append, parseValue]
  rw [skipWs_of_not_ws _ _ (by decide)]
  simp only [if_true, parseString_quoteJSONString, Option.map_some']

theorem parseValue_bool (f : Nat) (hf : 1 ≤ f) (ind : JSString) (b : Bool) (rest : JSString) :
    parseValue f (Json.serialize ind (.bool b) ++ rest) = some (.bool b, rest) := by
  obtain ⟨f, rfl⟩ : ∃ g, f = g + 1 := ⟨f - 1, by omega⟩
  have ht : utf16 "true" = [0x74, 0x72, 0x75, 0x65] := by decide
  have hfalse : utf16 "false" = [0x66, 0x61, 0x6C, 0x73, 0x65] := by decide
  have hn : utf16 "null" = [0x6E, 0x75, 0x6C, 0x6C] := by decide
  cases b
  · have hs : Json.serialize ind (.bool false) = [0x66, 0x61, 0x6C, 0x73, 0x65] := by
      simp only [Json.serialize]; exact hfalse
    rw [hs]
    simp only [parseValue, ht, hfalse, hn]
    simp [skipWs]
  · have hs : Json.serialize ind (.bool true) = [0x74, 0x72, 0x75, 0x65] := by
      simp only [Json.serialize]; exact ht
    rw [hs]
    simp only [parseValue, ht, hfalse, hn]
    simp [skipWs]

theorem parseMembers_serializeProps (ind back : JSString) (hind : ∀ c ∈ ind, c = 0x20)
    (hback : ∀ c ∈ back, c = 0x20) (m : Nat) :
    ∀ (ps : List (JSString × Json)), ps ≠ [] →
      (∀ p ∈ ps, ∀ f, m ≤ f → ∀ rest,
        parseValue f (Json.serialize ind p.2 ++ rest) = some (p.2, rest)) →
      ∀ (f : Nat), m + ps.length ≤ f → ∀ rest : JSString,
        parseMembers f (Json.serializeProps ind ps ++ (0x0A :: (back ++ 0x7D :: rest)))
          = some (ps, rest)
  | [], hne, _, _, _, _ => absurd rfl hne
  | (key, value) :: tail, _, hval, f, hf, rest => by
    obtain ⟨f, rfl⟩ : ∃ g, f = g + 1 := ⟨f - 1, by simp at hf; omega⟩
    have hf2 : m + tail.length ≤ f := by simp at hf; omega
    have hv := hval (key, value) (List.mem_cons_self _ _) f (by omega)
    simp only [Json.serializeProps, quoteJSONString, List.cons_append, List.append_assoc,
      List.singleton_append, List.nil_append, parseMembers]
    rw [skipWs_of_not_ws _ _ (by decide)]
    simp only [if_true, parseString_quoteJSONString]
    rw [skipWs_of_not_ws _ _ (by decide)]
    simp only [if_true]
    rw [parseValue_congr f _ _ (skipWs_space _), hv]
    cases tail with
    | nil =>
      simp only [List.isEmpty_nil, if_true, Json.serializeProps, List.nil_append]
      rw [skipWs_newline back _ hback, skipWs_of_not_ws _ _ (by decide)]
      simp
    | cons t ts =>
      simp only [List.isEmpty_cons, Bool.false_eq_true, if_false, List.cons_append,
        List.append_assoc, List.nil_append]
      rw [skipWs_of_not_ws _ _ (by decide)]
      simp only [if_true]
      rw [parseMembers_congr f _ _ (skipWs_newline ind _ hind)]
      have ih := parseMembers_serializeProps ind back hind hback m (t :: ts) (by simp)
        (fun p hp => hval p (List.mem_cons_of_mem _ hp)) f hf2 rest
      rw [parseMembers_congr f _ _ rfl, ih]
      rfl

theorem parseItems_serializeItems (ind back : JSString) (hind : ∀ c ∈ ind, c = 0x20)
    (hback : ∀ c ∈ back, c = 0x20) (m : Nat) :
    ∀ (items : List Json), items ≠ [] →
      (∀ v ∈ items, ∀ f, m ≤ f → ∀ rest,
        parseValue f (Json.serialize ind v ++ rest) = some (v, rest)) →
      ∀ (f : Nat), m + items.length ≤ f → ∀ rest : JSString,
        parseItems f (Json.serializeItems ind items ++ (0x0A :: (back ++ 0x5D :: rest)))
          = some (items, rest)
  | [], hne, _, _, _, _ => absurd rfl hne
  | value :: tail, _, hval, f, hf, rest => by
    obtain ⟨f, rfl⟩ : ∃ g, f = g + 1 := ⟨f - 1, by simp at hf; omega⟩
    have hf2 : m + tail.length ≤ f := by simp at hf; omega
    have hv := hval value (List.mem_cons_self _ _) f (by omega)
    simp only [Json.serializeItems, List.append_assoc, parseItems]
    rw [hv]
    cases tail with
    | nil =>
      simp only [List.isEmpty_nil, if_true, Json.serializeItems, List.nil_append]
      rw [skipWs_newline back _ hback, skipWs_of_not_ws _ _ (by decide)]
      simp
    | cons t ts =>
      simp only [List.isEmpty_cons, Bool.false_eq_true, if_false, List.cons_append,
        List.append_assoc, List.nil_append]
      rw [skipWs_of_not_ws _ _ (by decide)]
      simp only [if_true]
      rw [parseItems_congr f _ _ (skipWs_newline ind _ hind)]
      have ih := parseItems_serializeItems ind back hind hback m (t :: ts) (by simp)
        (fun p hp => hval p (List.mem_cons_of_mem _ hp)) f hf2 rest
      rw [ih]
      rfl

theorem indent_gap (ind : JSString) (hind : ∀ c ∈ ind, c = 0x20) :
    ∀ c ∈ ind ++ [0x20, 0x20], c = 0x20 := by
  intro c hc
  simp only [List.mem_append, List.mem_cons, List.mem_singleton, List.not_mem_nil,
    or_false, or_self] at hc
  rcases hc with hc | hc
  · exact hind c hc
  · exact hc

theorem parseValue_object (ind : JSString) (hind : ∀ c ∈ ind, c = 0x20) (m : Nat)
    (ps : List (JSString × Json))
    (hval : ∀ p ∈ ps, ∀ f, m ≤ f → ∀ rest,
      parseValue f (Json.serialize (ind ++ [0x20, 0x20]) p.2 ++ rest) = some (p.2, rest))
    (hbuild : Json.buildObject ps = ps) (f : Nat) (hf : m + ps.length + 1 ≤ f)
    (rest : JSString) :
    parseValue f (Json.serialize ind (.object ps) ++ rest) = some (.object ps, rest) := by
  obtain ⟨f, rfl⟩ : ∃ g, f = g + 1 := ⟨f - 1, by omega⟩
  have hbrace : utf16 "\x7b\x7d" = [0x7B, 0x7D] := by decide
  cases ps with
  | nil =>
    simp only [Json.serialize, List.isEmpty_nil, if_true, hbrace, List.cons_append,
      List.nil_append, parseValue]
    rw [skipWs_of_not_ws _ _ (by decide)]
    simp only [Nat.reduceEqDiff, if_false, if_true]
    rw [skipWs_of_not_ws _ _ (by decide)]
    simp
  | cons p tail =>
    obtain ⟨key, value⟩ := p
    have hmem := parseMembers_serializeProps (ind ++ [0x20, 0x20]) ind (indent_gap ind hind)
      hind m ((key, value) :: tail) (by simp) hval f (by simp at hf ⊢; omega) rest
    simp only [Json.serialize, List.isEmpty_cons, Bool.false_eq_true, if_false,
      List.cons_append, List.append_assoc, List.nil_append, parseValue]
    rw [skipWs_of_not_ws _ _ (by decide)]
    simp only [Nat.reduceEqDiff, if_false, if_true]
    have hsk : ∀ X : JSString, skipWs (0x0A :: (ind ++ 0x20 :: 0x20 :: X)) = skipWs X := by
      intro X
      have := skipWs_newline (ind ++ [0x20, 0x20]) X (indent_gap ind hind)
      simpa only [List.append_assoc, List.cons_append, List.nil_append] using this
    rw [hsk]
    simp only [Json.serializeProps, quoteJSONString, List.cons_append, List.append_assoc,
      List.nil_append] at hmem ⊢
    rw [skipWs_of_not_ws _ _ (by decide)]
    simp only [Nat.reduceEqDiff, if_false]
    rw [hmem]
    simp only [Option.map_some', hbuild]

theorem Json.insertProp_of_precedes (key : JSString) (value : Json) :
    ∀ props : List (JSString × Json),
      (∀ k ∈ props.map Prod.fst, JSObject.keyPrecedes k key = true) →
      Json.insertProp key value props = props ++ [(key, value)]
  | [], _ => rfl
  | (k, w) :: rest, h => by
    have hk : JSObject.keyPrecedes k key = true := h k (by simp)
    have ih := Json.insertProp_of_precedes key value rest (fun k2 hk2 =>
      h k2 (by simp only [List.map_cons, List.mem_cons]; exact Or.inr hk2))
    unfold Json.insertProp
    unfold JSObject.keyPrecedes at hk
    cases h1 : arrayIndex? key with
    | none => simp only [ih, List.cons_append]
    | some n =>
      cases h2 : arrayIndex? k with
      | none => rw [h1, h2] at hk; cases hk
      | some m =>
        rw [h1, h2] at hk
        have hlt : ¬ n < m := by
          have : m < n := by simpa using hk
          omega
        simp only [hlt, if_false, ih, List.cons_append]

theorem Json.buildObject_aux :
    ∀ (members acc : List (JSString × Json)),
      (acc.map Prod.fst ++ members.map Prod.fst).Nodup →
      (acc.map Prod.fst ++ members.map Prod.fst).Pairwise
        (fun k1 k2 => JSObject.keyPrecedes k1 k2 = true) →
      members.foldl (fun props member => Json.defineProp props member.1 member.2) acc
        = acc ++ members
  | [], acc, _, _ => by simp
  | (key, value) :: rest, acc, hnd, hpw => by
    have hnew : key ∉ acc.map Prod.fst := by
      intro hmem
      have := (List.nodup_append.mp hnd).2.2
      exact this hmem (by simp)
    have hprec : ∀ k ∈ acc.map Prod.fst, JSObject.keyPrecedes k key = true := fun k hk =>
      (List.pairwise_append.mp hpw).2.2 k hk key (by simp)
    have hdef : Json.defineProp acc key value = acc ++ [(key, value)] := by
      unfold Json.defineProp
      rw [if_neg hnew]
      exact Json.insertProp_of_precedes key value acc hprec
    have hkeys : (acc ++ [(key, value)]).map Prod.fst ++ rest.map Prod.fst
        = acc.map Prod.fst ++ ((key, value) :: rest).map Prod.fst := by
      simp
    have ih := Json.buildObject_aux rest (acc ++ [(key, value)])
      (by rw [hkeys]; exact hnd) (by rw [hkeys]; exact hpw)
    simp only [List.foldl_cons, hdef, ih, List.append_assoc, List.singleton_append]

theorem Json.buildObject_eq (members : List (JSString × Json))
    (hnd : (members.map Prod.fst).Nodup)
    (hpw : (members.map Prod.fst).Pairwise (fun k1 k2 => JSObject.keyPrecedes k1 k2 = true)) :
    Json.buildObject members = members := by
  have := Json.buildObject_aux members [] (by simpa using hnd) (by simpa using hpw)
  simpa [Json.buildObject] using this

theorem parseValue_selectors (ind : JSString) (hind : ∀ c ∈ ind, c = 0x20) (o : JSObject)
    (hwf : o.WellFormed) (f : Nat) (hf : o.length + 2 ≤ f) (rest : JSString) :
    parseValue f (Json.serialize ind o.toJson ++ rest) = some (o.toJson, rest) := by
  have hkeys : (o.map (fun e => (e.1, Json.string e.2))).map Prod.fst = o.keys := by
    simp [JSObject.keys]
  apply parseValue_object ind hind 1
  · intro p hp f hf rest
    obtain ⟨e, _, rfl⟩ := List.mem_map.mp hp
    exact parseValue_string f hf _ _ rest
  · exact Json.buildObject_eq _ (by rw [hkeys]; exact hwf.1) (by rw [hkeys]; exact hwf.2)
  · simp only [List.length_map]; omega

theorem parseValue_rule (ind : JSString) (hind : ∀ c ∈ ind, c = 0x20) (rule : Rule)
    (hwf : rule.selectors.WellFormed) (f : Nat) (hf : rule.selectors.length + 9 ≤ f)
    (rest : JSString) :
    parseValue f (Json.serialize ind rule.toJson ++ rest) = some (rule.toJson, rest) := by
  apply parseValue_object ind hind (rule.selectors.length + 2)
  · intro p hp f hf rest
    simp only [List.mem_cons, List.mem_singleton, List.not_mem_nil, or_false] at hp
    rcases hp with rfl | rfl | rfl | rfl | rfl | rfl
    · exact parseValue_string f (by omega) _ _ rest
    · exact parseValue_string f (by omega) _ _ rest
    · exact parseValue_string f (by omega) _ _ rest
    · exact parseValue_selectors _ (indent_gap ind hind) _ hwf f hf rest
    · exact parseValue_string f (by omega) _ _ rest
    · exact parseValue_bool f (by omega) _ _ rest
  · exact Json.buildObject_eq _ (by simp only [List.map_cons, List.map_nil]; decide)
      (by simp only [List.map_cons, List.map_nil]; decide)
  · simp only [List.length_cons, List.length_nil]; omega

theorem parseValue_rules (m : Nat) (rules : List Rule)
    (hwf : ∀ rule ∈ rules, rule.selectors.WellFormed)
    (hm : ∀ rule ∈ rules, rule.selectors.length + 9 ≤ m) (f : Nat)
    (hf : m + rules.length + 1 ≤ f) (rest : JSString) :
    parseValue f (jsonStringify (.array (rules.map Rule.toJson)) ++ rest)
      = some (.array (rules.map Rule.toJson), rest) := by
  obtain ⟨f, rfl⟩ : ∃ g, f = g + 1 := ⟨f - 1, by omega⟩
  have hbracket : utf16 "[]" = [0x5B, 0x5D] := by decide
  have hgap : ∀ c ∈ ([] : JSString) ++ [0x20, 0x20], c = 0x20 := indent_gap [] (by simp)
  cases rules with
  | nil =>
    simp only [jsonStringify, List.map_nil, Json.serialize, List.isEmpty_nil, if_true,
      hbracket, List.cons_append, List.nil_append, parseValue]
    rw [skipWs_of_not_ws _ _ (by decide)]
    simp only [Nat.reduceEqDiff, if_false, if_true]
    rw [skipWs_of_not_ws _ _ (by decide)]
    simp
  | cons rule tail =>
    have hitems := parseItems_serializeItems ([] ++ [0x20, 0x20]) [] hgap (by simp) m
      ((rule :: tail).map Rule.toJson) (by simp)
      (fun v hv f hf rest => by
        obtain ⟨r, hr, rfl⟩ := List.mem_map.mp hv
        exact parseValue_rule _ hgap r (hwf r hr) f (by have := hm r hr; omega) rest)
      f (by simp at hf ⊢; omega) rest
    simp only [jsonStringify, List.map_cons, Json.serialize, List.isEmpty_cons,
      Bool.false_eq_true, if_false, List.cons_append, List.append_assoc, List.nil_append,
      parseValue]
    rw [skipWs_of_not_ws _ _ (by decide)]
    simp only [Nat.reduceEqDiff, if_false, if_true]
    have hsk : ∀ X : JSString, skipWs (0x0A :: 0x20 :: 0x20 :: X) = skipWs X := by
      intro X
      simp [skipWs]
    rw [hsk]
    simp only [List.map_cons, Json.serializeItems, Rule.toJson, Json.serialize,
      List.isEmpty_cons, Bool.false_eq_true, if_false, List.cons_append, List.append_assoc,
      List.nil_append] at hitems ⊢
    rw [skipWs_of_not_ws _ _ (by decide)]
    simp only [Nat.reduceEqDiff, if_false]
    rw [hitems]
    rfl

theorem quoteJSONString_length (s : JSString) : 2 ≤ (quoteJSONString s).length := by
  simp only [quoteJSONString, List.length_cons, List.length_append, List.length_nil]
  omega

theorem Json.serializeProps_length (ind : JSString) :
    ∀ ps : List (JSString × Json), ps.length ≤ (Json.serializeProps ind ps).length
  | [] => by simp
  | (key, value) :: rest => by
    have ih := Json.serializeProps_length ind rest
    have hq := quoteJSONString_length key
    simp only [Json.serializeProps, List.length_cons, List.length_append]
    omega

theorem Json.serializeItems_length (ind : JSString) :
    ∀ items : List Json, (∀ v ∈ items, 1 ≤ (Json.serialize ind v).length) →
      items.length ≤ (Json.serializeItems ind items).length
  | [], _ => by simp
  | item :: rest, h => by
    have ih := Json.serializeItems_length ind rest (fun v hv => h v (List.mem_cons_of_mem _ hv))
    have h1 := h item (List.mem_cons_self _ _)
    simp only [Json.serializeItems, List.length_cons, List.length_append]
    omega

theorem Json.serializeItems_length_item (ind : JSString) :
    ∀ items : List Json, (∀ v ∈ items, 1 ≤ (Json.serialize ind v).length) →
      ∀ v ∈ items,
        (Json.serialize ind v).length + items.length ≤ (Json.serializeItems ind items).length + 1
  | [], _, v, hv => by simp at hv
  | item :: rest, h, v, hv => by
    have hrest : ∀ w ∈ rest, 1 ≤ (Json.serialize ind w).length :=
      fun w hw => h w (List.mem_cons_of_mem _ hw)
    have h1 := h item (List.mem_cons_self _ _)
    have h2 := Json.serializeItems_length ind rest hrest
    simp only [Json.serializeItems, List.length_cons, List.length_append]
    rcases List.mem_cons.mp hv with rfl | hmem
    · omega
    · have ih := Json.serializeItems_length_item ind rest hrest v hmem
      omega

theorem Json.serialize_object_cons (ind : JSString) (p : JSString × Json)
    (ps : List (JSString × Json)) :
    Json.serialize ind (.object (p :: ps))
      = [0x7B, 0x0A] ++ (ind ++ [0x20, 0x20])
        ++ Json.serializeProps (ind ++ [0x20, 0x20]) (p :: ps) ++ [0x0A] ++ ind ++ [0x7D] := by
  simp only [Json.serialize, List.isEmpty_cons, Bool.false_eq_true, if_false]

theorem Json.serialize_array_cons (ind : JSString) (item : Json) (items : List Json) :
    Json.serialize ind (.array (item :: items))
      = [0x5B, 0x0A] ++ (ind ++ [0x20, 0x20])
        ++ Json.serializeItems (ind ++ [0x20, 0x20]) (item :: items) ++ [0x0A] ++ ind
        ++ [0x5D] := by
  simp only [Json.serialize, List.isEmpty_cons, Bool.false_eq_true, if_false]

theorem JSObject.toJson_text_length (ind : JSString) (o : JSObject) :
    o.length ≤ (Json.serialize ind o.toJson).length := by
  cases o with
  | nil => simp
  | cons e rest =>
    have h := Json.serializeProps_length (ind ++ [0x20, 0x20])
      ((e :: rest).map (fun e => (e.1, Json.string e.2)))
    simp only [List.length_map] at h
    simp only [JSObject.toJson, List.map_cons, Json.serialize_object_cons,
      List.length_append, List.length_cons] at h ⊢
    omega

theorem Rule.toJson_rule_length (ind : JSString) (rule : Rule) :
    rule.selectors.length + 10 ≤ (Json.serialize ind rule.toJson).length := by
  have h := JSObject.toJson_text_length (ind ++ [0x20, 0x20]) rule.selectors
  simp only [Rule.toJson, Json.serialize_object_cons, Json.serializeProps, quoteJSONString,
    List.length_append, List.length_cons, List.length_nil]
  omega

theorem importOnload_export (rules : List Rule)
    (hwf : ∀ rule ∈ rules, rule.selectors.WellFormed) :
    importOnload (jsonStringify (.array (rules.map Rule.toJson)))
      = .written (rules.map Rule.toJson) := by
  have hlen : ∀ rule ∈ rules, rule.selectors.length + 9 + rules.length
      ≤ (jsonStringify (.array (rules.map Rule.toJson))).length := by
    intro rule hr
    cases rules with
    | nil => simp at hr
    | cons r tail =>
      have h1 := Json.serializeItems_length_item ([] ++ [0x20, 0x20])
        ((r :: tail).map Rule.toJson)
        (fun v hv => by
          obtain ⟨x, _, rfl⟩ := List.mem_map.mp hv
          have := Rule.toJson_rule_length ([] ++ [0x20, 0x20]) x
          omega)
        rule.toJson (List.mem_map.mpr ⟨rule, hr, rfl⟩)
      have h2 := Rule.toJson_rule_length ([] ++ [0x20, 0x20]) rule
      simp only [List.length_map] at h1
      simp only [jsonStringify, List.map_cons, Json.serialize_array_cons,
        List.length_append, List.length_cons, List.length_nil] at h1 ⊢
      omega
  have hparse := parseValue_rules
    ((jsonStringify (.array (rules.map Rule.toJson))).length - rules.length) rules hwf
    (fun rule hr => by have := hlen rule hr; omega)
    ((jsonStringify (.array (rules.map Rule.toJson))).length + 1)
    (by
      cases rules with
      | nil => simp
      | cons r tail => have := hlen r (List.mem_cons_self _ _); omega)
    []
  rw [List.append_nil] at hparse
  have hvalid : (rules.map Rule.toJson).all (fun rule => requiredFields.all
      (fun field => decide (Json.hasProperty field rule = .normal true))) = true := by
    simp only [List.all_eq_true, decide_eq_true_eq]
    intro v hv field hfield
    obtain ⟨r, _, rfl⟩ := List.mem_map.mp hv
    refine (Json.hasProperty_required field hfield _).mpr ⟨_, rfl, ?_⟩
    simp only [requiredFields, List.mem_cons, List.mem_singleton, List.not_mem_nil,
      or_false] at hfield
    rcases hfield with rfl | rfl | rfl | rfl <;> simp
  simp only [importOnload, jsonParse, hparse, skipWs, if_true, importParsed, hvalid]

theorem Rule.toJson_injective : Function.Injective Rule.toJson := by
  intro a b h
  obtain ⟨aid, amt, aurl, asel, atc, avt⟩ := a
  obtain ⟨bid, bmt, burl, bsel, btc, bvt⟩ := b
  simp only [Rule.toJson, JSObject.toJson, Json.object.injEq, List.cons.injEq, Prod.mk.injEq,
    Json.string.injEq, Json.bool.injEq, true_and, and_true] at h
  obtain ⟨h1, h2, h3, h4, h5, h6⟩ := h
  have hinj : Function.Injective (fun e : JSString × JSString => (e.1, Json.string e.2)) := by
    rintro ⟨k1, v1⟩ ⟨k2, v2⟩ he
    simp only [Prod.mk.injEq, Json.string.injEq] at he
    exact Prod.ext he.1 he.2
  have h4 := List.map_injective_iff.mpr hinj h4
  subst h1 h2 h3 h4 h5 h6
  rfl

set_option maxRecDepth 100000 in
/-- The file that the export writes for the rule of Scenario A. -/
theorem exportRules_scenario :
    exportRules { lastError := false, rules := some [scenarioRule] }
      = some (utf16 ("[\n  \x7b\n    \"id\": \"rule-1\",\n    \"matchType\": \"contains\",\n"
          ++ "    \"urlValue\": \"example.com/orders\",\n    \"selectors\": \x7b\n"
          ++ "      \"order\": \"#order-id\"\n    \x7d,\n"
          ++ "    \"titleChange\": \"Order \x7b\x7border\x7d\x7d\",\n"
          ++ "    \"verifiedTitle\": false\n  \x7d\n]")) := by
  decide

/-- The quoting of a string with a quotation mark, a line feed, a control character, a
surrogate pair and a lone surrogate. -/
theorem quoteJSONString_example :
    quoteJSONString [0x22, 0x0A, 0x01, 0xD83D, 0xDE00, 0xD83D]
      = [0x22] ++ utf16 "\\\"\\n\\u0001" ++ [0xD83D, 0xDE00] ++ utf16 "\\ud83d" ++ [0x22] := by
  decide

set_option maxRecDepth 100000 in
/-- The parser on a text with white space, escapes, a repeated key and an integer-like
key, and on two texts that are no JSON. -/
theorem jsonParse_examples :
    jsonParse (utf16 (" [1, -2.5e+3 , \"a\\u0041\\n\", true,null, [], "
        ++ "\x7b\"b\": \x7b\x7d, \"1\": false, \"b\": 0\x7d ] "))
      = some (.array [.number (utf16 "1"), .number (utf16 "-2.5e+3"), .string (utf16 "aA\n"),
          .bool true, .null, .array [],
          .object [(utf16 "1", .bool false), (utf16 "b", .number (utf16 "0"))]]) ∧
    jsonParse (utf16 "[1,]") = none ∧
    jsonParse (utf16 "01") = none ∧
    importOnload (utf16 "[1,]") = .error :=
  ⟨rfl, rfl, rfl, rfl⟩

/-! ## Claim C24: export and import -/

/-- C24: for every stored rule list (rules with the fields id, matchType, urlValue,
selectors, titleChange and verifiedTitle, the `selectors` of each a JavaScript object,
that is with distinct keys in property order), the export produces a file, and
importing the text of that file passes the validation and writes a list of the same
length whose values are, in order, those of the original rules: no other rule list has
the same values. -/
theorem C24_import_of_export_stores_the_original (rules : List Rule)
    (hwf : ∀ rule ∈ rules, rule.selectors.WellFormed) :
    ∃ text, exportRules { lastError := false, rules := some rules } = some text ∧
      importOnload text = .written (rules.map Rule.toJson) ∧
      (rules.map Rule.toJson).length = rules.length ∧
      ∀ other : List Rule, other.map Rule.toJson = rules.map Rule.toJson → other = rules :=
  ⟨jsonStringify (.array (rules.map Rule.toJson)), rfl, importOnload_export rules hwf,
    List.length_map _ _, fun _ h => List.map_injective_iff.mpr Rule.toJson_injective h⟩

/-- C24 on the rule list of Scenarios A and D. -/
theorem C24_import_of_export_stores_the_original_witness :
    (∀ rule ∈ [scenarioRule, secondRule], rule.selectors.WellFormed) ∧
    ∃ text, exportRules { lastError := false, rules := some [scenarioRule, secondRule] }
        = some text ∧
      importOnload text = .written ([scenarioRule, secondRule].map Rule.toJson) ∧
      ([scenarioRule, secondRule].map Rule.toJson).length = [scenarioRule, secondRule].length ∧
      ∀ other : List Rule,
        other.map Rule.toJson = [scenarioRule, secondRule].map Rule.toJson →
          other = [scenarioRule, secondRule] :=
  ⟨by decide, C24_import_of_export_stores_the_original [scenarioRule, secondRule] (by decide)⟩

end TabMod
